import Mathlib

/-!
# 1D wave equation, leapfrog integrator

Shallow embedding of `optimized_leapfrog_1D_wave_equation` and `measure_execution_time`
(`mini-eps/mini-ep-02/src/optimized_leapfrog_1D_wave_equation.c`), twice.

Namespace `Leapfrog` is the program in exact arithmetic over an ordered field `K` (`ℚ` for
evaluation, `ℝ` for the statements that mention the exponential):

* `float` values are elements of `K`; `expf` and `sqrtf` are parameters, `powf y 2` is
  `y ^ 2`.
* arrays are lists; every read and write is bounds checked and every division
  by a computed quantity is checked, a failed check yields `none`.
* `unsigned short` counters are natural numbers, reduced modulo `2 ^ 16` where
  the source converts to that type.

Namespace `Binary32` is the integrator in the arithmetic of the source, IEEE 754 single
precision; it decides the statements whose truth depends on rounding, underflow or NaN.
-/

namespace Leapfrog

variable {K : Type} [LinearOrderedField K]

/-- Checked array read `arr[i]`. -/
def rd (arr : List K) (i : Nat) : Option K := arr[i]?

/-- Checked array write `arr[i] = val`. -/
def wr {α : Type} (arr : List α) (i : Nat) (val : α) : Option (List α) :=
  if i < arr.length then some (arr.set i val) else none

/-- Checked division `p / q` in exact arithmetic: there is no quotient by zero. (In
`float` arithmetic the same division yields an infinity or a NaN and the program goes on;
exact arithmetic has no value for it.) -/
def fdiv (p q : K) : Option K :=
  if q = 0 then none else some (p / q)

/-- The loop `for (i = lo; ...; i++) body`, unrolled `count` times. -/
def iterate {σ : Type} (body : Nat → σ → Option σ) : Nat → Nat → σ → Option σ
  | _, 0, s => some s
  | i, count + 1, s => (body i s).bind (iterate body (i + 1) count)

/-- The loop `for (i = lo; i < hi; i++) body`. -/
def forLoop {σ : Type} (lo hi : Nat) (body : Nat → σ → Option σ) (s : σ) : Option σ :=
  iterate body lo (hi - lo) s

/-- A loop body instrumented with a counter of the iterations executed. -/
def counted {σ : Type} (body : Nat → σ → Option σ) (i : Nat) (sc : σ × Nat) :
    Option (σ × Nat) :=
  (body i sc.1).bind fun s => some (s, sc.2 + 1)

/-- The value of the comparison bound `num_points - 1`, computed in `int`, as a
loop bound for a counter that starts at a non-negative value. -/
def upper (num_points : Nat) : Nat := ((num_points : Int) - 1).toNat

/-- Conversion `(unsigned short int) q` of a float: the fractional part is
discarded (rounding toward zero) and the integer is kept in 16 bits. For
`0 ≤ q < 65536` this is the integer part of `q`; outside that range C leaves the
conversion undefined and the model keeps the low 16 bits. -/
def to_ushort [FloorRing K] (q : K) : Nat :=
  ((if 0 ≤ q then ⌊q⌋ else -⌊-q⌋) % 65536).toNat

/-- Line 27: `(unsigned short int)((t_final - t_start) / dt) + 1` stored in an
`unsigned short int`. The addition is done in `int`, the store reduces it
modulo `2 ^ 16`. -/
def num_time_steps [FloorRing K] (t_final dt : K) : Option Nat :=
  (fdiv (t_final - 0) dt).bind fun q => some ((to_ushort q + 1) % 65536)

/-- Field state of the integrator: displacement, velocity, acceleration. -/
structure FieldState (K : Type) where
  u : List K
  v : List K
  a : List K

/-- Body of the initialisation loop, lines 42-43. -/
def init_body (expf : K → K) (dx : K) (i : Nat) (s : List K × List K) :
    Option (List K × List K) :=
  (wr s.1 i (0 + (i : K) * dx)).bind fun x =>
  (rd x i).bind fun xi =>
  (wr s.2 i (expf (-((xi - 5) ^ 2)))).bind fun u =>
  some (x, u)

/-- Lines 30-31 and 41-44: the grid and the initial displacement. The cells
returned by `malloc` are all written before they are read; the model starts
them at zero. -/
def init_arrays (expf : K → K) (num_points : Nat) (dx : K) : Option (List K × List K) :=
  forLoop 0 num_points (init_body expf dx)
    (List.replicate num_points 0, List.replicate num_points 0)

/-- Body of the acceleration loop, line 52. -/
def accel_body (dx : K) (i : Nat) (s : FieldState K) : Option (FieldState K) :=
  (rd s.u (i - 1)).bind fun ul =>
  (rd s.u (i + 1)).bind fun ur =>
  (rd s.u i).bind fun uc =>
  (fdiv (ul + ur - 2 * uc) (dx * dx)).bind fun q =>
  (wr s.a i q).bind fun a =>
  some { s with a := a }

/-- Body of the velocity loop, line 57. -/
def vel_body (dt_leapfrog : K) (i : Nat) (s : FieldState K) : Option (FieldState K) :=
  (rd s.v i).bind fun vi =>
  (rd s.a i).bind fun ai =>
  (wr s.v i (vi + ai * dt_leapfrog)).bind fun v =>
  some { s with v := v }

/-- Body of the displacement loop, line 62. -/
def disp_body (dt : K) (i : Nat) (s : FieldState K) : Option (FieldState K) :=
  (rd s.u i).bind fun ui =>
  (rd s.v i).bind fun vi =>
  (wr s.u i (ui + vi * dt)).bind fun u =>
  some { s with u := u }

/-- Body of the time-stepping loop, lines 48-63. -/
def time_step (num_points : Nat) (dx dt : K) (t : Nat) (s : FieldState K) : Option (FieldState K) :=
  let dt_leapfrog := if t = 0 then dt * (1 / 2) else dt
  (forLoop 1 (upper num_points) (accel_body dx) s).bind fun s1 =>
  (forLoop 1 (upper num_points) (vel_body dt_leapfrog) s1).bind fun s2 =>
  forLoop 1 (upper num_points) (disp_body dt) s2

/-- Everything the function has computed when it reaches the time loop
(lines 24-44). -/
structure Setup (K : Type) where
  dx : K
  dt : K
  steps : Nat
  x : List K
  state : FieldState K

/-- Lines 24-44: step sizes, step count, allocation and initialisation.
`calloc` gives zero-filled velocity and acceleration. -/
def setup [FloorRing K] (expf : K → K) (num_points : Nat) (x_final t_final : K) :
    Option (Setup K) :=
  (fdiv (x_final - 0) (((num_points : Int) - 1 : Int) : K)).bind fun dx =>
  let dt := dx / 2
  (num_time_steps t_final dt).bind fun steps =>
  (init_arrays expf num_points dx).bind fun xu =>
  some { dx := dx, dt := dt, steps := steps, x := xu.1,
         state := { u := xu.2, v := List.replicate num_points 0,
                    a := List.replicate num_points 0 } }

/-- The field after the first `k` iterations of the time loop (lines 47-64). -/
def run_steps (num_points : Nat) (dx dt : K) (k : Nat) (s : FieldState K) : Option (FieldState K) :=
  forLoop 0 k (time_step num_points dx dt) s

/-- The function `optimized_leapfrog_1D_wave_equation`: returns the grid `*x`
and the displacement `*u`. -/
def optimized_leapfrog_1D_wave_equation [FloorRing K] (expf : K → K) (num_points : Nat)
    (x_final t_final : K) : Option (List K × List K) :=
  (setup expf num_points x_final t_final).bind fun st =>
  (run_steps num_points st.dx st.dt st.steps st.state).bind fun s =>
  some (st.x, s.u)

/-- One pass of the timing loop, lines 89-98: the integrator runs between two clock
readings, the elapsed time `samples i` of that run is stored in `times[i]`, and the
arrays the integrator returned are freed. Nothing the integrator computed is read
afterwards. -/
def timed_run [FloorRing K] (expf : K → K) (samples : Nat → K) (num_points : Nat)
    (x_final t_final : K) (i : Nat) (times : List K) : Option (List K) :=
  let _xu := optimized_leapfrog_1D_wave_equation expf num_points x_final t_final
  wr times i (samples i)

/-- The function `measure_execution_time`: returns `*mean_time` and `*std_time`.
`samples i` is the elapsed time the clock reports for run `i`, `sqrtf` is a parameter,
`powf y 2` is `y ^ 2`. -/
def measure_execution_time [FloorRing K] (expf sqrtf : K → K) (samples : Nat → K)
    (num_runs num_points : Nat) (x_final t_final : K) : Option (K × K) :=
  (forLoop 0 num_runs (timed_run expf samples num_points x_final t_final)
    (List.replicate num_runs 0)).bind fun times =>
  (forLoop 0 num_runs (fun i sum_time => (rd times i).bind fun ti => some (sum_time + ti))
    0).bind fun sum_time =>
  (fdiv sum_time (num_runs : K)).bind fun mean_time =>
  (forLoop 0 num_runs
    (fun i sum_square_diff =>
      (rd times i).bind fun ti => some (sum_square_diff + (ti - mean_time) ^ 2))
    0).bind fun sum_square_diff =>
  (fdiv sum_square_diff (num_runs : K)).bind fun q =>
  some (mean_time, sqrtf q)

/-- Index `j` is an interior point: `1 ≤ j < num_points - 1`. -/
def interior (num_points j : Nat) : Prop := 1 ≤ j ∧ j < upper num_points

instance (num_points j : Nat) : Decidable (interior num_points j) := by
  unfold interior; infer_instance

/-! ### Quantities of the stability argument

The functions below are not part of the program; they measure its states. A state is
read as two sequences: the displacement `u` and the displacement increment `p = dt * v`. -/

/-- The sum over `j < n - 1` of the products of forward differences
`(f (j+1) - f j) * (g (j+1) - g j)`. -/
def diff_dot (n : Nat) (f g : Nat → K) : K :=
  ∑ j ∈ Finset.range (n - 1), (f (j + 1) - f j) * (g (j + 1) - g j)

/-- Discrete energy of a displacement `u` with increment `p`: the squares of `p` over
the interior plus a quarter of the difference products of `u` with `u - p`. -/
def energy (n : Nat) (u p : Nat → K) : K :=
  ∑ j ∈ Finset.range (n - 2), p (j + 1) ^ 2 + 1 / 4 * (diff_dot n u u - diff_dot n u p)

/-- The displacement increment of the first time step, from the initial displacement
alone: an eighth of the second difference at interior points, zero elsewhere. -/
def first_increment (n : Nat) (u0 : List K) (j : Nat) : K :=
  if interior n j then (u0.getD (j - 1) 0 + u0.getD (j + 1) 0 - 2 * u0.getD j 0) / 8 else 0

/-- The energy after the first time step, from the initial displacement alone. -/
def initial_energy (n : Nat) (u0 : List K) : K :=
  energy n (fun j => u0.getD j 0 + first_increment n u0 j) (first_increment n u0)

/-- A bound on every displacement value of a run, computed from the number of points and
the initial displacement only. -/
def stability_bound (n : Nat) (u0 : List K) : K :=
  ∑ j ∈ Finset.range n, |u0.getD j 0| + 2 + (4 * ((n : K) - 1) + 2) * initial_energy n u0

end Leapfrog

/-!
# The integrator in single precision

Second embedding of `optimized_leapfrog_1D_wave_equation`, in the arithmetic the source
uses.

* a `float` is an IEEE 754 binary32 value: a rational that the format holds, an infinity or
  a NaN; every arithmetic operation of the source is one operation here, rounded to nearest
  with ties to even (no fused multiply-add, no wider intermediate precision); zero carries
  no sign, which no statement below depends on.
* `expf` and `powf` are the C library functions, taken as parameters.
* division never fails: a division by zero yields an infinity or a NaN and the program goes
  on. The only operation without a defined result is the conversion of a `float` outside
  `(-1, 65536)` to `unsigned short int`; it yields `none`.
* arrays, loops and counters are those of namespace `Leapfrog`.
-/

namespace Binary32

/-- A single-precision (IEEE 754 binary32) value: a finite number, an infinity with its
sign, or a NaN. Zero carries no sign. -/
inductive F32
  | fin (q : ℚ)
  | inf (negative : Bool)
  | nan
  deriving DecidableEq

open F32

/-- Rounding of a rational to the nearest integer, ties to the even one. -/
def round_half_even (x : ℚ) : ℤ :=
  if x - ⌊x⌋ < 1 / 2 then ⌊x⌋
  else if 1 / 2 < x - ⌊x⌋ then ⌊x⌋ + 1
  else if ⌊x⌋ % 2 = 0 then ⌊x⌋ else ⌊x⌋ + 1

/-- The binary exponent used to round `q`: the `e` with `2^e ≤ |q| < 2^(e+1)`, and `-126`
for the subnormal range and for zero below it. -/
def exponent (q : ℚ) : ℤ := max (Int.log 2 |q|) (-126)

/-- Rounding of an exact result to binary32, to nearest with ties to even: 24 significant
bits, subnormals below `2^(-126)`, infinity from `2^128` on. -/
def round32 (q : ℚ) : F32 :=
  let r : ℚ := (round_half_even (q / 2 ^ (exponent q - 23)) : ℚ) * 2 ^ (exponent q - 23)
  if 2 ^ (128 : ℤ) ≤ |r| then inf (decide (r < 0)) else fin r

/-- Float negation `-a`. -/
def neg : F32 → F32
  | fin a => fin (-a)
  | inf s => inf (!s)
  | nan => nan

/-- Float addition `a + b`. -/
def add : F32 → F32 → F32
  | fin a, fin b => round32 (a + b)
  | fin _, inf t => inf t
  | inf s, fin _ => inf s
  | inf s, inf t => if s = t then inf s else nan
  | _, _ => nan

/-- Float subtraction `a - b`. -/
def sub (a b : F32) : F32 := add a (neg b)

/-- Float multiplication `a * b`. -/
def mul : F32 → F32 → F32
  | fin a, fin b => round32 (a * b)
  | fin a, inf t => if a = 0 then nan else inf (xor (decide (a < 0)) t)
  | inf s, fin b => if b = 0 then nan else inf (xor s (decide (b < 0)))
  | inf s, inf t => inf (xor s t)
  | _, _ => nan

/-- Float division `a / b`. A non-zero number over zero is an infinity, zero over zero is
a NaN; the program goes on in both cases. -/
def div : F32 → F32 → F32
  | fin a, fin b =>
    if b = 0 then (if a = 0 then nan else inf (decide (a < 0))) else round32 (a / b)
  | fin _, inf _ => fin 0
  | inf s, fin b => inf (xor s (decide (b < 0)))
  | _, _ => nan

/-- Conversion of an `int` to `float`. -/
def of_int (i : Int) : F32 := round32 (i : ℚ)

/-- Conversion `(unsigned short int) q` of a float: the fractional part is discarded.
C defines the conversion only when the integer part fits, that is for a number with
`-1 < q < 65536`. -/
def to_ushort : F32 → Option Nat
  | fin q => if -1 < q ∧ q < 65536 then some (if 0 ≤ q then ⌊q⌋.toNat else 0) else none
  | _ => none

/-- Line 27 in single precision: `(unsigned short int)((t_final - t_start) / dt) + 1`
stored in an `unsigned short int`. -/
def num_time_steps (t_final dt : F32) : Option Nat :=
  (to_ushort (div (sub t_final (fin 0)) dt)).bind fun k => some ((k + 1) % 65536)

/-- Body of the initialisation loop, lines 42-43, in single precision. -/
def init_body (expf : F32 → F32) (powf : F32 → F32 → F32) (dx : F32) (i : Nat)
    (s : List F32 × List F32) : Option (List F32 × List F32) :=
  (Leapfrog.wr s.1 i (add (fin 0) (mul (of_int i) dx))).bind fun x =>
  x[i]?.bind fun xi =>
  (Leapfrog.wr s.2 i (expf (neg (powf (sub xi (of_int 5)) (of_int 2))))).bind fun u =>
  some (x, u)

/-- Lines 30-31 and 41-44 in single precision. -/
def init_arrays (expf : F32 → F32) (powf : F32 → F32 → F32) (num_points : Nat) (dx : F32) :
    Option (List F32 × List F32) :=
  Leapfrog.forLoop 0 num_points (init_body expf powf dx)
    (List.replicate num_points (fin 0), List.replicate num_points (fin 0))

/-- Body of the acceleration loop, line 52, in single precision. -/
def accel_body (dx : F32) (i : Nat) (s : Leapfrog.FieldState F32) :
    Option (Leapfrog.FieldState F32) :=
  s.u[i - 1]?.bind fun ul =>
  s.u[i + 1]?.bind fun ur =>
  s.u[i]?.bind fun uc =>
  (Leapfrog.wr s.a i (div (sub (add ul ur) (mul (of_int 2) uc)) (mul dx dx))).bind fun a =>
  some { s with a := a }

/-- Body of the velocity loop, line 57, in single precision. -/
def vel_body (dt_leapfrog : F32) (i : Nat) (s : Leapfrog.FieldState F32) :
    Option (Leapfrog.FieldState F32) :=
  s.v[i]?.bind fun vi =>
  s.a[i]?.bind fun ai =>
  (Leapfrog.wr s.v i (add vi (mul ai dt_leapfrog))).bind fun v =>
  some { s with v := v }

/-- Body of the displacement loop, line 62, in single precision. -/
def disp_body (dt : F32) (i : Nat) (s : Leapfrog.FieldState F32) :
    Option (Leapfrog.FieldState F32) :=
  s.u[i]?.bind fun ui =>
  s.v[i]?.bind fun vi =>
  (Leapfrog.wr s.u i (add ui (mul vi dt))).bind fun u =>
  some { s with u := u }

/-- Body of the time-stepping loop, lines 48-63, in single precision. -/
def time_step (num_points : Nat) (dx dt : F32) (t : Nat) (s : Leapfrog.FieldState F32) :
    Option (Leapfrog.FieldState F32) :=
  let dt_leapfrog := if t = 0 then mul dt (fin (1 / 2)) else dt
  (Leapfrog.forLoop 1 (Leapfrog.upper num_points) (accel_body dx) s).bind fun s1 =>
  (Leapfrog.forLoop 1 (Leapfrog.upper num_points) (vel_body dt_leapfrog) s1).bind fun s2 =>
  Leapfrog.forLoop 1 (Leapfrog.upper num_points) (disp_body dt) s2

/-- Lines 24-44 in single precision. -/
def setup (expf : F32 → F32) (powf : F32 → F32 → F32) (num_points : Nat)
    (x_final t_final : F32) : Option (Leapfrog.Setup F32) :=
  let dx := div (sub x_final (fin 0)) (of_int ((num_points : Int) - 1))
  let dt := div dx (of_int 2)
  (num_time_steps t_final dt).bind fun steps =>
  (init_arrays expf powf num_points dx).bind fun xu =>
  some { dx := dx, dt := dt, steps := steps, x := xu.1,
         state := { u := xu.2, v := List.replicate num_points (fin 0),
                    a := List.replicate num_points (fin 0) } }

/-- The field after the first `k` iterations of the time loop, in single precision. -/
def run_steps (num_points : Nat) (dx dt : F32) (k : Nat) (s : Leapfrog.FieldState F32) :
    Option (Leapfrog.FieldState F32) :=
  Leapfrog.forLoop 0 k (time_step num_points dx dt) s

/-- The function `optimized_leapfrog_1D_wave_equation` in single precision: every
arithmetic operation is rounded to binary32; `expf` and `powf` are the library functions,
taken as parameters. The result is `none` only where C leaves the behaviour undefined,
at the conversion of the step count. -/
def optimized_leapfrog_1D_wave_equation (expf : F32 → F32) (powf : F32 → F32 → F32)
    (num_points : Nat) (x_final t_final : F32) : Option (List F32 × List F32) :=
  (setup expf powf num_points x_final t_final).bind fun st =>
  (run_steps num_points st.dx st.dt st.steps st.state).bind fun s =>
  some (st.x, s.u)

end Binary32

/-!
# The sorting and Fibonacci exercise

Shallow embedding of `mini-eps/mini-ep-03/src/mini_ep3.c` (namespace `MiniEp3`) and of
`mini-eps/mini-ep-03/original_mini_ep_3/mini_ep3.c` (namespace `MiniEp3Original`).

* `int` and `long long` values are integers; the programs stay far from overflow on the
  inputs considered (array values up to 32).
* arrays are lists, indexed through `int` indices; every read and write is bounds
  checked, a failed check yields `none`.
* the recursive sorts take a bound `fuel` on the depth of the recursion and yield `none`
  when it is used up.
-/

namespace IntArray

/-- Checked read `arr[i]` through an `int` index. -/
def read (arr : List Int) (i : Int) : Option Int :=
  if 0 ≤ i then arr[i.toNat]? else none

/-- Checked write `arr[i] = val` through an `int` index. -/
def write (arr : List Int) (i : Int) (val : Int) : Option (List Int) :=
  if 0 ≤ i ∧ i.toNat < arr.length then some (arr.set i.toNat val) else none

/-- The loop `for (j = lo; ...; j++) body` with an `int` counter, unrolled `count` times. -/
def loop_from {σ : Type} (body : Int → σ → Option σ) : Int → Nat → σ → Option σ
  | _, 0, s => some s
  | j, count + 1, s => (body j s).bind (loop_from body (j + 1) count)

/-- The loop `for (i = lo; ...; i += 2) body`, unrolled `count` times. -/
def loop_by_two {σ : Type} (body : Nat → σ → Option σ) : Nat → Nat → σ → Option σ
  | _, 0, s => some s
  | i, count + 1, s => (body i s).bind (loop_by_two body (i + 2) count)

/-- The cells `lo ≤ k < hi` of `arr` are in non-decreasing order. -/
def sorted_on (arr : List Int) (lo hi : Nat) : Prop :=
  ∀ a b, lo ≤ a → a ≤ b → b < hi → arr.getD a 0 ≤ arr.getD b 0

/-- The array `b` is `a` with the cells `lo ≤ k < hi` rearranged: same length, a
permutation, every cell outside the range unchanged, and every cell inside the range
holds a value that was inside the range. -/
def shuffled (lo hi : Nat) (a b : List Int) : Prop :=
  b.length = a.length ∧ b.Perm a ∧
  (∀ k, k < lo ∨ hi ≤ k → b.getD k 0 = a.getD k 0) ∧
  (∀ k, lo ≤ k → k < hi → ∃ k', lo ≤ k' ∧ k' < hi ∧ b.getD k 0 = a.getD k' 0)

end IntArray

namespace MiniEp3

open IntArray

/-- The function `swap` applied to `&arr[a]` and `&arr[b]`. -/
def swap (arr : List Int) (a b : Int) : Option (List Int) :=
  (read arr a).bind fun temp =>
  (read arr b).bind fun vb =>
  (write arr a vb).bind fun arr1 =>
  write arr1 b temp

/-- Body of the partition loop of `quicksort`, lines 24-27; the state is `(arr, i)`. -/
def partition_body (pivot : Int) (j : Int) (s : List Int × Int) : Option (List Int × Int) :=
  (read s.1 j).bind fun aj =>
  if aj < pivot then
    (swap s.1 (s.2 + 1) j).bind fun arr => some (arr, s.2 + 1)
  else some s

/-- Lines 20-31 of `quicksort`: partition of `arr[low..high]` around `arr[high]`;
returns the array and the pivot position `pi`. The loop
`for (j = low; j <= high - 1; j++)` makes `high - low` passes. -/
def partition (arr : List Int) (low high : Int) : Option (List Int × Int) :=
  (read arr high).bind fun pivot =>
  (loop_from (partition_body pivot) low (high - low).toNat (arr, low - 1)).bind fun s =>
  (swap s.1 (s.2 + 1) high).bind fun arr1 =>
  some (arr1, s.2 + 1)

/-- The function `quicksort`; `fuel` bounds the depth of the recursion. -/
def quicksort : Nat → List Int → Int → Int → Option (List Int)
  | 0, _, _, _ => none
  | fuel + 1, arr, low, high =>
    if low < high then
      (partition arr low high).bind fun ap =>
      (quicksort fuel ap.1 low (ap.2 - 1)).bind fun arr2 =>
      quicksort fuel arr2 (ap.2 + 1) high
    else some arr

/-- The constant `MAX_FIB`, the number of cells of `fib_memo`. -/
def MAX_FIB : Nat := 100000

/-- The function `fibonacci` with its global table `fib_memo` passed in and out, for the
arguments `n ≥ 0` the program calls it with. The read and the write of `fib_memo[n]` are
bounds checked. Of the two calls in `fibonacci(n - 1) + fibonacci(n - 2)` the left one is
taken first; the other order leaves the same table. -/
def fibonacci : Nat → (Nat → Int) → Option (Int × (Nat → Int))
  | 0, fib_memo => some (0, fib_memo)
  | 1, fib_memo => some (1, fib_memo)
  | n + 2, fib_memo =>
    if n + 2 < MAX_FIB then
      if fib_memo (n + 2) ≠ -1 then some (fib_memo (n + 2), fib_memo)
      else
        (fibonacci (n + 1) fib_memo).bind fun r1 =>
        (fibonacci n r1.2).bind fun r2 =>
        some (r1.1 + r2.1, Function.update r2.2 (n + 2) (r1.1 + r2.1))
    else none

/-- Lines 65-74 of `main`: every cell of `fib_memo` is set to `-1`, `max_valor` is the
last cell of the sorted array, and `fibonacci(i)` is called for `i = 2, 4, ...` up to
`max_valor`: the loop `for (i = 2; i <= max_valor; i += 2)` makes `max_valor / 2` passes.
Returns the table. `TAMANHO` is the length of `vetor`. -/
def fib_table (vetor : List Int) : Option (Nat → Int) :=
  (read vetor ((vetor.length : Int) - 1)).bind fun max_valor =>
  loop_by_two (fun i fib_memo => (fibonacci i fib_memo).bind fun r => some r.2)
    2 (max_valor.toNat / 2) (fun _ => -1)

/-- Checked read `fib_memo[v]` of the table through an `int` index. -/
def table_read (fib_memo : Nat → Int) (v : Int) : Option Int :=
  if 0 ≤ v ∧ v.toNat < MAX_FIB then some (fib_memo v.toNat) else none

/-- Body of the summation loop, line 78: `soma += fib_memo[vetor[i]]`. -/
def table_sum_body (vetor : List Int) (fib_memo : Nat → Int) (i : Nat) (soma : Int) :
    Option Int :=
  vetor[i]?.bind fun v =>
  (table_read fib_memo v).bind fun f =>
  some (soma + f)

/-- Lines 64-79 of `main`, from the sorted array to the printed `soma`. -/
def table_sum (vetor : List Int) : Option Int :=
  (fib_table vetor).bind fun fib_memo =>
  Leapfrog.forLoop 0 vetor.length (table_sum_body vetor fib_memo) 0

end MiniEp3

namespace MiniEp3Original

open IntArray

/-- The function `slowsort`; `fuel` bounds the depth of the recursion. -/
def slowsort : Nat → List Int → Int → Int → Option (List Int)
  | 0, _, _, _ => none
  | fuel + 1, arr, i, j =>
    if i ≥ j then some arr
    else
      let m := Int.tdiv (i + j) 2
      (slowsort fuel arr i m).bind fun arr1 =>
      (slowsort fuel arr1 (m + 1) j).bind fun arr2 =>
      (read arr2 j).bind fun aj =>
      (read arr2 m).bind fun am =>
      (if aj < am then
        (write arr2 j am).bind fun arr3 => write arr3 m aj
      else some arr2).bind fun arr4 =>
      slowsort fuel arr4 i (j - 1)

/-- The recursion of `fibonacci` for arguments above 1. -/
def fibonacci_nat : Nat → Int
  | 0 => 0
  | 1 => 1
  | n + 2 => fibonacci_nat (n + 1) + fibonacci_nat n

/-- The function `fibonacci` of the original program (`int` overflow apart, which does
not occur for arguments up to 46). -/
def fibonacci (n : Int) : Int :=
  if n ≤ 1 then n else fibonacci_nat n.toNat

/-- Body of the summation loop, lines 41-44. -/
def parity_sum_body (vetor : List Int) (i : Nat) (soma : Int) : Option Int :=
  vetor[i]?.bind fun v =>
  let fib := fibonacci v
  some (if Int.tmod fib 2 = 0 then soma + fib else soma)

/-- Lines 39-45 of `main`, from the sorted array to the printed `soma`. -/
def parity_sum (vetor : List Int) : Option Int :=
  Leapfrog.forLoop 0 vetor.length (parity_sum_body vetor) 0

end MiniEp3Original

namespace Leapfrog

variable {K : Type} [LinearOrderedField K]

/-! ## Loops -/

theorem iterate_inv {σ : Type} (body : Nat → σ → Option σ) (P : Nat → σ → Prop) :
    ∀ (count lo : Nat) (s : σ), P lo s →
      (∀ i s, lo ≤ i → i < lo + count → P i s → ∃ s', body i s = some s' ∧ P (i + 1) s') →
      ∃ s', iterate body lo count s = some s' ∧ P (lo + count) s' := by
  intro count
  induction count with
  | zero => intro lo s h _; exact ⟨s, rfl, by simpa using h⟩
  | succ c ih =>
    intro lo s h hstep
    obtain ⟨s1, h1, hP1⟩ := hstep lo s le_rfl (by omega) h
    obtain ⟨s2, h2, hP2⟩ := ih (lo + 1) s1 hP1
      (fun i s hi hi2 hP => hstep i s (by omega) (by omega) hP)
    refine ⟨s2, ?_, ?_⟩
    · simp [iterate, h1, h2]
    · have : lo + (c + 1) = lo + 1 + c := by omega
      rw [this]; exact hP2

theorem forLoop_inv {σ : Type} (body : Nat → σ → Option σ) (P : Nat → σ → Prop)
    (lo hi : Nat) (s : σ) (hle : lo ≤ hi) (h0 : P lo s)
    (hstep : ∀ i s, lo ≤ i → i < hi → P i s → ∃ s', body i s = some s' ∧ P (i + 1) s') :
    ∃ s', forLoop lo hi body s = some s' ∧ P hi s' := by
  obtain ⟨s', h1, h2⟩ := iterate_inv body P (hi - lo) lo s h0
    (fun i s hi1 hi2 hP => hstep i s hi1 (by omega) hP)
  refine ⟨s', h1, ?_⟩
  have : lo + (hi - lo) = hi := by omega
  rw [this] at h2; exact h2

theorem forLoop_empty {σ : Type} (body : Nat → σ → Option σ) (lo hi : Nat) (s : σ)
    (h : hi ≤ lo) : forLoop lo hi body s = some s := by
  have : hi - lo = 0 := by omega
  simp [forLoop, this, iterate]

theorem iterate_succ_last {σ : Type} (body : Nat → σ → Option σ) :
    ∀ (count lo : Nat) (s : σ),
      iterate body lo (count + 1) s = (iterate body lo count s).bind (body (lo + count)) := by
  intro count
  induction count with
  | zero => intro lo s; simp [iterate]
  | succ c ih =>
    intro lo s
    rw [iterate]
    cases h : body lo s with
    | none => simp [iterate, h]
    | some s1 =>
      simp only [Option.some_bind]
      rw [ih (lo + 1) s1]
      conv_rhs => rw [iterate, h]
      simp only [Option.some_bind]
      have : lo + 1 + c = lo + (c + 1) := by omega
      rw [this]

/-! ## Array cells -/

theorem rd_eq (arr : List K) (i : Nat) (h : i < arr.length) :
    rd arr i = some (arr.getD i 0) := by
  simp [rd, List.getD_eq_getElem?_getD, List.getElem?_eq_getElem h]

theorem wr_eq {α : Type} (arr : List α) (i : Nat) (val : α) (h : i < arr.length) :
    wr arr i val = some (arr.set i val) := by
  simp [wr, h]

theorem getD_set (arr : List K) (i j : Nat) (val : K) (h : i < arr.length) :
    (arr.set i val).getD j 0 = if j = i then val else arr.getD j 0 := by
  simp only [List.getD_eq_getElem?_getD, List.getElem?_set]
  by_cases hji : j = i
  · subst hji; simp [h]
  · have : ¬ i = j := fun e => hji e.symm
    simp [hji, this]

theorem fdiv_eq (p q : K) (h : q ≠ 0) : fdiv p q = some (p / q) := by
  simp [fdiv, h]

theorem interior_iff (n j : Nat) : interior n j ↔ 1 ≤ j ∧ j + 1 < n := by
  unfold interior upper; omega

/-! ## The three update loops -/

theorem accel_loop_spec (n : Nat) (dx : K) (s : FieldState K) (hdx : dx ≠ 0)
    (hu : s.u.length = n) (ha : s.a.length = n) :
    ∃ s', forLoop 1 (upper n) (accel_body dx) s = some s' ∧ s'.u = s.u ∧ s'.v = s.v ∧
      s'.a.length = n ∧
      ∀ j, s'.a.getD j 0 =
        if interior n j then
          (s.u.getD (j - 1) 0 + s.u.getD (j + 1) 0 - 2 * s.u.getD j 0) / (dx * dx)
        else s.a.getD j 0 := by
  by_cases hn : 1 ≤ upper n
  · obtain ⟨s', h1, h2, h3, h4, h5⟩ := forLoop_inv (accel_body dx)
      (fun i s' => s'.u = s.u ∧ s'.v = s.v ∧ s'.a.length = n ∧
        ∀ j, s'.a.getD j 0 =
          if 1 ≤ j ∧ j < i then
            (s.u.getD (j - 1) 0 + s.u.getD (j + 1) 0 - 2 * s.u.getD j 0) / (dx * dx)
          else s.a.getD j 0)
      1 (upper n) s hn
      ⟨rfl, rfl, ha, fun j => by
        have : ¬ (1 ≤ j ∧ j < 1) := by omega
        rw [if_neg this]⟩
      (by
        intro i s' hi1 hi2 ⟨e1, e2, e3, e4⟩
        have hin : i + 1 < n := by unfold upper at hi2; omega
        have hdd : dx * dx ≠ 0 := mul_ne_zero hdx hdx
        refine ⟨⟨s'.u, s'.v, s'.a.set i
          ((s.u.getD (i - 1) 0 + s.u.getD (i + 1) 0 - 2 * s.u.getD i 0) / (dx * dx))⟩,
          ?_, e1, e2, by simpa using e3, ?_⟩
        · simp only [accel_body, e1]
          rw [rd_eq _ _ (by omega), rd_eq _ _ (by omega), rd_eq _ _ (by omega)]
          simp only [Option.some_bind]
          rw [fdiv_eq _ _ hdd]
          simp only [Option.some_bind]
          rw [wr_eq _ _ _ (by omega)]
          simp
        · intro j
          simp only
          rw [getD_set _ _ _ _ (by omega), e4 j]
          by_cases hji : j = i
          · subst hji
            have : 1 ≤ j ∧ j < j + 1 := by omega
            simp [this]
          · by_cases hj : 1 ≤ j ∧ j < i
            · have : 1 ≤ j ∧ j < i + 1 := by omega
              simp [hji, hj, this]
            · have : ¬ (1 ≤ j ∧ j < i + 1) := by omega
              simp [hji, hj, this])
    exact ⟨s', h1, h2, h3, h4, fun j => by rw [h5 j]; rfl⟩
  · refine ⟨s, forLoop_empty _ _ _ _ (by omega), rfl, rfl, ha, fun j => ?_⟩
    have : ¬ interior n j := by unfold interior; omega
    simp [this]

theorem vel_loop_spec (n : Nat) (dtl : K) (s : FieldState K)
    (hv : s.v.length = n) (ha : s.a.length = n) :
    ∃ s', forLoop 1 (upper n) (vel_body dtl) s = some s' ∧ s'.u = s.u ∧ s'.a = s.a ∧
      s'.v.length = n ∧
      ∀ j, s'.v.getD j 0 =
        if interior n j then s.v.getD j 0 + s.a.getD j 0 * dtl else s.v.getD j 0 := by
  by_cases hn : 1 ≤ upper n
  · obtain ⟨s', h1, h2, h3, h4, h5⟩ := forLoop_inv (vel_body dtl)
      (fun i s' => s'.u = s.u ∧ s'.a = s.a ∧ s'.v.length = n ∧
        ∀ j, s'.v.getD j 0 =
          if 1 ≤ j ∧ j < i then s.v.getD j 0 + s.a.getD j 0 * dtl else s.v.getD j 0)
      1 (upper n) s hn
      ⟨rfl, rfl, hv, fun j => by
        have : ¬ (1 ≤ j ∧ j < 1) := by omega
        rw [if_neg this]⟩
      (by
        intro i s' hi1 hi2 ⟨e1, e2, e3, e4⟩
        have hin : i + 1 < n := by unfold upper at hi2; omega
        refine ⟨⟨s'.u, s'.v.set i (s.v.getD i 0 + s.a.getD i 0 * dtl), s'.a⟩,
          ?_, e1, e2, by simpa using e3, ?_⟩
        · simp only [vel_body, e2]
          rw [rd_eq _ _ (by omega), rd_eq _ _ (by omega)]
          simp only [Option.some_bind]
          rw [wr_eq _ _ _ (by omega)]
          have : ¬ (1 ≤ i ∧ i < i) := by omega
          rw [e4 i, if_neg this]
          simp
        · intro j
          simp only
          rw [getD_set _ _ _ _ (by omega), e4 j]
          by_cases hji : j = i
          · subst hji
            have : 1 ≤ j ∧ j < j + 1 := by omega
            simp [this]
          · by_cases hj : 1 ≤ j ∧ j < i
            · have : 1 ≤ j ∧ j < i + 1 := by omega
              simp [hji, hj, this]
            · have : ¬ (1 ≤ j ∧ j < i + 1) := by omega
              simp [hji, hj, this])
    exact ⟨s', h1, h2, h3, h4, fun j => by rw [h5 j]; rfl⟩
  · refine ⟨s, forLoop_empty _ _ _ _ (by omega), rfl, rfl, hv, fun j => ?_⟩
    have : ¬ interior n j := by unfold interior; omega
    simp [this]

theorem disp_loop_spec (n : Nat) (dt : K) (s : FieldState K)
    (hu : s.u.length = n) (hv : s.v.length = n) :
    ∃ s', forLoop 1 (upper n) (disp_body dt) s = some s' ∧ s'.v = s.v ∧ s'.a = s.a ∧
      s'.u.length = n ∧
      ∀ j, s'.u.getD j 0 =
        if interior n j then s.u.getD j 0 + s.v.getD j 0 * dt else s.u.getD j 0 := by
  by_cases hn : 1 ≤ upper n
  · obtain ⟨s', h1, h2, h3, h4, h5⟩ := forLoop_inv (disp_body dt)
      (fun i s' => s'.v = s.v ∧ s'.a = s.a ∧ s'.u.length = n ∧
        ∀ j, s'.u.getD j 0 =
          if 1 ≤ j ∧ j < i then s.u.getD j 0 + s.v.getD j 0 * dt else s.u.getD j 0)
      1 (upper n) s hn
      ⟨rfl, rfl, hu, fun j => by
        have : ¬ (1 ≤ j ∧ j < 1) := by omega
        rw [if_neg this]⟩
      (by
        intro i s' hi1 hi2 ⟨e1, e2, e3, e4⟩
        have hin : i + 1 < n := by unfold upper at hi2; omega
        refine ⟨⟨s'.u.set i (s.u.getD i 0 + s.v.getD i 0 * dt), s'.v, s'.a⟩,
          ?_, e1, e2, by simpa using e3, ?_⟩
        · simp only [disp_body, e1]
          rw [rd_eq _ _ (by omega), rd_eq _ _ (by omega)]
          simp only [Option.some_bind]
          rw [wr_eq _ _ _ (by omega)]
          have : ¬ (1 ≤ i ∧ i < i) := by omega
          rw [e4 i, if_neg this]
          simp
        · intro j
          simp only
          rw [getD_set _ _ _ _ (by omega), e4 j]
          by_cases hji : j = i
          · subst hji
            have : 1 ≤ j ∧ j < j + 1 := by omega
            simp [this]
          · by_cases hj : 1 ≤ j ∧ j < i
            · have : 1 ≤ j ∧ j < i + 1 := by omega
              simp [hji, hj, this]
            · have : ¬ (1 ≤ j ∧ j < i + 1) := by omega
              simp [hji, hj, this])
    exact ⟨s', h1, h2, h3, h4, fun j => by rw [h5 j]; rfl⟩
  · refine ⟨s, forLoop_empty _ _ _ _ (by omega), rfl, rfl, hu, fun j => ?_⟩
    have : ¬ interior n j := by unfold interior; omega
    simp [this]

theorem time_step_spec (n : Nat) (dx dt : K) (t : Nat) (s : FieldState K) (hdx : dx ≠ 0)
    (hu : s.u.length = n) (hv : s.v.length = n) (ha : s.a.length = n) :
    ∃ s', time_step n dx dt t s = some s' ∧
      s'.u.length = n ∧ s'.v.length = n ∧ s'.a.length = n ∧
      ∀ j,
        (s'.a.getD j 0 =
          if interior n j then
            (s.u.getD (j - 1) 0 + s.u.getD (j + 1) 0 - 2 * s.u.getD j 0) / (dx * dx)
          else s.a.getD j 0) ∧
        (s'.v.getD j 0 =
          if interior n j then
            s.v.getD j 0 + s'.a.getD j 0 * (if t = 0 then dt * (1 / 2) else dt)
          else s.v.getD j 0) ∧
        (s'.u.getD j 0 =
          if interior n j then s.u.getD j 0 + s'.v.getD j 0 * dt else s.u.getD j 0) := by
  obtain ⟨s1, h1, hu1, hv1, hal1, ha1⟩ := accel_loop_spec n dx s hdx hu ha
  obtain ⟨s2, h2, hu2, ha2, hvl2, hv2⟩ :=
    vel_loop_spec n (if t = 0 then dt * (1 / 2) else dt) s1 (by rw [hv1]; exact hv) hal1
  obtain ⟨s3, h3, hv3, ha3, hul3, hu3⟩ := disp_loop_spec n dt s2 (by rw [hu2, hu1]; exact hu) hvl2
  refine ⟨s3, ?_, hul3, by rw [hv3]; exact hvl2, by rw [ha3, ha2]; exact hal1, fun j => ?_⟩
  · simp only [time_step, h1, h2, h3, Option.some_bind]
  · refine ⟨by rw [ha3, ha2]; exact ha1 j, ?_, ?_⟩
    · rw [hv3, ha3, ha2, hv2 j, hv1]
    · rw [hu3 j, hu2, hu1, hv3]

/-! ## Initialisation -/

theorem init_arrays_spec (expf : K → K) (n : Nat) (dx : K) :
    ∃ x u, init_arrays expf n dx = some (x, u) ∧ x.length = n ∧ u.length = n ∧
      ∀ j, j < n → x.getD j 0 = (j : K) * dx ∧
        u.getD j 0 = expf (-(((j : K) * dx - 5) ^ 2)) := by
  obtain ⟨s', h1, h2, h3, h4⟩ := forLoop_inv (init_body expf dx)
    (fun i s' => s'.1.length = n ∧ s'.2.length = n ∧
      ∀ j, j < i → s'.1.getD j 0 = (j : K) * dx ∧
        s'.2.getD j 0 = expf (-(((j : K) * dx - 5) ^ 2)))
    0 n (List.replicate n 0, List.replicate n 0) (Nat.zero_le n)
    ⟨by simp, by simp, fun j hj => absurd hj (Nat.not_lt_zero j)⟩
    (by
      intro i s' _ hi ⟨e1, e2, e3⟩
      refine ⟨(s'.1.set i (0 + (i : K) * dx),
        s'.2.set i (expf (-(((0 + (i : K) * dx) - 5) ^ 2)))), ?_, by simpa using e1,
        by simpa using e2, ?_⟩
      · simp only [init_body]
        rw [wr_eq _ _ _ (by omega)]
        simp only [Option.some_bind]
        rw [rd_eq _ _ (by simp; omega), getD_set _ _ _ _ (by omega), if_pos rfl]
        simp only [Option.some_bind]
        rw [wr_eq _ _ _ (by omega)]
        simp
      · intro j hj
        simp only
        rw [getD_set _ _ _ _ (by omega), getD_set _ _ _ _ (by omega)]
        by_cases hji : j = i
        · subst hji; simp
        · rw [if_neg hji, if_neg hji]
          exact e3 j (by omega))
  exact ⟨s'.1, s'.2, h1, h2, h3, h4⟩

theorem num_time_steps_eq [FloorRing K] (t_final dt : K) (hdt : dt ≠ 0) :
    num_time_steps t_final dt = some ((to_ushort (t_final / dt) + 1) % 65536) := by
  simp [num_time_steps, fdiv, hdt]

theorem cast_pred_ne_zero (n : Nat) (hn : 2 ≤ n) : (((n : Int) - 1 : Int) : K) ≠ 0 := by
  have : ((n : Int) - 1) ≠ 0 := by omega
  exact_mod_cast this

theorem cast_pred_eq (n : Nat) : (((n : Int) - 1 : Int) : K) = (n : K) - 1 := by
  push_cast; ring

theorem setup_spec [FloorRing K] (expf : K → K) (n : Nat) (x_final t_final : K)
    (hn : 2 ≤ n) (hx : x_final ≠ 0) :
    ∃ x u, setup expf n x_final t_final =
        some { dx := x_final / ((n : K) - 1), dt := x_final / ((n : K) - 1) / 2,
               steps := (to_ushort (t_final / (x_final / ((n : K) - 1) / 2)) + 1) % 65536,
               x := x,
               state := { u := u, v := List.replicate n 0, a := List.replicate n 0 } } ∧
      x.length = n ∧ u.length = n ∧
      ∀ j, j < n → x.getD j 0 = (j : K) * (x_final / ((n : K) - 1)) ∧
        u.getD j 0 = expf (-(((j : K) * (x_final / ((n : K) - 1)) - 5) ^ 2)) := by
  have hc : (((n : Int) - 1 : Int) : K) ≠ 0 := cast_pred_ne_zero n hn
  have hc2 : (n : K) - 1 ≠ 0 := by rw [← cast_pred_eq]; exact hc
  have hdx : x_final / ((n : K) - 1) ≠ 0 := div_ne_zero hx hc2
  have hdt : x_final / ((n : K) - 1) / 2 ≠ 0 := div_ne_zero hdx (by norm_num)
  obtain ⟨x, u, h1, h2, h3, h4⟩ := init_arrays_spec expf n (x_final / ((n : K) - 1))
  refine ⟨x, u, ?_, h2, h3, h4⟩
  unfold setup
  rw [fdiv_eq _ _ hc]
  simp only [Option.some_bind, sub_zero, cast_pred_eq]
  rw [num_time_steps_eq _ _ hdt, h1]
  simp

/-! ## The time loop -/

theorem run_steps_zero (n : Nat) (dx dt : K) (s : FieldState K) :
    run_steps n dx dt 0 s = some s := rfl

theorem run_steps_succ (n : Nat) (dx dt : K) (k : Nat) (s : FieldState K) :
    run_steps n dx dt (k + 1) s = (run_steps n dx dt k s).bind (time_step n dx dt k) := by
  unfold run_steps forLoop
  simp only [Nat.sub_zero]
  rw [iterate_succ_last]
  simp

/-- A property of well-sized fields that holds initially and is preserved by every time
step holds after any number of steps, and the loop does not fail. -/
theorem run_steps_inv (n : Nat) (dx dt : K) (hdx : dx ≠ 0) (P : Nat → FieldState K → Prop)
    (s : FieldState K) (hu : s.u.length = n) (hv : s.v.length = n) (ha : s.a.length = n)
    (h0 : P 0 s)
    (hstep : ∀ t s s', s.u.length = n → s.v.length = n → s.a.length = n → P t s →
      time_step n dx dt t s = some s' → P (t + 1) s') :
    ∀ k, ∃ s', run_steps n dx dt k s = some s' ∧
      s'.u.length = n ∧ s'.v.length = n ∧ s'.a.length = n ∧ P k s' := by
  intro k
  induction k with
  | zero => exact ⟨s, rfl, hu, hv, ha, h0⟩
  | succ k ih =>
    obtain ⟨s1, h1, hu1, hv1, ha1, hP1⟩ := ih
    obtain ⟨s2, h2, hu2, hv2, ha2, _⟩ := time_step_spec n dx dt k s1 hdx hu1 hv1 ha1
    refine ⟨s2, ?_, hu2, hv2, ha2, hstep k s1 s2 hu1 hv1 ha1 hP1 h2⟩
    rw [run_steps_succ, h1]
    exact h2

theorem not_interior_zero (n : Nat) : ¬ interior n 0 := by
  unfold interior; omega

theorem not_interior_last (n : Nat) : ¬ interior n (n - 1) := by
  unfold interior upper; omega

/-- A time step leaves every cell that is not interior as it was. -/
theorem time_step_frame (n : Nat) (dx dt : K) (t : Nat) (s s' : FieldState K) (hdx : dx ≠ 0)
    (hu : s.u.length = n) (hv : s.v.length = n) (ha : s.a.length = n)
    (h : time_step n dx dt t s = some s') (j : Nat) (hj : ¬ interior n j) :
    s'.u.getD j 0 = s.u.getD j 0 ∧ s'.v.getD j 0 = s.v.getD j 0 ∧
      s'.a.getD j 0 = s.a.getD j 0 := by
  obtain ⟨s2, h2, _, _, _, hp⟩ := time_step_spec n dx dt t s hdx hu hv ha
  rw [h2] at h
  cases h
  obtain ⟨p1, p2, p3⟩ := hp j
  rw [if_neg hj] at p1 p2 p3
  exact ⟨p3, p2, p1⟩

theorem getD_replicate_zero (n j : Nat) : (List.replicate n (0 : K)).getD j 0 = 0 := by
  simp only [List.getD_eq_getElem?_getD, List.getElem?_replicate]
  split <;> rfl

theorem main_eq [FloorRing K] (expf : K → K) (n : Nat) (x_final t_final : K) (st : Setup K)
    (s : FieldState K) (h : setup expf n x_final t_final = some st)
    (hs : run_steps n st.dx st.dt st.steps st.state = some s) :
    optimized_leapfrog_1D_wave_equation expf n x_final t_final = some (st.x, s.u) := by
  simp [optimized_leapfrog_1D_wave_equation, h, hs]

/-- The boundary cells of all three arrays keep their values through any number of steps. -/
theorem run_steps_boundary (n : Nat) (dx dt : K) (hdx : dx ≠ 0) (s : FieldState K)
    (hu : s.u.length = n) (hv : s.v.length = n) (ha : s.a.length = n) (k : Nat) :
    ∃ s', run_steps n dx dt k s = some s' ∧
      s'.u.length = n ∧ s'.v.length = n ∧ s'.a.length = n ∧
      ∀ j, ¬ interior n j →
        s'.u.getD j 0 = s.u.getD j 0 ∧ s'.v.getD j 0 = s.v.getD j 0 ∧
          s'.a.getD j 0 = s.a.getD j 0 :=
  run_steps_inv n dx dt hdx
    (fun _ s' => ∀ j, ¬ interior n j →
        s'.u.getD j 0 = s.u.getD j 0 ∧ s'.v.getD j 0 = s.v.getD j 0 ∧
          s'.a.getD j 0 = s.a.getD j 0)
    s hu hv ha (fun _ _ => ⟨rfl, rfl, rfl⟩)
    (fun t s1 s2 hu1 hv1 ha1 hP h j hj => by
      obtain ⟨q1, q2, q3⟩ := time_step_frame n dx dt t s1 s2 hdx hu1 hv1 ha1 h j hj
      obtain ⟨r1, r2, r3⟩ := hP j hj
      exact ⟨q1.trans r1, q2.trans r2, q3.trans r3⟩) k

theorem setup_dx_ne_zero (n : Nat) (x_final : K) (hn : 2 ≤ n) (hx : x_final ≠ 0) :
    x_final / ((n : K) - 1) ≠ 0 := by
  have hc2 : (n : K) - 1 ≠ 0 := by rw [← cast_pred_eq]; exact cast_pred_ne_zero n hn
  exact div_ne_zero hx hc2

theorem iterate_counted {σ : Type} (body : Nat → σ → Option σ) :
    ∀ (count lo : Nat) (s : σ) (c : Nat),
      iterate (counted body) lo count (s, c) =
        (iterate body lo count s).bind fun s' => some (s', c + count) := by
  intro count
  induction count with
  | zero => intro lo s c; simp [iterate]
  | succ k ih =>
    intro lo s c
    simp only [iterate, counted]
    cases h : body lo s with
    | none => simp
    | some s1 =>
      simp only [Option.some_bind]
      rw [ih (lo + 1) s1 (c + 1)]
      have : c + 1 + k = c + (k + 1) := by omega
      rw [this]

/-- A loop `for (t = 0; t < k; t++)` that completes has executed its body `k` times. -/
theorem forLoop_counted {σ : Type} (body : Nat → σ → Option σ) (k : Nat) (s s' : σ)
    (h : forLoop 0 k body s = some s') :
    forLoop 0 k (counted body) (s, 0) = some (s', k) := by
  unfold forLoop at *
  rw [iterate_counted, h]
  simp

/-- With two grid points the interior loops have no iteration: a time step returns the
state it was given. -/
theorem time_step_two (dx dt : K) (t : Nat) (s : FieldState K) :
    time_step 2 dx dt t s = some s := by
  have h : upper 2 = 1 := rfl
  simp [time_step, h, forLoop, iterate]

theorem run_steps_two (dx dt : K) (s : FieldState K) (k : Nat) :
    run_steps 2 dx dt k s = some s := by
  induction k with
  | zero => rfl
  | succ k ih => rw [run_steps_succ, ih]; exact time_step_two dx dt k s

/-- A time step maps a displacement and velocity that are mirror symmetric about the
midpoint index to a mirror symmetric displacement and velocity. -/
theorem time_step_symm (n : Nat) (dx dt : K) (t : Nat) (s s' : FieldState K) (hdx : dx ≠ 0)
    (hu : s.u.length = n) (hv : s.v.length = n) (ha : s.a.length = n)
    (hsu : ∀ j, j < n → s.u.getD (n - 1 - j) 0 = s.u.getD j 0)
    (hsv : ∀ j, j < n → s.v.getD (n - 1 - j) 0 = s.v.getD j 0)
    (h : time_step n dx dt t s = some s') :
    (∀ j, j < n → s'.u.getD (n - 1 - j) 0 = s'.u.getD j 0) ∧
    (∀ j, j < n → s'.v.getD (n - 1 - j) 0 = s'.v.getD j 0) := by
  obtain ⟨s2, h2, _, _, _, hp⟩ := time_step_spec n dx dt t s hdx hu hv ha
  have e : s2 = s' := Option.some.inj (h2.symm.trans h)
  subst e
  have hv' : ∀ j, j < n → s2.v.getD (n - 1 - j) 0 = s2.v.getD j 0 := by
    intro j hj
    obtain ⟨p1, p2, _⟩ := hp j
    obtain ⟨q1, q2, _⟩ := hp (n - 1 - j)
    by_cases hint : interior n j
    · have hj2 := (interior_iff n j).mp hint
      have hint' : interior n (n - 1 - j) := (interior_iff n _).mpr (by omega)
      rw [if_pos hint] at p1 p2
      rw [if_pos hint'] at q1 q2
      have e1 : n - 1 - j - 1 = n - 1 - (j + 1) := by omega
      have e2 : n - 1 - j + 1 = n - 1 - (j - 1) := by omega
      rw [q2, q1, p2, p1, e1, e2, hsu (j + 1) (by omega), hsu (j - 1) (by omega), hsu j hj,
        hsv j hj]
      ring
    · have hint' : ¬ interior n (n - 1 - j) := by
        rw [interior_iff] at hint ⊢; omega
      rw [if_neg hint] at p2
      rw [if_neg hint'] at q2
      rw [q2, p2, hsv j hj]
  refine ⟨fun j hj => ?_, hv'⟩
  obtain ⟨_, _, p3⟩ := hp j
  obtain ⟨_, _, q3⟩ := hp (n - 1 - j)
  by_cases hint : interior n j
  · have hj2 := (interior_iff n j).mp hint
    have hint' : interior n (n - 1 - j) := (interior_iff n _).mpr (by omega)
    rw [if_pos hint] at p3
    rw [if_pos hint'] at q3
    rw [q3, p3, hv' j hj, hsu j hj]
  · have hint' : ¬ interior n (n - 1 - j) := by
      rw [interior_iff] at hint ⊢; omega
    rw [if_neg hint] at p3
    rw [if_neg hint'] at q3
    rw [q3, p3, hsu j hj]

theorem run_steps_symm (n : Nat) (dx dt : K) (hdx : dx ≠ 0) (s : FieldState K)
    (hu : s.u.length = n) (hv : s.v.length = n) (ha : s.a.length = n)
    (hsu : ∀ j, j < n → s.u.getD (n - 1 - j) 0 = s.u.getD j 0)
    (hsv : ∀ j, j < n → s.v.getD (n - 1 - j) 0 = s.v.getD j 0) (k : Nat) :
    ∃ s', run_steps n dx dt k s = some s' ∧ s'.u.length = n ∧
      ∀ j, j < n → s'.u.getD (n - 1 - j) 0 = s'.u.getD j 0 := by
  obtain ⟨s', h, hl, _, _, hP⟩ := run_steps_inv n dx dt hdx
    (fun _ s' => (∀ j, j < n → s'.u.getD (n - 1 - j) 0 = s'.u.getD j 0) ∧
      (∀ j, j < n → s'.v.getD (n - 1 - j) 0 = s'.v.getD j 0))
    s hu hv ha ⟨hsu, hsv⟩
    (fun t s1 s2 hu1 hv1 ha1 hP h =>
      time_step_symm n dx dt t s1 s2 hdx hu1 hv1 ha1 hP.1 hP.2 h) k
  exact ⟨s', h, hl, hP.1⟩

/-! ## Energy of the scheme -/

/-- Summation by parts for second differences against a test sequence. -/
theorem sum_by_parts (f g : Nat → K) (m : Nat) :
    ∑ j ∈ Finset.range (m + 1), (f (j + 1) - f j) * (g (j + 1) - g j)
      + ∑ j ∈ Finset.range m, (f j + f (j + 2) - 2 * f (j + 1)) * g (j + 1)
      = (f (m + 1) - f m) * g (m + 1) - (f 1 - f 0) * g 0 := by
  induction m with
  | zero => simp; ring
  | succ m ih =>
    rw [Finset.sum_range_succ _ (m + 1),
      Finset.sum_range_succ (fun j => (f j + f (j + 2) - 2 * f (j + 1)) * g (j + 1)) m]
    simp only [show m + 1 + 1 = m + 2 from rfl]
    linear_combination ih

theorem energy_conserved (n : Nat) (hn : 2 ≤ n) (u p u' p' : Nat → K)
    (hp0 : p 0 = 0) (hpn : p (n - 1) = 0) (hp0' : p' 0 = 0) (hpn' : p' (n - 1) = 0)
    (hu : ∀ j, j ≤ n - 1 → u' j = u j + p' j)
    (hp : ∀ j, j < n - 2 → p' (j + 1) = p (j + 1) + (u j + u (j + 2) - 2 * u (j + 1)) / 4) :
    energy n u' p' = energy n u p := by
  obtain ⟨m, rfl⟩ : ∃ m, n = m + 2 := ⟨n - 2, by omega⟩
  simp only [Nat.add_sub_cancel, show m + 2 - 1 = m + 1 from rfl] at *
  have sbp := sum_by_parts u (fun j => p' j + p j) m
  simp only [hp0, hp0', hpn, hpn', add_zero, mul_zero, sub_zero] at sbp
  have e1 : ∑ j ∈ Finset.range m, p' (j + 1) ^ 2 =
      ∑ j ∈ Finset.range m, p (j + 1) ^ 2 +
        1 / 4 * ∑ j ∈ Finset.range m, (u j + u (j + 2) - 2 * u (j + 1)) * (p' (j + 1) + p (j + 1)) := by
    rw [Finset.mul_sum, ← Finset.sum_add_distrib]
    apply Finset.sum_congr rfl
    intro j hj
    rw [hp j (Finset.mem_range.mp hj)]
    ring
  have e2 : diff_dot (m + 2) u' u' - diff_dot (m + 2) u' p' =
      diff_dot (m + 2) u u - diff_dot (m + 2) u p
        + ∑ j ∈ Finset.range (m + 1), (u (j + 1) - u j) * ((p' (j + 1) + p (j + 1)) - (p' j + p j)) := by
    unfold diff_dot
    simp only [show m + 2 - 1 = m + 1 from rfl]
    rw [← Finset.sum_sub_distrib, ← Finset.sum_sub_distrib, ← Finset.sum_add_distrib]
    apply Finset.sum_congr rfl
    intro j hj
    have hj' := Finset.mem_range.mp hj
    rw [hu j (by omega), hu (j + 1) (by omega)]
    ring
  unfold energy
  simp only [Nat.add_sub_cancel]
  rw [e1, e2]
  linear_combination (1 / 4) * sbp

theorem diff_dot_self_le (m : Nat) (p : Nat → K) (hp0 : p 0 = 0) (hpn : p (m + 1) = 0) :
    diff_dot (m + 2) p p ≤ 4 * ∑ j ∈ Finset.range m, p (j + 1) ^ 2 := by
  unfold diff_dot
  simp only [show m + 2 - 1 = m + 1 from rfl]
  have h1 : ∑ j ∈ Finset.range (m + 1), (p (j + 1) - p j) * (p (j + 1) - p j) ≤
      ∑ j ∈ Finset.range (m + 1), (2 * p (j + 1) ^ 2 + 2 * p j ^ 2) := by
    apply Finset.sum_le_sum
    intro j _
    nlinarith [sq_nonneg (p (j + 1) + p j)]
  have h2 : ∑ j ∈ Finset.range (m + 1), p (j + 1) ^ 2 = ∑ j ∈ Finset.range m, p (j + 1) ^ 2 := by
    rw [Finset.sum_range_succ, hpn]; simp
  have h3 : ∑ j ∈ Finset.range (m + 1), p j ^ 2 = ∑ j ∈ Finset.range m, p (j + 1) ^ 2 := by
    rw [Finset.sum_range_succ', hp0]; simp
  rw [Finset.sum_add_distrib, ← Finset.mul_sum, ← Finset.mul_sum, h2, h3] at h1
  linarith

theorem energy_lower (m : Nat) (u p : Nat → K) (hp0 : p 0 = 0) (hpn : p (m + 1) = 0) :
    3 / 4 * ∑ j ∈ Finset.range m, p (j + 1) ^ 2
      + 1 / 4 * diff_dot (m + 2) (fun j => u j - p j / 2) (fun j => u j - p j / 2)
      ≤ energy (m + 2) u p := by
  have h1 : diff_dot (m + 2) u u - diff_dot (m + 2) u p =
      diff_dot (m + 2) (fun j => u j - p j / 2) (fun j => u j - p j / 2)
        - 1 / 4 * diff_dot (m + 2) p p := by
    unfold diff_dot
    rw [Finset.mul_sum, ← Finset.sum_sub_distrib, ← Finset.sum_sub_distrib]
    apply Finset.sum_congr rfl
    intro j _
    ring
  have h2 := diff_dot_self_le m p hp0 hpn
  unfold energy
  simp only [Nat.add_sub_cancel]
  rw [h1]
  linarith

theorem diff_dot_self_nonneg (n : Nat) (f : Nat → K) : 0 ≤ diff_dot n f f := by
  unfold diff_dot
  apply Finset.sum_nonneg
  intro j _
  exact mul_self_nonneg _

theorem sum_sq_nonneg (m : Nat) (p : Nat → K) : 0 ≤ ∑ j ∈ Finset.range m, p (j + 1) ^ 2 :=
  Finset.sum_nonneg (fun _ _ => sq_nonneg _)

theorem energy_nonneg (m : Nat) (u p : Nat → K) (hp0 : p 0 = 0) (hpn : p (m + 1) = 0) :
    0 ≤ energy (m + 2) u p := by
  have h := energy_lower m u p hp0 hpn
  have h1 := diff_dot_self_nonneg (m + 2) (fun j => u j - p j / 2)
  have h2 := sum_sq_nonneg m p
  linarith

theorem sq_le_energy (m : Nat) (u p : Nat → K) (hp0 : p 0 = 0) (hpn : p (m + 1) = 0)
    (j : Nat) (hj : j ≤ m + 1) : p j ^ 2 ≤ 2 * energy (m + 2) u p := by
  have h := energy_lower m u p hp0 hpn
  have h1 := diff_dot_self_nonneg (m + 2) (fun j => u j - p j / 2)
  have h2 := sum_sq_nonneg m p
  have hE := energy_nonneg m u p hp0 hpn
  by_cases h0 : j = 0
  · subst h0; rw [hp0]; simpa using hE
  by_cases hm : j = m + 1
  · subst hm; rw [hpn]; simpa using hE
  obtain ⟨i, rfl⟩ : ∃ i, j = i + 1 := ⟨j - 1, by omega⟩
  have hi : i ∈ Finset.range m := Finset.mem_range.mpr (by omega)
  have h3 : p (i + 1) ^ 2 ≤ ∑ j ∈ Finset.range m, p (j + 1) ^ 2 :=
    Finset.single_le_sum (f := fun j => p (j + 1) ^ 2) (fun j _ => sq_nonneg _) hi
  linarith

theorem telescope_sq_le (m : Nat) (f : Nat → K) (j : Nat) (hj : j ≤ m + 1) :
    (f j - f 0) ^ 2 ≤ ((m : K) + 1) * diff_dot (m + 2) f f := by
  have h1 : ∑ i ∈ Finset.range j, (f (i + 1) - f i) = f j - f 0 := Finset.sum_range_sub f j
  have h2 := sq_sum_le_card_mul_sum_sq (s := Finset.range j) (f := fun i => f (i + 1) - f i)
  rw [h1, Finset.card_range] at h2
  have h3 : ∑ i ∈ Finset.range j, (f (i + 1) - f i) ^ 2 ≤ diff_dot (m + 2) f f := by
    unfold diff_dot
    have : ∀ i, (f (i + 1) - f i) * (f (i + 1) - f i) = (f (i + 1) - f i) ^ 2 := fun i => by ring
    simp only [this]
    apply Finset.sum_le_sum_of_subset_of_nonneg
    · intro i hi
      rw [Finset.mem_range] at hi ⊢
      omega
    · intro i _ _
      exact sq_nonneg _
  have h4 : 0 ≤ ∑ i ∈ Finset.range j, (f (i + 1) - f i) ^ 2 :=
    Finset.sum_nonneg (fun i _ => sq_nonneg _)
  have h5 : (j : K) ≤ (m : K) + 1 := by exact_mod_cast hj
  have h7 : (0 : K) ≤ (m : K) + 1 := by positivity
  calc (f j - f 0) ^ 2 ≤ (j : K) * ∑ i ∈ Finset.range j, (f (i + 1) - f i) ^ 2 := h2
    _ ≤ ((m : K) + 1) * ∑ i ∈ Finset.range j, (f (i + 1) - f i) ^ 2 :=
        mul_le_mul_of_nonneg_right h5 h4
    _ ≤ ((m : K) + 1) * diff_dot (m + 2) f f := mul_le_mul_of_nonneg_left h3 h7

theorem abs_le_one_add_sq (x : K) : |x| ≤ 1 + x ^ 2 := by
  rw [abs_le]
  constructor <;> nlinarith [sq_nonneg (x - 1), sq_nonneg (x + 1)]

/-- Every value of a displacement with increment zero at both ends is bounded through
its first value and its energy. -/
theorem abs_le_of_energy (m : Nat) (u p : Nat → K) (hp0 : p 0 = 0) (hpn : p (m + 1) = 0)
    (j : Nat) (hj : j ≤ m + 1) :
    |u j| ≤ |u 0| + 2 + (4 * ((m : K) + 1) + 2) * energy (m + 2) u p := by
  have hlow := energy_lower m u p hp0 hpn
  have hs := sum_sq_nonneg m p
  have hE := energy_nonneg m u p hp0 hpn
  have hp := sq_le_energy m u p hp0 hpn j hj
  have ht := telescope_sq_le m (fun j => u j - p j / 2) j hj
  simp only [hp0, zero_div, sub_zero] at ht
  have hD : diff_dot (m + 2) (fun j => u j - p j / 2) (fun j => u j - p j / 2)
      ≤ 4 * energy (m + 2) u p := by linarith
  have hm1 : (0 : K) ≤ (m : K) + 1 := by positivity
  have ht2 : (u j - p j / 2 - u 0) ^ 2 ≤ ((m : K) + 1) * (4 * energy (m + 2) u p) :=
    le_trans ht (mul_le_mul_of_nonneg_left hD hm1)
  have a1 := abs_le_one_add_sq (u j - p j / 2 - u 0)
  have a2 := abs_le_one_add_sq (p j)
  have a3 : |p j / 2| ≤ |p j| := by
    rw [abs_div, abs_two]
    have := abs_nonneg (p j)
    linarith
  have e : u j = (u j - p j / 2 - u 0) + u 0 + p j / 2 := by ring
  have tri : |u j| ≤ |u j - p j / 2 - u 0| + |u 0| + |p j / 2| := by
    conv_lhs => rw [e]
    exact (abs_add _ _).trans (add_le_add_right (abs_add _ _) _)
  nlinarith

/-- The invariant of the time loop behind the stability bound: the ends of the
displacement and velocity stay put, before the first step the state is the initial one,
and from the first step on the energy is the initial energy. -/
theorem run_steps_energy (n : Nat) (dx : K) (hn : 2 ≤ n) (hdx : dx ≠ 0) (u0 : List K)
    (hu : u0.length = n) (k : Nat) :
    ∃ s, run_steps n dx (dx / 2) k ⟨u0, List.replicate n 0, List.replicate n 0⟩ = some s ∧
      s.u.length = n ∧
      s.u.getD 0 0 = u0.getD 0 0 ∧ s.v.getD 0 0 = 0 ∧ s.v.getD (n - 1) 0 = 0 ∧
      (k = 0 → ∀ j, s.u.getD j 0 = u0.getD j 0) ∧
      (1 ≤ k → energy n (fun j => s.u.getD j 0) (fun j => dx / 2 * s.v.getD j 0)
        = initial_energy n u0) := by
  obtain ⟨s, hs, hul, _, _, h1, h2, h3, h4, h5⟩ := run_steps_inv n dx (dx / 2) hdx
    (fun t s => s.u.getD 0 0 = u0.getD 0 0 ∧ s.v.getD 0 0 = 0 ∧ s.v.getD (n - 1) 0 = 0 ∧
      (t = 0 → (∀ j, s.u.getD j 0 = u0.getD j 0) ∧ ∀ j, s.v.getD j 0 = 0) ∧
      (1 ≤ t → energy n (fun j => s.u.getD j 0) (fun j => dx / 2 * s.v.getD j 0)
        = initial_energy n u0))
    ⟨u0, List.replicate n 0, List.replicate n 0⟩ hu (by simp) (by simp)
    ⟨rfl, getD_replicate_zero n 0, getD_replicate_zero n (n - 1),
      fun _ => ⟨fun _ => rfl, fun j => getD_replicate_zero n j⟩,
      fun h => absurd h (by omega)⟩
    (by
      intro t s s' hsu hsv hsa ⟨b1, b2, b3, i0, i1⟩ hstep
      obtain ⟨s2, hs2, _, _, _, hp⟩ := time_step_spec n dx (dx / 2) t s hdx hsu hsv hsa
      have e : s2 = s' := Option.some.inj (hs2.symm.trans hstep)
      subst e
      have f0 := hp 0
      have fn := hp (n - 1)
      rw [if_neg (not_interior_zero n)] at f0
      rw [if_neg (not_interior_last n)] at fn
      simp only [if_neg (not_interior_zero n)] at f0
      simp only [if_neg (not_interior_last n)] at fn
      refine ⟨f0.2.2.trans b1, f0.2.1.trans b2, fn.2.1.trans b3,
        fun h => absurd h (Nat.succ_ne_zero t), fun _ => ?_⟩
      by_cases ht : t = 0
      · obtain ⟨iu, iv⟩ := i0 ht
        have ep : (fun j => dx / 2 * s2.v.getD j 0) = first_increment n u0 := by
          funext j
          obtain ⟨p1, p2, _⟩ := hp j
          unfold first_increment
          by_cases hint : interior n j
          · rw [if_pos hint] at p1 p2 ⊢
            rw [p2, p1, iv j, if_pos ht, iu (j - 1), iu (j + 1), iu j]
            field_simp
            ring
          · rw [if_neg hint] at p2 ⊢
            rw [p2, iv j, mul_zero]
        have eu : (fun j => s2.u.getD j 0) =
            fun j => u0.getD j 0 + first_increment n u0 j := by
          funext j
          obtain ⟨_, _, p3⟩ := hp j
          by_cases hint : interior n j
          · rw [if_pos hint] at p3
            rw [p3, iu j, ← ep]
            ring
          · rw [if_neg hint] at p3
            rw [p3, iu j]
            unfold first_increment
            rw [if_neg hint, add_zero]
        rw [ep, eu]
        rfl
      · rw [← i1 (by omega)]
        apply energy_conserved n hn
        · simp only [b2, mul_zero]
        · simp only [b3, mul_zero]
        · simp only [f0.2.1.trans b2, mul_zero]
        · simp only [fn.2.1.trans b3, mul_zero]
        · intro j hj
          obtain ⟨_, p2, p3⟩ := hp j
          by_cases hint : interior n j
          · rw [if_pos hint] at p3
            simp only [p3]
            ring
          · rw [if_neg hint] at p2 p3
            have hj2 : j = 0 ∨ j = n - 1 := by
              rw [interior_iff] at hint; omega
            have hv0 : s.v.getD j 0 = 0 := by
              rcases hj2 with h | h
              · rw [h]; exact b2
              · rw [h]; exact b3
            simp only [p3, p2, hv0, mul_zero, add_zero]
        · intro j hj
          have hint : interior n (j + 1) := (interior_iff n _).mpr (by omega)
          obtain ⟨p1, p2, _⟩ := hp (j + 1)
          rw [if_pos hint] at p1 p2
          rw [if_neg ht] at p2
          simp only [p2, p1, Nat.add_sub_cancel]
          field_simp
          ring) k
  exact ⟨s, hs, hul, h1, h2, h3, fun hk j => (h4 hk).1 j, h5⟩

/-- Every displacement value of every state of a run started from `u0` at rest is at most
`stability_bound n u0` in absolute value. -/
theorem run_steps_bounded (n : Nat) (dx : K) (hn : 2 ≤ n) (hdx : dx ≠ 0) (u0 : List K)
    (hu : u0.length = n) (k : Nat) :
    ∃ s, run_steps n dx (dx / 2) k ⟨u0, List.replicate n 0, List.replicate n 0⟩ = some s ∧
      s.u.length = n ∧ ∀ i, i < n → |s.u.getD i 0| ≤ stability_bound n u0 := by
  obtain ⟨s, hs, hul, b1, b2, b3, h0, h1⟩ := run_steps_energy n dx hn hdx u0 hu k
  refine ⟨s, hs, hul, fun i hi => ?_⟩
  obtain ⟨m, rfl⟩ : ∃ m, n = m + 2 := ⟨n - 2, by omega⟩
  have hn1 : ((m + 2 : ℕ) : K) - 1 = (m : K) + 1 := by push_cast; ring
  have hE0 : 0 ≤ initial_energy (m + 2) u0 := by
    unfold initial_energy
    apply energy_nonneg
    · unfold first_increment; rw [if_neg (not_interior_zero _)]
    · unfold first_increment
      have := not_interior_last (m + 2)
      simp only [Nat.add_sub_cancel, show m + 2 - 1 = m + 1 from rfl] at this
      rw [if_neg this]
  have hsingle : ∀ j, j < m + 2 →
      |u0.getD j 0| ≤ ∑ j ∈ Finset.range (m + 2), |u0.getD j 0| := fun j hj =>
    Finset.single_le_sum (f := fun j => |u0.getD j 0|) (fun _ _ => abs_nonneg _)
      (Finset.mem_range.mpr hj)
  have hm1 : (0 : K) ≤ (m : K) + 1 := by positivity
  unfold stability_bound
  rw [hn1]
  by_cases hk : k = 0
  · rw [h0 hk i]
    have := hsingle i hi
    nlinarith
  · have hb := abs_le_of_energy m (fun j => s.u.getD j 0) (fun j => dx / 2 * s.v.getD j 0)
      (by simp only [b2, mul_zero])
      (by
        have : m + 2 - 1 = m + 1 := rfl
        rw [this] at b3
        simp only [b3, mul_zero])
      i (by omega)
    rw [h1 (by omega)] at hb
    simp only [b1] at hb
    have := hsingle 0 (by omega)
    linarith

/-! ## The benchmark harness -/

theorem timing_loop_spec [FloorRing K] (expf : K → K) (samples : Nat → K) (n np : Nat)
    (x_final t_final : K) :
    ∃ times, forLoop 0 n (timed_run expf samples np x_final t_final)
        (List.replicate n 0) = some times ∧ times.length = n ∧
      ∀ j, j < n → times.getD j 0 = samples j := by
  obtain ⟨times, h1, h2, h3⟩ := forLoop_inv (timed_run expf samples np x_final t_final)
    (fun i times => times.length = n ∧ ∀ j, j < i → times.getD j 0 = samples j)
    0 n (List.replicate n 0) (Nat.zero_le n)
    ⟨by simp, fun j hj => absurd hj (Nat.not_lt_zero j)⟩
    (by
      intro i times _ hi ⟨e1, e2⟩
      refine ⟨times.set i (samples i), ?_, by simpa using e1, fun j hj => ?_⟩
      · simp only [timed_run]
        rw [wr_eq _ _ _ (by omega)]
      · rw [getD_set _ _ _ _ (by omega)]
        by_cases hji : j = i
        · subst hji; simp
        · rw [if_neg hji]; exact e2 j (by omega))
  exact ⟨times, h1, h2, h3⟩

theorem sum_loop_spec (times : List K) (f : K → K) (n : Nat) (hn : n ≤ times.length) :
    forLoop 0 n (fun i acc => (rd times i).bind fun ti => some (acc + f ti)) 0
      = some (∑ i ∈ Finset.range n, f (times.getD i 0)) := by
  obtain ⟨r, h1, h2⟩ := forLoop_inv
    (fun i acc => (rd times i).bind fun ti => some (acc + f ti))
    (fun i acc => acc = ∑ j ∈ Finset.range i, f (times.getD j 0))
    0 n (0 : K) (Nat.zero_le n) (by simp)
    (by
      intro i acc _ hi e
      refine ⟨acc + f (times.getD i 0), ?_, ?_⟩
      · beta_reduce
        rw [rd_eq _ _ (by omega)]; rfl
      · beta_reduce
        rw [Finset.sum_range_succ, e])
  rw [h1, h2]

theorem measure_execution_time_eq [FloorRing K] (expf sqrtf : K → K) (samples : Nat → K)
    (num_runs num_points : Nat) (x_final t_final : K) (hn : 1 ≤ num_runs) :
    measure_execution_time expf sqrtf samples num_runs num_points x_final t_final =
      some ((∑ i ∈ Finset.range num_runs, samples i) / (num_runs : K),
        sqrtf ((∑ i ∈ Finset.range num_runs,
          (samples i - (∑ i ∈ Finset.range num_runs, samples i) / (num_runs : K)) ^ 2)
            / (num_runs : K))) := by
  obtain ⟨times, h1, h2, h3⟩ := timing_loop_spec expf samples num_runs num_points x_final t_final
  have hne : (num_runs : K) ≠ 0 := by
    have : 0 < num_runs := hn
    exact_mod_cast this.ne'
  have hs : ∀ g : K → K, ∑ i ∈ Finset.range num_runs, g (times.getD i 0)
      = ∑ i ∈ Finset.range num_runs, g (samples i) := fun g =>
    Finset.sum_congr rfl (fun i hi => by rw [h3 i (Finset.mem_range.mp hi)])
  unfold measure_execution_time
  rw [h1]
  simp only [Option.some_bind]
  have e1 := sum_loop_spec times (fun t => t) num_runs (le_of_eq h2.symm)
  rw [e1]
  simp only [Option.some_bind]
  rw [fdiv_eq _ _ hne]
  simp only [Option.some_bind]
  have e2 := sum_loop_spec times
    (fun t => (t - (∑ i ∈ Finset.range num_runs, times.getD i 0) / (num_runs : K)) ^ 2)
    num_runs (le_of_eq h2.symm)
  rw [e2]
  simp only [Option.some_bind]
  rw [fdiv_eq _ _ hne]
  simp only [Option.some_bind]
  rw [hs (fun t => t),
    hs (fun t => (t - (∑ i ∈ Finset.range num_runs, samples i) / (num_runs : K)) ^ 2)]

/-! ## Consecutive states of the time loop -/

/-- Three consecutive states of the time loop, with `dt = dx / 2`, satisfy the two-level
recurrence at interior points once the middle state is not the initial one. -/
theorem run_steps_two_level (n : Nat) (dx : K) (hdx : dx ≠ 0) (s : FieldState K)
    (hu : s.u.length = n) (hv : s.v.length = n) (ha : s.a.length = n) (k : Nat) (hk : 1 ≤ k) :
    ∃ s0 s1 s2, run_steps n dx (dx / 2) (k - 1) s = some s0 ∧
      run_steps n dx (dx / 2) k s = some s1 ∧
      run_steps n dx (dx / 2) (k + 1) s = some s2 ∧
      ∀ i, interior n i →
        s2.u.getD i 0 = 2 * s1.u.getD i 0 - s0.u.getD i 0 +
          1 / 4 * (s1.u.getD (i - 1) 0 + s1.u.getD (i + 1) 0 - 2 * s1.u.getD i 0) := by
  obtain ⟨s0, h0, hu0, hv0, ha0, _⟩ := run_steps_inv n dx (dx / 2) hdx (fun _ _ => True)
    s hu hv ha trivial (fun _ _ _ _ _ _ _ _ => trivial) (k - 1)
  obtain ⟨s1, h1, hu1, hv1, ha1, hp1⟩ := time_step_spec n dx (dx / 2) (k - 1) s0 hdx hu0 hv0 ha0
  obtain ⟨s2, h2, _, _, _, hp2⟩ := time_step_spec n dx (dx / 2) k s1 hdx hu1 hv1 ha1
  have hk1 : k - 1 + 1 = k := by omega
  have r1 : run_steps n dx (dx / 2) k s = some s1 := by
    have := run_steps_succ n dx (dx / 2) (k - 1) s
    rw [hk1, h0] at this
    rw [this]; exact h1
  have r2 : run_steps n dx (dx / 2) (k + 1) s = some s2 := by
    rw [run_steps_succ, r1]; exact h2
  refine ⟨s0, s1, s2, h0, r1, r2, fun i hi => ?_⟩
  obtain ⟨_, _, p3⟩ := hp1 i
  obtain ⟨q1, q2, q3⟩ := hp2 i
  rw [if_pos hi] at p3 q1 q2 q3
  have hk0 : ¬ k = 0 := by omega
  rw [if_neg hk0] at q2
  have hv : s1.v.getD i 0 * (dx / 2) = s1.u.getD i 0 - s0.u.getD i 0 := by
    rw [p3]; ring
  rw [q3, q2, q1]
  have e : (s1.v.getD i 0 + (s1.u.getD (i - 1) 0 + s1.u.getD (i + 1) 0 - 2 * s1.u.getD i 0)
      / (dx * dx) * (dx / 2)) * (dx / 2) = s1.v.getD i 0 * (dx / 2) +
      1 / 4 * (s1.u.getD (i - 1) 0 + s1.u.getD (i + 1) 0 - 2 * s1.u.getD i 0) := by
    field_simp
    ring
  rw [e, hv]
  ring

/-- The first time step from rest, with `dt = dx / 2`, adds an eighth of the second
difference to every interior displacement. -/
theorem first_step_from_rest (n : Nat) (dx : K) (hdx : dx ≠ 0) (u0 : List K)
    (hu : u0.length = n) :
    ∃ s1, run_steps n dx (dx / 2) 1 ⟨u0, List.replicate n 0, List.replicate n 0⟩ = some s1 ∧
      s1.u.length = n ∧
      ∀ i, interior n i →
        s1.u.getD i 0 = u0.getD i 0 +
          1 / 8 * (u0.getD (i - 1) 0 + u0.getD (i + 1) 0 - 2 * u0.getD i 0) := by
  obtain ⟨s1, h1, hu1, _, _, hp1⟩ := time_step_spec n dx (dx / 2) 0
    ⟨u0, List.replicate n 0, List.replicate n 0⟩ hdx hu (by simp) (by simp)
  refine ⟨s1, ?_, hu1, fun i hi => ?_⟩
  · rw [run_steps_succ, run_steps_zero]; exact h1
  · obtain ⟨q1, q2, q3⟩ := hp1 i
    rw [if_pos hi] at q1 q2 q3
    rw [if_pos rfl] at q2
    simp only at q1 q2 q3
    rw [q3, q2, q1, getD_replicate_zero]
    field_simp
    ring

theorem dt_sq_div_dx_sq (dx : K) (hdx : dx ≠ 0) : (dx / 2) ^ 2 / dx ^ 2 = 1 / 4 := by
  field_simp
  ring

theorem to_ushort_zero [FloorRing K] : to_ushort (0 : K) = 0 := by
  simp [to_ushort]

/-! ## Claims -/

/-- C1: for `num_points ≥ 2`, any field state of that size and any interior index `i`
(`1 ≤ i ≤ num_points - 2`), one time step succeeds and gives
`v'[i] = v[i] + dt_eff * (u[i-1] + u[i+1] - 2*u[i]) / dx^2` and `u'[i] = u[i] + dt * v'[i]`,
where the `u` on the right are the displacements from before the step, `dt_eff = dt/2`
at `t = 0` and `dt_eff = dt` afterwards. -/
theorem time_step_interior (n : Nat) (dx dt : K) (t : Nat) (s : FieldState K)
    (hn : 2 ≤ n) (hdx : dx ≠ 0)
    (hu : s.u.length = n) (hv : s.v.length = n) (ha : s.a.length = n) :
    ∃ s', time_step n dx dt t s = some s' ∧
      ∀ i, 1 ≤ i → i ≤ n - 2 →
        s'.v.getD i 0 = s.v.getD i 0 + (if t = 0 then dt / 2 else dt) *
          (s.u.getD (i - 1) 0 + s.u.getD (i + 1) 0 - 2 * s.u.getD i 0) / dx ^ 2 ∧
        s'.u.getD i 0 = s.u.getD i 0 + dt * s'.v.getD i 0 := by
  obtain ⟨s', h, _, _, _, hp⟩ := time_step_spec n dx dt t s hdx hu hv ha
  refine ⟨s', h, fun i hi1 hi2 => ?_⟩
  have hint : interior n i := (interior_iff n i).mpr ⟨hi1, by omega⟩
  obtain ⟨p1, p2, p3⟩ := hp i
  rw [if_pos hint] at p1 p2 p3
  refine ⟨?_, by rw [p3]; ring⟩
  rw [p2, p1]
  split <;> ring

/-- Witness for C1 on a three-point field at the first step. -/
theorem time_step_interior_witness :
    (2 ≤ 3 ∧ (1 : ℚ) ≠ 0) ∧
    ∃ s', time_step 3 (1 : ℚ) (1 / 2) 0 ⟨[0, 1, 0], [0, 0, 0], [0, 0, 0]⟩ = some s' ∧
      ∀ i, 1 ≤ i → i ≤ 3 - 2 →
        s'.v.getD i 0 = ([0, 0, 0] : List ℚ).getD i 0 + (if 0 = 0 then (1 / 2 : ℚ) / 2 else 1 / 2) *
          (([0, 1, 0] : List ℚ).getD (i - 1) 0 + ([0, 1, 0] : List ℚ).getD (i + 1) 0
            - 2 * ([0, 1, 0] : List ℚ).getD i 0) / (1 : ℚ) ^ 2 ∧
        s'.u.getD i 0 = ([0, 1, 0] : List ℚ).getD i 0 + (1 / 2 : ℚ) * s'.v.getD i 0 :=
  ⟨⟨by norm_num, by norm_num⟩,
    time_step_interior 3 (1 : ℚ) (1 / 2) 0 ⟨[0, 1, 0], [0, 0, 0], [0, 0, 0]⟩
      (by norm_num) (by norm_num) rfl rfl rfl⟩

/-- C2: for `num_points ≥ 2`, `x_final > 0`, `t_final ≥ 0`, after any number `k` of time
steps (and in the returned result) `displacement[0]` and `displacement[num_points-1]`
equal their initial values `expf (-(x[0] - 5)^2)` and `expf (-(x[num_points-1] - 5)^2)`,
with `x[0] = 0` and `x[num_points-1] = x_final`; a time step never changes cell `0` or
cell `num_points-1` of the displacement, velocity or acceleration. -/
theorem boundary_invariant [FloorRing K] (expf : K → K) (n : Nat) (x_final t_final : K)
    (hn : 2 ≤ n) (hx : 0 < x_final) (_ht : 0 ≤ t_final) :
    ∃ st, setup expf n x_final t_final = some st ∧
      (st.x.getD 0 0 = 0 ∧ st.x.getD (n - 1) 0 = x_final) ∧
      (∀ k, ∃ s, run_steps n st.dx st.dt k st.state = some s ∧
        s.u.getD 0 0 = expf (-((st.x.getD 0 0 - 5) ^ 2)) ∧
        s.u.getD (n - 1) 0 = expf (-((st.x.getD (n - 1) 0 - 5) ^ 2))) ∧
      (∃ u, optimized_leapfrog_1D_wave_equation expf n x_final t_final = some (st.x, u) ∧
        u.getD 0 0 = expf (-((st.x.getD 0 0 - 5) ^ 2)) ∧
        u.getD (n - 1) 0 = expf (-((st.x.getD (n - 1) 0 - 5) ^ 2))) ∧
      (∀ t s s', s.u.length = n → s.v.length = n → s.a.length = n →
        time_step n st.dx st.dt t s = some s' →
        (s'.u.getD 0 0 = s.u.getD 0 0 ∧ s'.u.getD (n - 1) 0 = s.u.getD (n - 1) 0) ∧
        (s'.v.getD 0 0 = s.v.getD 0 0 ∧ s'.v.getD (n - 1) 0 = s.v.getD (n - 1) 0) ∧
        (s'.a.getD 0 0 = s.a.getD 0 0 ∧ s'.a.getD (n - 1) 0 = s.a.getD (n - 1) 0)) := by
  obtain ⟨x, u, hst, hxl, hul, hp⟩ := setup_spec expf n x_final t_final hn (ne_of_gt hx)
  have hdx := setup_dx_ne_zero n x_final hn (ne_of_gt hx)
  have key : ∀ k, ∃ s, run_steps n (x_final / ((n : K) - 1)) (x_final / ((n : K) - 1) / 2) k
      ⟨u, List.replicate n 0, List.replicate n 0⟩ = some s ∧
      s.u.getD 0 0 = expf (-((x.getD 0 0 - 5) ^ 2)) ∧
      s.u.getD (n - 1) 0 = expf (-((x.getD (n - 1) 0 - 5) ^ 2)) := by
    intro k
    obtain ⟨s, hs, _, _, _, hb⟩ := run_steps_boundary n (x_final / ((n : K) - 1))
      (x_final / ((n : K) - 1) / 2) hdx ⟨u, List.replicate n 0, List.replicate n 0⟩
      hul (by simp) (by simp) k
    refine ⟨s, hs, ?_, ?_⟩
    · rw [(hb 0 (not_interior_zero n)).1, (hp 0 (by omega)).2, (hp 0 (by omega)).1]
    · rw [(hb (n - 1) (not_interior_last n)).1, (hp (n - 1) (by omega)).2,
        (hp (n - 1) (by omega)).1]
  refine ⟨_, hst, ⟨?_, ?_⟩, key, ?_, ?_⟩
  · simp only
    rw [(hp 0 (by omega)).1]; simp
  · simp only
    rw [(hp (n - 1) (by omega)).1]
    have hc2 : (n : K) - 1 ≠ 0 := by rw [← cast_pred_eq]; exact cast_pred_ne_zero n hn
    have : ((n - 1 : ℕ) : K) = (n : K) - 1 := by
      rw [Nat.cast_sub (by omega)]; simp
    rw [this]
    field_simp
  · obtain ⟨s, hs, h0, h1⟩ := key ((to_ushort (t_final / (x_final / ((n : K) - 1) / 2)) + 1) % 65536)
    exact ⟨s.u, main_eq expf n x_final t_final _ s hst hs, h0, h1⟩
  · intro t s s' hu hv ha h
    obtain ⟨a1, a2, a3⟩ := time_step_frame n _ _ t s s' hdx hu hv ha h 0 (not_interior_zero n)
    obtain ⟨b1, b2, b3⟩ :=
      time_step_frame n _ _ t s s' hdx hu hv ha h (n - 1) (not_interior_last n)
    exact ⟨⟨a1, b1⟩, ⟨a2, b2⟩, ⟨a3, b3⟩⟩

/-- Witness for C2 on a five-point grid over `[0, 10]`. -/
theorem boundary_invariant_witness :
    (2 ≤ 5 ∧ (0 : ℝ) < 10 ∧ (0 : ℝ) ≤ 3) ∧
    ∃ st, setup Real.exp 5 (10 : ℝ) 3 = some st ∧
      (st.x.getD 0 0 = 0 ∧ st.x.getD (5 - 1) 0 = 10) ∧
      (∀ k, ∃ s, run_steps 5 st.dx st.dt k st.state = some s ∧
        s.u.getD 0 0 = Real.exp (-((st.x.getD 0 0 - 5) ^ 2)) ∧
        s.u.getD (5 - 1) 0 = Real.exp (-((st.x.getD (5 - 1) 0 - 5) ^ 2))) ∧
      (∃ u, optimized_leapfrog_1D_wave_equation Real.exp 5 (10 : ℝ) 3 = some (st.x, u) ∧
        u.getD 0 0 = Real.exp (-((st.x.getD 0 0 - 5) ^ 2)) ∧
        u.getD (5 - 1) 0 = Real.exp (-((st.x.getD (5 - 1) 0 - 5) ^ 2))) ∧
      (∀ t s s', s.u.length = 5 → s.v.length = 5 → s.a.length = 5 →
        time_step 5 st.dx st.dt t s = some s' →
        (s'.u.getD 0 0 = s.u.getD 0 0 ∧ s'.u.getD (5 - 1) 0 = s.u.getD (5 - 1) 0) ∧
        (s'.v.getD 0 0 = s.v.getD 0 0 ∧ s'.v.getD (5 - 1) 0 = s.v.getD (5 - 1) 0) ∧
        (s'.a.getD 0 0 = s.a.getD 0 0 ∧ s'.a.getD (5 - 1) 0 = s.a.getD (5 - 1) 0)) :=
  ⟨⟨by norm_num, by norm_num, by norm_num⟩,
    boundary_invariant Real.exp 5 (10 : ℝ) 3 (by norm_num) (by norm_num) (by norm_num)⟩

/-- C3: for `num_points ≥ 2` and `x_final > 0` the field state that enters the time loop
has displacement `u[i] = expf (-(x[i] - 5)^2)` at every index `i < num_points`, with
`x[i] = i * dx` (so the pulse is centred at coordinate 5 whatever `x_final` is), and
velocity and acceleration zero at every index. -/
theorem initial_state [FloorRing K] (expf : K → K) (n : Nat) (x_final t_final : K)
    (hn : 2 ≤ n) (hx : 0 < x_final) :
    ∃ st, setup expf n x_final t_final = some st ∧
      optimized_leapfrog_1D_wave_equation expf n x_final t_final =
        (run_steps n st.dx st.dt st.steps st.state).bind (fun s => some (st.x, s.u)) ∧
      st.state.u.length = n ∧ st.state.v.length = n ∧ st.state.a.length = n ∧
      ∀ i, i < n →
        st.x.getD i 0 = (i : K) * (x_final / ((n : K) - 1)) ∧
        st.state.u.getD i 0 = expf (-((st.x.getD i 0 - 5) ^ 2)) ∧
        st.state.v.getD i 0 = 0 ∧ st.state.a.getD i 0 = 0 := by
  obtain ⟨x, u, hst, _, hul, hp⟩ := setup_spec expf n x_final t_final hn (ne_of_gt hx)
  refine ⟨_, hst, ?_, hul, by simp, by simp, fun i hi => ?_⟩
  · simp [optimized_leapfrog_1D_wave_equation, hst]
  · refine ⟨(hp i hi).1, ?_, getD_replicate_zero n i, getD_replicate_zero n i⟩
    simp only
    rw [(hp i hi).2, (hp i hi).1]

/-- Witness for C3 with the real exponential on a five-point grid over `[0, 10]`. -/
theorem initial_state_witness :
    (2 ≤ 5 ∧ (0 : ℝ) < 10) ∧
    ∃ st, setup Real.exp 5 (10 : ℝ) 3 = some st ∧
      optimized_leapfrog_1D_wave_equation Real.exp 5 (10 : ℝ) 3 =
        (run_steps 5 st.dx st.dt st.steps st.state).bind (fun s => some (st.x, s.u)) ∧
      st.state.u.length = 5 ∧ st.state.v.length = 5 ∧ st.state.a.length = 5 ∧
      ∀ i, i < 5 →
        st.x.getD i 0 = (i : ℝ) * ((10 : ℝ) / (((5 : ℕ) : ℝ) - 1)) ∧
        st.state.u.getD i 0 = Real.exp (-((st.x.getD i 0 - 5) ^ 2)) ∧
        st.state.v.getD i 0 = 0 ∧ st.state.a.getD i 0 = 0 :=
  ⟨⟨by norm_num, by norm_num⟩,
    initial_state Real.exp 5 (10 : ℝ) 3 (by norm_num) (by norm_num)⟩

/-- C4: for `num_points ≥ 2`, `x_final > 0`, `t_final ≥ 0` the function returns a grid of
length `num_points` with `x[i] = i * x_final / (num_points - 1)`; `x[0] = 0`,
`x[num_points-1] = x_final`, consecutive coordinates differ by
`dx = x_final / (num_points - 1)`, and the grid is the same for every other
`t_final ≥ 0`. -/
theorem grid_uniform [FloorRing K] (expf : K → K) (n : Nat) (x_final t_final : K)
    (hn : 2 ≤ n) (hx : 0 < x_final) (_ht : 0 ≤ t_final) :
    ∃ x u, optimized_leapfrog_1D_wave_equation expf n x_final t_final = some (x, u) ∧
      x.length = n ∧
      (∀ i, i < n → x.getD i 0 = (i : K) * x_final / ((n : K) - 1)) ∧
      x.getD 0 0 = 0 ∧ x.getD (n - 1) 0 = x_final ∧
      (∀ i, i + 1 < n → x.getD (i + 1) 0 - x.getD i 0 = x_final / ((n : K) - 1)) ∧
      (∀ t_final' : K, 0 ≤ t_final' →
        ∃ u', optimized_leapfrog_1D_wave_equation expf n x_final t_final' = some (x, u')) := by
  have hdx := setup_dx_ne_zero n x_final hn (ne_of_gt hx)
  have hc2 : (n : K) - 1 ≠ 0 := by rw [← cast_pred_eq]; exact cast_pred_ne_zero n hn
  have hret : ∀ t' : K, ∃ x u, optimized_leapfrog_1D_wave_equation expf n x_final t' =
      some (x, u) ∧ x.length = n ∧
      ∀ j, j < n → x.getD j 0 = (j : K) * (x_final / ((n : K) - 1)) := by
    intro t'
    obtain ⟨x, u, hst, hxl, hul, hp⟩ := setup_spec expf n x_final t' hn (ne_of_gt hx)
    obtain ⟨s, hs, _⟩ := run_steps_boundary n (x_final / ((n : K) - 1))
      (x_final / ((n : K) - 1) / 2) hdx ⟨u, List.replicate n 0, List.replicate n 0⟩
      hul (by simp) (by simp) ((to_ushort (t' / (x_final / ((n : K) - 1) / 2)) + 1) % 65536)
    exact ⟨x, s.u, main_eq expf n x_final t' _ s hst hs, hxl, fun j hj => (hp j hj).1⟩
  obtain ⟨x, u, hm, hxl, hp⟩ := hret t_final
  refine ⟨x, u, hm, hxl, fun i hi => ?_, ?_, ?_, fun i hi => ?_, fun t' _ => ?_⟩
  · rw [hp i hi]; ring
  · rw [hp 0 (by omega)]; simp
  · rw [hp (n - 1) (by omega)]
    have : ((n - 1 : ℕ) : K) = (n : K) - 1 := by
      rw [Nat.cast_sub (by omega)]; simp
    rw [this]
    field_simp
  · rw [hp (i + 1) hi, hp i (by omega)]
    push_cast; ring
  · obtain ⟨x', u', hm', hxl', hp'⟩ := hret t'
    have hxx : x' = x := by
      apply List.ext_getElem?
      intro j
      by_cases hj : j < n
      · have e1 := hp j hj
        have e2 := hp' j hj
        rw [List.getD_eq_getElem?_getD, List.getElem?_eq_getElem (by omega)] at e1 e2
        rw [List.getElem?_eq_getElem (by omega), List.getElem?_eq_getElem (by omega)]
        simp only [Option.getD_some] at e1 e2
        rw [e1, e2]
      · rw [List.getElem?_eq_none (by omega), List.getElem?_eq_none (by omega)]
    exact ⟨u', by rw [← hxx]; exact hm'⟩

/-- Witness for C4 on the grid of the repository's `main`: 500 points over `[0, 10]`. -/
theorem grid_uniform_witness :
    (2 ≤ 500 ∧ (0 : ℝ) < 10 ∧ (0 : ℝ) ≤ 10) ∧
    ∃ x u, optimized_leapfrog_1D_wave_equation Real.exp 500 (10 : ℝ) 10 = some (x, u) ∧
      x.length = 500 ∧
      (∀ i, i < 500 → x.getD i 0 = (i : ℝ) * 10 / (((500 : ℕ) : ℝ) - 1)) ∧
      x.getD 0 0 = 0 ∧ x.getD (500 - 1) 0 = 10 ∧
      (∀ i, i + 1 < 500 → x.getD (i + 1) 0 - x.getD i 0 = 10 / (((500 : ℕ) : ℝ) - 1)) ∧
      (∀ t_final' : ℝ, 0 ≤ t_final' →
        ∃ u', optimized_leapfrog_1D_wave_equation Real.exp 500 (10 : ℝ) t_final' =
          some (x, u')) :=
  ⟨⟨by norm_num, by norm_num, by norm_num⟩,
    grid_uniform Real.exp 500 (10 : ℝ) 10 (by norm_num) (by norm_num) (by norm_num)⟩

/-- C10: for `num_points = 2`, `x_final > 0`, `t_final ≥ 0` there is no interior index, a
time step (and any number of them) returns the state it was given, and the function
returns the initial condition `[expf (-(0 - 5)^2), expf (-(x_final - 5)^2)]`. -/
theorem two_points [FloorRing K] (expf : K → K) (x_final t_final : K)
    (hx : 0 < x_final) (_ht : 0 ≤ t_final) :
    (∀ j, ¬ interior 2 j) ∧
    (∀ (dx dt : K) (t : Nat) (s : FieldState K), time_step 2 dx dt t s = some s) ∧
    (∀ (dx dt : K) (k : Nat) (s : FieldState K), run_steps 2 dx dt k s = some s) ∧
    optimized_leapfrog_1D_wave_equation expf 2 x_final t_final =
      some ([0, x_final], [expf (-((0 - 5) ^ 2)), expf (-((x_final - 5) ^ 2))]) := by
  refine ⟨fun j hj => ?_, time_step_two, fun dx dt k s => run_steps_two dx dt s k, ?_⟩
  · rw [interior_iff] at hj; omega
  · have hx0 : x_final ≠ 0 := ne_of_gt hx
    have hdt : x_final / 2 ≠ 0 := div_ne_zero hx0 (by norm_num)
    simp [optimized_leapfrog_1D_wave_equation, setup, fdiv, num_time_steps, hx0,
      init_arrays, forLoop, iterate, init_body, wr, rd, run_steps_two]

/-- Witness for C10 with `x_final = 10`, `t_final = 10`. -/
theorem two_points_witness :
    ((0 : ℝ) < 10 ∧ (0 : ℝ) ≤ 10) ∧
    (∀ j, ¬ interior 2 j) ∧
    (∀ (dx dt : ℝ) (t : Nat) (s : FieldState ℝ), time_step 2 dx dt t s = some s) ∧
    (∀ (dx dt : ℝ) (k : Nat) (s : FieldState ℝ), run_steps 2 dx dt k s = some s) ∧
    optimized_leapfrog_1D_wave_equation Real.exp 2 (10 : ℝ) 10 =
      some ([0, 10], [Real.exp (-((0 - 5) ^ 2)), Real.exp (-(((10 : ℝ) - 5) ^ 2))]) :=
  ⟨⟨by norm_num, by norm_num⟩, two_points Real.exp (10 : ℝ) 10 (by norm_num) (by norm_num)⟩

/-- C9: for `x_final = 10`, `t_final = 0` and `num_points ≥ 2` the returned displacement
is symmetric about the midpoint index: `displacement[i] = displacement[num_points-1-i]`
for every `i < num_points`. The same holds for every other `t_final`. -/
theorem displacement_symmetric [FloorRing K] (expf : K → K) (n : Nat) (hn : 2 ≤ n) :
    (∃ x u, optimized_leapfrog_1D_wave_equation expf n (10 : K) 0 = some (x, u) ∧
      u.length = n ∧ ∀ i, i < n → u.getD i 0 = u.getD (n - 1 - i) 0) ∧
    ∀ t_final : K,
      ∃ x u, optimized_leapfrog_1D_wave_equation expf n (10 : K) t_final = some (x, u) ∧
        u.length = n ∧ ∀ i, i < n → u.getD i 0 = u.getD (n - 1 - i) 0 := by
  have key : ∀ t_final : K,
      ∃ x u, optimized_leapfrog_1D_wave_equation expf n (10 : K) t_final = some (x, u) ∧
        u.length = n ∧ ∀ i, i < n → u.getD i 0 = u.getD (n - 1 - i) 0 := by
    intro t_final
    have hx : (10 : K) ≠ 0 := by norm_num
    have hdx := setup_dx_ne_zero n (10 : K) hn hx
    have hc2 : (n : K) - 1 ≠ 0 := by rw [← cast_pred_eq]; exact cast_pred_ne_zero n hn
    obtain ⟨x, u, hst, _, hul, hp⟩ := setup_spec expf n (10 : K) t_final hn hx
    have hsu : ∀ j, j < n → u.getD (n - 1 - j) 0 = u.getD j 0 := by
      intro j hj
      rw [(hp j hj).2, (hp (n - 1 - j) (by omega)).2]
      have hcast : ((n - 1 - j : ℕ) : K) = (n : K) - 1 - (j : K) := by
        rw [Nat.cast_sub (by omega), Nat.cast_sub (by omega)]; simp
      have : ((n - 1 - j : ℕ) : K) * (10 / ((n : K) - 1)) - 5
          = -((j : K) * (10 / ((n : K) - 1)) - 5) := by
        rw [hcast]; field_simp; ring
      rw [this, neg_sq]
    obtain ⟨s, hs, hsl, hsym⟩ := run_steps_symm n (10 / ((n : K) - 1))
      (10 / ((n : K) - 1) / 2) hdx ⟨u, List.replicate n 0, List.replicate n 0⟩
      hul (by simp) (by simp) hsu
      (fun j _ => by simp only; rw [getD_replicate_zero, getD_replicate_zero])
      ((to_ushort (t_final / (10 / ((n : K) - 1) / 2)) + 1) % 65536)
    exact ⟨x, s.u, main_eq expf n (10 : K) t_final _ s hst hs, hsl,
      fun i hi => (hsym i hi).symm⟩
  exact ⟨key 0, key⟩

/-- Witness for C9 with the real exponential on 500 points. -/
theorem displacement_symmetric_witness :
    2 ≤ 500 ∧
    ((∃ x u, optimized_leapfrog_1D_wave_equation Real.exp 500 (10 : ℝ) 0 = some (x, u) ∧
      u.length = 500 ∧ ∀ i, i < 500 → u.getD i 0 = u.getD (500 - 1 - i) 0) ∧
    ∀ t_final : ℝ,
      ∃ x u, optimized_leapfrog_1D_wave_equation Real.exp 500 (10 : ℝ) t_final = some (x, u) ∧
        u.length = 500 ∧ ∀ i, i < 500 → u.getD i 0 = u.getD (500 - 1 - i) 0) :=
  ⟨by norm_num, displacement_symmetric Real.exp 500 (by norm_num)⟩

/-- C7 (amended): for `num_points ≥ 2`, `x_final > 0`, `t_final ≥ 0`, in exact arithmetic,
after any number `k` of time steps (and in the returned result) every displacement value
satisfies `|u[i]| ≤ stability_bound num_points u0`, a bound computed from the number of
points and the initial displacement `u0` only, not from the number of steps. The
single-precision run is not covered: on a valid input it can return a NaN. -/
theorem displacement_bounded [FloorRing K] (expf : K → K) (n : Nat) (x_final t_final : K)
    (hn : 2 ≤ n) (hx : 0 < x_final) (_ht : 0 ≤ t_final) :
    ∃ st, setup expf n x_final t_final = some st ∧
      st.dt = st.dx / 2 ∧
      (∀ k, ∃ s, run_steps n st.dx st.dt k st.state = some s ∧
        ∀ i, i < n → |s.u.getD i 0| ≤ stability_bound n st.state.u) ∧
      (∃ u, optimized_leapfrog_1D_wave_equation expf n x_final t_final = some (st.x, u) ∧
        ∀ i, i < n → |u.getD i 0| ≤ stability_bound n st.state.u) := by
  obtain ⟨x, u, hst, _, hul, _⟩ := setup_spec expf n x_final t_final hn (ne_of_gt hx)
  have hdx := setup_dx_ne_zero n x_final hn (ne_of_gt hx)
  have key := fun k => run_steps_bounded n (x_final / ((n : K) - 1)) hn hdx u hul k
  refine ⟨_, hst, rfl, fun k => ?_, ?_⟩
  · obtain ⟨s, hs, _, hb⟩ := key k
    exact ⟨s, hs, hb⟩
  · obtain ⟨s, hs, _, hb⟩ :=
      key ((to_ushort (t_final / (x_final / ((n : K) - 1) / 2)) + 1) % 65536)
    exact ⟨s.u, main_eq expf n x_final t_final _ s hst hs, hb⟩

/-- Witness for C7 (amended) on the configuration of the repository's `main`. -/
theorem displacement_bounded_witness :
    (2 ≤ 500 ∧ (0 : ℝ) < 10 ∧ (0 : ℝ) ≤ 10) ∧
    ∃ st, setup Real.exp 500 (10 : ℝ) 10 = some st ∧
      st.dt = st.dx / 2 ∧
      (∀ k, ∃ s, run_steps 500 st.dx st.dt k st.state = some s ∧
        ∀ i, i < 500 → |s.u.getD i 0| ≤ stability_bound 500 st.state.u) ∧
      (∃ u, optimized_leapfrog_1D_wave_equation Real.exp 500 (10 : ℝ) 10 = some (st.x, u) ∧
        ∀ i, i < 500 → |u.getD i 0| ≤ stability_bound 500 st.state.u) :=
  ⟨⟨by norm_num, by norm_num, by norm_num⟩,
    displacement_bounded Real.exp 500 (10 : ℝ) 10 (by norm_num) (by norm_num) (by norm_num)⟩

/-- C11: for `num_runs ≥ 1` and every sequence of elapsed-time samples,
`measure_execution_time` returns the arithmetic mean
`(t_0 + ... + t_{num_runs-1}) / num_runs` and the population standard deviation
`sqrtf (((t_0 - mean)^2 + ... + (t_{num_runs-1} - mean)^2) / num_runs)` (divisor
`num_runs`), in exact arithmetic. -/
theorem mean_and_stddev [FloorRing K] (expf sqrtf : K → K) (samples : Nat → K)
    (num_runs num_points : Nat) (x_final t_final : K) (hn : 1 ≤ num_runs) :
    ∃ mean std,
      measure_execution_time expf sqrtf samples num_runs num_points x_final t_final
        = some (mean, std) ∧
      mean = (∑ i ∈ Finset.range num_runs, samples i) / (num_runs : K) ∧
      std = sqrtf ((∑ i ∈ Finset.range num_runs, (samples i - mean) ^ 2) / (num_runs : K)) :=
  ⟨_, _, measure_execution_time_eq expf sqrtf samples num_runs num_points x_final t_final hn,
    rfl, rfl⟩

/-- Witness for C11: three runs with the real square root. -/
theorem mean_and_stddev_witness :
    1 ≤ 3 ∧
    ∃ mean std,
      measure_execution_time Real.exp Real.sqrt (fun i => (i : ℝ) + 1) 3 500 10 10
        = some (mean, std) ∧
      mean = (∑ i ∈ Finset.range 3, ((i : ℝ) + 1)) / ((3 : ℕ) : ℝ) ∧
      std = Real.sqrt ((∑ i ∈ Finset.range 3, (((i : ℝ) + 1) - mean) ^ 2) / ((3 : ℕ) : ℝ)) :=
  ⟨by norm_num,
    mean_and_stddev Real.exp Real.sqrt (fun i => (i : ℝ) + 1) 3 500 10 10 (by norm_num)⟩

/-- C12: for `num_runs = 1` and every measured duration `t`, `measure_execution_time`
returns `mean = t` and `stddev = 0` (for a square root with `sqrtf 0 = 0`). -/
theorem single_run [FloorRing K] (expf sqrtf : K → K) (samples : Nat → K)
    (num_points : Nat) (x_final t_final : K) (hsqrt : sqrtf 0 = 0) :
    measure_execution_time expf sqrtf samples 1 num_points x_final t_final
      = some (samples 0, 0) := by
  rw [measure_execution_time_eq expf sqrtf samples 1 num_points x_final t_final le_rfl]
  simp [hsqrt]

/-- Witness for C12 with the real square root and a run of 0.25 seconds. -/
theorem single_run_witness :
    Real.sqrt 0 = 0 ∧
    measure_execution_time Real.exp Real.sqrt (fun _ => (1 / 4 : ℝ)) 1 500 10 10
      = some ((1 / 4 : ℝ), 0) :=
  ⟨Real.sqrt_zero,
    single_run Real.exp Real.sqrt (fun _ => (1 / 4 : ℝ)) 500 10 10 Real.sqrt_zero⟩

/-- C13: for `num_points ≥ 2`, `x_final > 0`, `t_final ≥ 0`, writing `u^k` for the
displacement after `k` time steps, every `k ≥ 1` and every interior index `i` satisfy
`u^{k+1}[i] = 2*u^k[i] - u^{k-1}[i] + (dt^2/dx^2) * (u^k[i-1] + u^k[i+1] - 2*u^k[i])` with
`dt^2/dx^2 = 1/4`; the first step, with its half-size velocity update from rest, gives
`u^1[i] = u^0[i] + (1/2) * (dt^2/dx^2) * (u^0[i-1] + u^0[i+1] - 2*u^0[i])`, from which the
recurrence runs for `k = 1, 2, ...`. -/
theorem two_level_recurrence [FloorRing K] (expf : K → K) (n : Nat) (x_final t_final : K)
    (hn : 2 ≤ n) (hx : 0 < x_final) (_ht : 0 ≤ t_final) :
    ∃ st, setup expf n x_final t_final = some st ∧
      st.dt ^ 2 / st.dx ^ 2 = 1 / 4 ∧
      (∃ s1, run_steps n st.dx st.dt 1 st.state = some s1 ∧
        ∀ i, 1 ≤ i → i ≤ n - 2 →
          s1.u.getD i 0 = st.state.u.getD i 0 + 1 / 2 * (st.dt ^ 2 / st.dx ^ 2) *
            (st.state.u.getD (i - 1) 0 + st.state.u.getD (i + 1) 0
              - 2 * st.state.u.getD i 0)) ∧
      ∀ k, 1 ≤ k →
        ∃ s0 s1 s2, run_steps n st.dx st.dt (k - 1) st.state = some s0 ∧
          run_steps n st.dx st.dt k st.state = some s1 ∧
          run_steps n st.dx st.dt (k + 1) st.state = some s2 ∧
          ∀ i, 1 ≤ i → i ≤ n - 2 →
            s2.u.getD i 0 = 2 * s1.u.getD i 0 - s0.u.getD i 0 + st.dt ^ 2 / st.dx ^ 2 *
              (s1.u.getD (i - 1) 0 + s1.u.getD (i + 1) 0 - 2 * s1.u.getD i 0) := by
  obtain ⟨x, u, hst, _, hul, _⟩ := setup_spec expf n x_final t_final hn (ne_of_gt hx)
  have hdx := setup_dx_ne_zero n x_final hn (ne_of_gt hx)
  have hr := dt_sq_div_dx_sq (x_final / ((n : K) - 1)) hdx
  refine ⟨_, hst, hr, ?_, fun k hk => ?_⟩
  · obtain ⟨s1, h1, _, hp⟩ := first_step_from_rest n (x_final / ((n : K) - 1)) hdx u hul
    refine ⟨s1, h1, fun i hi1 hi2 => ?_⟩
    simp only
    rw [hp i ((interior_iff n i).mpr ⟨hi1, by omega⟩), hr]
    ring
  · obtain ⟨s0, s1, s2, h0, h1, h2, hp⟩ := run_steps_two_level n (x_final / ((n : K) - 1)) hdx
      ⟨u, List.replicate n 0, List.replicate n 0⟩ hul (by simp) (by simp) k hk
    refine ⟨s0, s1, s2, h0, h1, h2, fun i hi1 hi2 => ?_⟩
    simp only
    rw [hp i ((interior_iff n i).mpr ⟨hi1, by omega⟩), hr]

/-- Witness for C13 on the configuration of the repository's `main`. -/
theorem two_level_recurrence_witness :
    (2 ≤ 500 ∧ (0 : ℝ) < 10 ∧ (0 : ℝ) ≤ 10) ∧
    ∃ st, setup Real.exp 500 (10 : ℝ) 10 = some st ∧
      st.dt ^ 2 / st.dx ^ 2 = 1 / 4 ∧
      (∃ s1, run_steps 500 st.dx st.dt 1 st.state = some s1 ∧
        ∀ i, 1 ≤ i → i ≤ 500 - 2 →
          s1.u.getD i 0 = st.state.u.getD i 0 + 1 / 2 * (st.dt ^ 2 / st.dx ^ 2) *
            (st.state.u.getD (i - 1) 0 + st.state.u.getD (i + 1) 0
              - 2 * st.state.u.getD i 0)) ∧
      ∀ k, 1 ≤ k →
        ∃ s0 s1 s2, run_steps 500 st.dx st.dt (k - 1) st.state = some s0 ∧
          run_steps 500 st.dx st.dt k st.state = some s1 ∧
          run_steps 500 st.dx st.dt (k + 1) st.state = some s2 ∧
          ∀ i, 1 ≤ i → i ≤ 500 - 2 →
            s2.u.getD i 0 = 2 * s1.u.getD i 0 - s0.u.getD i 0 + st.dt ^ 2 / st.dx ^ 2 *
              (s1.u.getD (i - 1) 0 + s1.u.getD (i + 1) 0 - 2 * s1.u.getD i 0) :=
  ⟨⟨by norm_num, by norm_num, by norm_num⟩,
    two_level_recurrence Real.exp 500 (10 : ℝ) 10 (by norm_num) (by norm_num) (by norm_num)⟩

end Leapfrog

namespace Binary32

open F32

/-! ## Rounding to binary32 -/

theorem round_half_even_of_near (x : ℚ) (m : ℤ) (h : |x - (m : ℚ)| < 1 / 2) :
    round_half_even x = m := by
  rw [abs_lt] at h
  obtain ⟨h1, h2⟩ := h
  unfold round_half_even
  by_cases hm : (m : ℚ) ≤ x
  · have hf : ⌊x⌋ = m := Int.floor_eq_iff.mpr ⟨hm, by linarith⟩
    rw [hf, if_pos (by linarith)]
  · have hf : ⌊x⌋ = m - 1 := Int.floor_eq_iff.mpr ⟨by push_cast; linarith, by push_cast; linarith⟩
    rw [hf]
    have e : x - ((m - 1 : ℤ) : ℚ) = x - (m : ℚ) + 1 := by push_cast; ring
    rw [e, if_neg (by linarith), if_pos (by linarith)]
    ring

theorem exponent_of_normal (q : ℚ) (e : ℤ) (he : -126 ≤ e) (hlo : (2 : ℚ) ^ e ≤ |q|)
    (hhi : |q| < (2 : ℚ) ^ (e + 1)) : exponent q = e := by
  have hpos : 0 < |q| := lt_of_lt_of_le (by positivity) hlo
  have h1 : e ≤ Int.log 2 |q| := by
    have := (Int.zpow_le_iff_le_log (b := 2) (by norm_num) hpos (x := e)).mp
      (by exact_mod_cast hlo)
    exact this
  have h2 : Int.log 2 |q| < e + 1 := by
    have := (Int.lt_zpow_iff_log_lt (b := 2) (by norm_num) hpos (x := e + 1)).mp
      (by exact_mod_cast hhi)
    exact this
  unfold exponent
  omega

theorem exponent_of_subnormal (q : ℚ) (hhi : |q| < (2 : ℚ) ^ (-126 : ℤ)) (hq : q ≠ 0) :
    exponent q = -126 := by
  have hpos : 0 < |q| := abs_pos.mpr hq
  have h2 : Int.log 2 |q| < -126 := by
    have := (Int.lt_zpow_iff_log_lt (b := 2) (by norm_num) hpos (x := -126)).mp
      (by exact_mod_cast hhi)
    exact this
  unfold exponent
  omega

/-- Rounding with a known exponent: the multiple of `2^(e-23)` within half a unit. -/
theorem round32_of_exponent (q : ℚ) (e m : ℤ) (he : exponent q = e)
    (hm : |q / (2 : ℚ) ^ (e - 23) - (m : ℚ)| < 1 / 2)
    (hfin : |(m : ℚ) * (2 : ℚ) ^ (e - 23)| < (2 : ℚ) ^ (128 : ℤ)) :
    round32 q = fin ((m : ℚ) * (2 : ℚ) ^ (e - 23)) := by
  unfold round32
  simp only [he]
  rw [round_half_even_of_near _ m hm, if_neg (not_le.mpr hfin)]

theorem round32_normal (q : ℚ) (e m : ℤ) (he : -126 ≤ e) (hlo : (2 : ℚ) ^ e ≤ |q|)
    (hhi : |q| < (2 : ℚ) ^ (e + 1))
    (hm : |q / (2 : ℚ) ^ (e - 23) - (m : ℚ)| < 1 / 2)
    (hfin : |(m : ℚ) * (2 : ℚ) ^ (e - 23)| < (2 : ℚ) ^ (128 : ℤ)) :
    round32 q = fin ((m : ℚ) * (2 : ℚ) ^ (e - 23)) :=
  round32_of_exponent q e m (exponent_of_normal q e he hlo hhi) hm hfin

theorem round32_zero : round32 0 = fin 0 := by
  have h := round32_of_exponent 0 (exponent 0) 0 rfl (by simp) (by simp; positivity)
  simpa using h

/-- A product that underflows: below half the least subnormal it rounds to zero. -/
theorem round32_tiny (q : ℚ) (hq : |q| < (2 : ℚ) ^ (-150 : ℤ)) : round32 q = fin 0 := by
  by_cases h0 : q = 0
  · rw [h0]; exact round32_zero
  · have he := exponent_of_subnormal q
      (lt_trans hq (by norm_num)) h0
    have h := round32_of_exponent q (-126) 0 he
      (by
        simp only [Int.cast_zero, sub_zero]
        rw [abs_div, abs_of_pos (by positivity : (0 : ℚ) < 2 ^ (-126 - 23 : ℤ))]
        rw [div_lt_iff₀ (by positivity)]
        calc |q| < (2 : ℚ) ^ (-150 : ℤ) := hq
          _ = 1 / 2 * 2 ^ (-126 - 23 : ℤ) := by norm_num)
      (by simp; positivity)
    simpa using h

/-! ## The single-precision loops, cell by cell -/

theorem getD_set_any {α : Type} (arr : List α) (i j : Nat) (val d : α) (h : i < arr.length) :
    (arr.set i val).getD j d = if j = i then val else arr.getD j d := by
  simp only [List.getD_eq_getElem?_getD, List.getElem?_set]
  by_cases hji : j = i
  · subst hji; simp [h]
  · have : ¬ i = j := fun e => hji e.symm
    simp [hji, this]

theorem getElem_opt_getD {α : Type} (arr : List α) (i : Nat) (d : α) (h : i < arr.length) :
    arr[i]? = some (arr.getD i d) := by
  simp [List.getD_eq_getElem?_getD, List.getElem?_eq_getElem h]

/-- A loop over the interior indices whose pass `i` stores `f i` in cell `i` of one array,
and keeps a property `Inv` of the rest of the state, ends with `f j` in every interior
cell `j` of that array and the other cells as they were. -/
theorem interior_loop_cells {σ α : Type} (n : Nat) (body : Nat → σ → Option σ)
    (get : σ → List α) (d : α) (f : Nat → α) (Inv : σ → Prop) (s : σ)
    (hlen : (get s).length = n) (hinv : Inv s)
    (hbody : ∀ i s', 1 ≤ i → i + 1 < n → (get s').length = n → Inv s' →
      (get s').getD i d = (get s).getD i d →
      ∃ s2, body i s' = some s2 ∧ get s2 = (get s').set i (f i) ∧ Inv s2) :
    ∃ s', Leapfrog.forLoop 1 (Leapfrog.upper n) body s = some s' ∧ Inv s' ∧
      (get s').length = n ∧
      ∀ j, (get s').getD j d = if Leapfrog.interior n j then f j else (get s).getD j d := by
  by_cases hn : 1 ≤ Leapfrog.upper n
  · obtain ⟨s', h1, h2, h3, h4⟩ := Leapfrog.forLoop_inv body
      (fun i s' => Inv s' ∧ (get s').length = n ∧
        ∀ j, (get s').getD j d = if 1 ≤ j ∧ j < i then f j else (get s).getD j d)
      1 (Leapfrog.upper n) s hn
      ⟨hinv, hlen, fun j => by
        have : ¬ (1 ≤ j ∧ j < 1) := by omega
        rw [if_neg this]⟩
      (by
        intro i s' hi1 hi2 ⟨e1, e2, e3⟩
        have hin : i + 1 < n := by unfold Leapfrog.upper at hi2; omega
        have hcur : (get s').getD i d = (get s).getD i d := by
          have : ¬ (1 ≤ i ∧ i < i) := by omega
          rw [e3 i, if_neg this]
        obtain ⟨s2, b1, b2, b3⟩ := hbody i s' hi1 hin e2 e1 hcur
        refine ⟨s2, b1, b3, by rw [b2, List.length_set]; exact e2, fun j => ?_⟩
        rw [b2, getD_set_any _ _ _ _ _ (by omega), e3 j]
        by_cases hji : j = i
        · subst hji
          have : 1 ≤ j ∧ j < j + 1 := by omega
          simp [this]
        · by_cases hj : 1 ≤ j ∧ j < i
          · have : 1 ≤ j ∧ j < i + 1 := by omega
            simp [hji, hj, this]
          · have : ¬ (1 ≤ j ∧ j < i + 1) := by omega
            simp [hji, hj, this])
    exact ⟨s', h1, h2, h3, fun j => by rw [h4 j]; rfl⟩
  · refine ⟨s, Leapfrog.forLoop_empty _ _ _ _ (by omega), hinv, hlen, fun j => ?_⟩
    have : ¬ Leapfrog.interior n j := by unfold Leapfrog.interior; omega
    simp [this]

theorem accel_loop_cells (n : Nat) (dx : F32) (s : Leapfrog.FieldState F32)
    (hu : s.u.length = n) (ha : s.a.length = n) :
    ∃ s', Leapfrog.forLoop 1 (Leapfrog.upper n) (accel_body dx) s = some s' ∧
      s'.u = s.u ∧ s'.v = s.v ∧ s'.a.length = n ∧
      ∀ j, s'.a.getD j nan =
        if Leapfrog.interior n j then
          div (sub (add (s.u.getD (j - 1) nan) (s.u.getD (j + 1) nan))
            (mul (of_int 2) (s.u.getD j nan))) (mul dx dx)
        else s.a.getD j nan := by
  obtain ⟨s', h1, ⟨h2, h3⟩, h4, h5⟩ := interior_loop_cells n (accel_body dx)
    (fun s => s.a) nan
    (fun j => div (sub (add (s.u.getD (j - 1) nan) (s.u.getD (j + 1) nan))
      (mul (of_int 2) (s.u.getD j nan))) (mul dx dx))
    (fun s' => s'.u = s.u ∧ s'.v = s.v) s ha ⟨rfl, rfl⟩
    (by
      intro i s' hi1 hi2 hl ⟨e1, e2⟩ _
      refine ⟨⟨s'.u, s'.v, s'.a.set i _⟩, ?_, rfl, e1, e2⟩
      unfold accel_body
      simp only at hl
      rw [e1, getElem_opt_getD s.u (i - 1) nan (by omega),
        getElem_opt_getD s.u (i + 1) nan (by omega), getElem_opt_getD s.u i nan (by omega)]
      simp only [Option.some_bind]
      rw [Leapfrog.wr_eq _ _ _ (by omega)]
      simp only [Option.some_bind, e1])
  exact ⟨s', h1, h2, h3, h4, h5⟩

theorem vel_loop_cells (n : Nat) (dtl : F32) (s : Leapfrog.FieldState F32)
    (hv : s.v.length = n) (ha : s.a.length = n) :
    ∃ s', Leapfrog.forLoop 1 (Leapfrog.upper n) (vel_body dtl) s = some s' ∧
      s'.u = s.u ∧ s'.a = s.a ∧ s'.v.length = n ∧
      ∀ j, s'.v.getD j nan =
        if Leapfrog.interior n j then add (s.v.getD j nan) (mul (s.a.getD j nan) dtl)
        else s.v.getD j nan := by
  obtain ⟨s', h1, ⟨h2, h3⟩, h4, h5⟩ := interior_loop_cells n (vel_body dtl)
    (fun s => s.v) nan
    (fun j => add (s.v.getD j nan) (mul (s.a.getD j nan) dtl))
    (fun s' => s'.u = s.u ∧ s'.a = s.a) s hv ⟨rfl, rfl⟩
    (by
      intro i s' hi1 hi2 hl ⟨e1, e2⟩ hcur
      refine ⟨⟨s'.u, s'.v.set i _, s'.a⟩, ?_, rfl, e1, e2⟩
      unfold vel_body
      simp only at hl hcur
      rw [e2, getElem_opt_getD s'.v i nan (by omega), getElem_opt_getD s.a i nan (by omega),
        hcur]
      simp only [Option.some_bind]
      rw [Leapfrog.wr_eq _ _ _ (by omega)]
      simp only [Option.some_bind, e2])
  exact ⟨s', h1, h2, h3, h4, h5⟩

theorem disp_loop_cells (n : Nat) (dt : F32) (s : Leapfrog.FieldState F32)
    (hu : s.u.length = n) (hv : s.v.length = n) :
    ∃ s', Leapfrog.forLoop 1 (Leapfrog.upper n) (disp_body dt) s = some s' ∧
      s'.v = s.v ∧ s'.a = s.a ∧ s'.u.length = n ∧
      ∀ j, s'.u.getD j nan =
        if Leapfrog.interior n j then add (s.u.getD j nan) (mul (s.v.getD j nan) dt)
        else s.u.getD j nan := by
  obtain ⟨s', h1, ⟨h2, h3⟩, h4, h5⟩ := interior_loop_cells n (disp_body dt)
    (fun s => s.u) nan
    (fun j => add (s.u.getD j nan) (mul (s.v.getD j nan) dt))
    (fun s' => s'.v = s.v ∧ s'.a = s.a) s hu ⟨rfl, rfl⟩
    (by
      intro i s' hi1 hi2 hl ⟨e1, e2⟩ hcur
      refine ⟨⟨s'.u.set i _, s'.v, s'.a⟩, ?_, rfl, e1, e2⟩
      unfold disp_body
      simp only at hl hcur
      rw [e1, getElem_opt_getD s'.u i nan (by omega), getElem_opt_getD s.v i nan (by omega),
        hcur]
      simp only [Option.some_bind]
      rw [Leapfrog.wr_eq _ _ _ (by omega)]
      simp only [Option.some_bind, e1])
  exact ⟨s', h1, h2, h3, h4, h5⟩

/-- One single-precision time step on arrays of `num_points` cells returns, and its result
is given cell by cell by the three assignments of the source, each operation rounded. -/
theorem time_step_cells (n : Nat) (dx dt : F32) (t : Nat) (s : Leapfrog.FieldState F32)
    (hu : s.u.length = n) (hv : s.v.length = n) (ha : s.a.length = n) :
    ∃ s', time_step n dx dt t s = some s' ∧
      s'.u.length = n ∧ s'.v.length = n ∧ s'.a.length = n ∧
      ∀ j,
        (s'.a.getD j nan =
          if Leapfrog.interior n j then
            div (sub (add (s.u.getD (j - 1) nan) (s.u.getD (j + 1) nan))
              (mul (of_int 2) (s.u.getD j nan))) (mul dx dx)
          else s.a.getD j nan) ∧
        (s'.v.getD j nan =
          if Leapfrog.interior n j then
            add (s.v.getD j nan)
              (mul (s'.a.getD j nan) (if t = 0 then mul dt (fin (1 / 2)) else dt))
          else s.v.getD j nan) ∧
        (s'.u.getD j nan =
          if Leapfrog.interior n j then add (s.u.getD j nan) (mul (s'.v.getD j nan) dt)
          else s.u.getD j nan) := by
  obtain ⟨s1, h1, hu1, hv1, hal1, ha1⟩ := accel_loop_cells n dx s hu ha
  obtain ⟨s2, h2, hu2, ha2, hvl2, hv2⟩ :=
    vel_loop_cells n (if t = 0 then mul dt (fin (1 / 2)) else dt) s1
      (by rw [hv1]; exact hv) hal1
  obtain ⟨s3, h3, hv3, ha3, hul3, hu3⟩ :=
    disp_loop_cells n dt s2 (by rw [hu2, hu1]; exact hu) hvl2
  refine ⟨s3, ?_, hul3, by rw [hv3]; exact hvl2, by rw [ha3, ha2]; exact hal1, fun j => ?_⟩
  · simp only [time_step, h1, h2, h3, Option.some_bind]
  · refine ⟨by rw [ha3, ha2]; exact ha1 j, ?_, ?_⟩
    · rw [hv3, ha3, ha2, hv2 j, hv1]
    · rw [hu3 j, hu2, hu1, hv3]

theorem run_steps_length (n : Nat) (dx dt : F32) (s : Leapfrog.FieldState F32)
    (hu : s.u.length = n) (hv : s.v.length = n) (ha : s.a.length = n) (k : Nat) :
    ∃ s', run_steps n dx dt k s = some s' ∧ s'.u.length = n ∧ s'.v.length = n ∧
      s'.a.length = n :=
  Leapfrog.forLoop_inv (time_step n dx dt)
    (fun _ s => s.u.length = n ∧ s.v.length = n ∧ s.a.length = n)
    0 k s (Nat.zero_le k) ⟨hu, hv, ha⟩
    (fun t s _ _ ⟨e1, e2, e3⟩ => by
      obtain ⟨s', h1, h2, h3, h4, _⟩ := time_step_cells n dx dt t s e1 e2 e3
      exact ⟨s', h1, h2, h3, h4⟩)

/-- The initialisation loop in single precision: the grid is `0 + i * dx` and the
displacement is `expf (-powf (x[i] - 5, 2))`, every operation rounded. -/
theorem init_arrays_cells (expf : F32 → F32) (powf : F32 → F32 → F32) (n : Nat) (dx : F32) :
    ∃ x u, init_arrays expf powf n dx = some (x, u) ∧ x.length = n ∧ u.length = n ∧
      ∀ j, j < n → x.getD j nan = add (fin 0) (mul (of_int j) dx) ∧
        u.getD j nan = expf (neg (powf (sub (x.getD j nan) (of_int 5)) (of_int 2))) := by
  obtain ⟨s', h1, h2, h3, h4⟩ := Leapfrog.forLoop_inv (init_body expf powf dx)
    (fun i s' => s'.1.length = n ∧ s'.2.length = n ∧
      ∀ j, j < i → s'.1.getD j nan = add (fin 0) (mul (of_int j) dx) ∧
        s'.2.getD j nan = expf (neg (powf (sub (s'.1.getD j nan) (of_int 5)) (of_int 2))))
    0 n (List.replicate n (fin 0), List.replicate n (fin 0)) (Nat.zero_le n)
    ⟨by simp, by simp, fun j hj => absurd hj (Nat.not_lt_zero j)⟩
    (by
      intro i s' _ hi ⟨e1, e2, e3⟩
      refine ⟨(s'.1.set i (add (fin 0) (mul (of_int i) dx)),
        s'.2.set i (expf (neg (powf (sub (add (fin 0) (mul (of_int i) dx)) (of_int 5))
          (of_int 2))))), ?_, by simpa using e1, by simpa using e2, ?_⟩
      · unfold init_body
        rw [Leapfrog.wr_eq _ _ _ (by omega)]
        simp only [Option.some_bind]
        rw [getElem_opt_getD _ i nan (by rw [List.length_set]; omega),
          getD_set_any _ _ _ _ _ (by omega), if_pos rfl]
        simp only [Option.some_bind]
        rw [Leapfrog.wr_eq _ _ _ (by omega)]
        rfl
      · intro j hj
        simp only
        rw [getD_set_any _ _ _ _ _ (by omega), getD_set_any _ _ _ _ _ (by omega)]
        by_cases hji : j = i
        · subst hji; simp
        · rw [if_neg hji, if_neg hji]
          exact e3 j (by omega))
  exact ⟨s'.1, s'.2, h1, h2, h3, h4⟩

/-- The single-precision function returns whenever the conversion of the step count is
defined, after exactly that many passes of the time loop. -/
theorem run_of_steps (expf : F32 → F32) (powf : F32 → F32 → F32) (n : Nat)
    (x_final t_final : F32) (k : Nat)
    (hk : to_ushort (div (sub t_final (fin 0))
      (div (div (sub x_final (fin 0)) (of_int ((n : Int) - 1))) (of_int 2))) = some k) :
    ∃ st s, setup expf powf n x_final t_final = some st ∧
      st.dx = div (sub x_final (fin 0)) (of_int ((n : Int) - 1)) ∧
      st.dt = div st.dx (of_int 2) ∧
      st.steps = (k + 1) % 65536 ∧
      st.x.length = n ∧ st.state.u.length = n ∧
      st.state.v = List.replicate n (fin 0) ∧ st.state.a = List.replicate n (fin 0) ∧
      (∀ j, j < n → st.x.getD j nan = add (fin 0) (mul (of_int j) st.dx) ∧
        st.state.u.getD j nan =
          expf (neg (powf (sub (st.x.getD j nan) (of_int 5)) (of_int 2)))) ∧
      run_steps n st.dx st.dt st.steps st.state = some s ∧
      Leapfrog.forLoop 0 st.steps (Leapfrog.counted (time_step n st.dx st.dt))
        (st.state, 0) = some (s, st.steps) ∧
      optimized_leapfrog_1D_wave_equation expf powf n x_final t_final = some (st.x, s.u) ∧
      s.u.length = n := by
  obtain ⟨x, u, hxu, hxl, hul, hcells⟩ := init_arrays_cells expf powf n
    (div (sub x_final (fin 0)) (of_int ((n : Int) - 1)))
  have hst : setup expf powf n x_final t_final = some
      { dx := div (sub x_final (fin 0)) (of_int ((n : Int) - 1)),
        dt := div (div (sub x_final (fin 0)) (of_int ((n : Int) - 1))) (of_int 2),
        steps := (k + 1) % 65536, x := x,
        state := { u := u, v := List.replicate n (fin 0), a := List.replicate n (fin 0) } } := by
    unfold setup num_time_steps
    simp only [hk, Option.some_bind, hxu]
  obtain ⟨s, hs, hsl, _, _⟩ := run_steps_length n
    (div (sub x_final (fin 0)) (of_int ((n : Int) - 1)))
    (div (div (sub x_final (fin 0)) (of_int ((n : Int) - 1))) (of_int 2))
    ⟨u, List.replicate n (fin 0), List.replicate n (fin 0)⟩ hul (by simp) (by simp)
    ((k + 1) % 65536)
  refine ⟨_, s, hst, rfl, rfl, rfl, hxl, hul, rfl, rfl, hcells, hs,
    Leapfrog.forLoop_counted _ _ _ _ hs, ?_, hsl⟩
  unfold optimized_leapfrog_1D_wave_equation
  rw [hst]
  simp only [Option.some_bind]
  rw [hs]
  rfl

/-! ## Roundings of particular numbers -/

/-- Rounding of a positive number, by the bounds that pin its exponent and its nearest
multiple of the unit in the last place. -/
theorem round32_pos (q r : ℚ) (e m : ℤ) (he : -126 ≤ e) (hlo : (2 : ℚ) ^ e ≤ q)
    (hhi : q < (2 : ℚ) ^ (e + 1))
    (hm1 : (m : ℚ) - 1 / 2 < q / (2 : ℚ) ^ (e - 23))
    (hm2 : q / (2 : ℚ) ^ (e - 23) < (m : ℚ) + 1 / 2)
    (hr : (m : ℚ) * (2 : ℚ) ^ (e - 23) = r) (hr0 : 0 ≤ r) (hfin : r < (2 : ℚ) ^ (128 : ℤ)) :
    round32 q = fin r := by
  have hq : 0 < q := lt_of_lt_of_le (by positivity) hlo
  rw [← hr]
  exact round32_normal q e m he (by rw [abs_of_pos hq]; exact hlo)
    (by rw [abs_of_pos hq]; exact hhi)
    (by rw [abs_lt]; constructor <;> linarith)
    (by rw [hr, abs_of_nonneg hr0]; exact hfin)

/-- Rounding of a negative number, from the rounding of its opposite. -/
theorem round32_neg (q r : ℚ) (e m : ℤ) (he : -126 ≤ e) (hlo : (2 : ℚ) ^ e ≤ -q)
    (hhi : -q < (2 : ℚ) ^ (e + 1))
    (hm1 : (m : ℚ) - 1 / 2 < -q / (2 : ℚ) ^ (e - 23))
    (hm2 : -q / (2 : ℚ) ^ (e - 23) < (m : ℚ) + 1 / 2)
    (hr : (m : ℚ) * (2 : ℚ) ^ (e - 23) = r) (hr0 : 0 ≤ r) (hfin : r < (2 : ℚ) ^ (128 : ℤ)) :
    round32 q = fin (-r) := by
  have hq : q < 0 := by
    have : 0 < -q := lt_of_lt_of_le (by positivity) hlo
    linarith
  have h := round32_normal q e (-m) he (by rw [abs_of_neg hq]; exact hlo)
    (by rw [abs_of_neg hq]; exact hhi)
    (by
      rw [neg_div] at hm1 hm2
      rw [abs_lt]; constructor <;> push_cast <;> linarith)
    (by
      push_cast
      rw [neg_mul, abs_neg, hr, abs_of_nonneg hr0]; exact hfin)
  rw [h, ← hr]
  push_cast
  ring_nf

theorem round32_one : round32 1 = fin 1 :=
  round32_pos 1 1 0 (2 ^ 23) (by norm_num) (by norm_num) (by norm_num) (by norm_num)
    (by norm_num) (by norm_num) (by norm_num) (by norm_num)

theorem round32_two : round32 2 = fin 2 :=
  round32_pos 2 2 1 (2 ^ 23) (by norm_num) (by norm_num) (by norm_num) (by norm_num)
    (by norm_num) (by norm_num) (by norm_num) (by norm_num)

theorem round32_seven : round32 7 = fin 7 :=
  round32_pos 7 7 2 14680064 (by norm_num) (by norm_num) (by norm_num) (by norm_num)
    (by norm_num) (by norm_num) (by norm_num) (by norm_num)

theorem round32_eight : round32 8 = fin 8 :=
  round32_pos 8 8 3 (2 ^ 23) (by norm_num) (by norm_num) (by norm_num) (by norm_num)
    (by norm_num) (by norm_num) (by norm_num) (by norm_num)

theorem round32_ten : round32 10 = fin 10 :=
  round32_pos 10 10 3 10485760 (by norm_num) (by norm_num) (by norm_num) (by norm_num)
    (by norm_num) (by norm_num) (by norm_num) (by norm_num)

theorem round32_499 : round32 499 = fin 499 :=
  round32_pos 499 499 8 16351232 (by norm_num) (by norm_num) (by norm_num) (by norm_num)
    (by norm_num) (by norm_num) (by norm_num) (by norm_num)

theorem round32_65535 : round32 65535 = fin 65535 :=
  round32_pos 65535 65535 15 16776960 (by norm_num) (by norm_num) (by norm_num)
    (by norm_num) (by norm_num) (by norm_num) (by norm_num) (by norm_num)

/-- The quotient `8 / 7` in single precision is `0x1.24924ap+0`, above `8 / 7`. -/
theorem round32_eight_sevenths : round32 (8 / 7) = fin (9586981 / 8388608) :=
  round32_pos (8 / 7) (9586981 / 8388608) 0 9586981 (by norm_num) (by norm_num)
    (by norm_num) (by norm_num) (by norm_num) (by norm_num) (by norm_num) (by norm_num)

theorem round32_half_eight_sevenths :
    round32 (9586981 / 8388608 / 2) = fin (9586981 / 16777216) :=
  round32_pos (9586981 / 8388608 / 2) (9586981 / 16777216) (-1) 9586981 (by norm_num)
    (by norm_num) (by norm_num) (by norm_num) (by norm_num) (by norm_num) (by norm_num)
    (by norm_num)

/-- The quotient `8 / dt` for `dt = fl(fl(8/7)/2)` in single precision is `0x1.bffffep+3`,
just below 14. -/
theorem round32_quotient_eight :
    round32 (8 / (9586981 / 16777216)) = fin (14680063 / 1048576) :=
  round32_pos (8 / (9586981 / 16777216)) (14680063 / 1048576) 3 14680063 (by norm_num)
    (by norm_num) (by norm_num) (by norm_num) (by norm_num) (by norm_num) (by norm_num)
    (by norm_num)

theorem round32_ten_499 : round32 (10 / 499) = fin (1344867 / 67108864) :=
  round32_pos (10 / 499) (1344867 / 67108864) (-6) 10758936 (by norm_num) (by norm_num)
    (by norm_num) (by norm_num) (by norm_num) (by norm_num) (by norm_num) (by norm_num)

theorem round32_half_ten_499 :
    round32 (1344867 / 67108864 / 2) = fin (1344867 / 134217728) :=
  round32_pos (1344867 / 67108864 / 2) (1344867 / 134217728) (-7) 10758936 (by norm_num)
    (by norm_num) (by norm_num) (by norm_num) (by norm_num) (by norm_num) (by norm_num)
    (by norm_num)

/-- The quotient `10 / dt` for `dt = fl(fl(10/499)/2)` rounds to `998`. -/
theorem round32_quotient_ten : round32 (10 / (1344867 / 134217728)) = fin 998 :=
  round32_pos (10 / (1344867 / 134217728)) 998 9 16351232 (by norm_num)
    (by norm_num) (by norm_num) (by norm_num) (by norm_num) (by norm_num) (by norm_num)
    (by norm_num)

theorem sub_fin_zero (a : ℚ) : sub (fin a) (fin 0) = round32 a := by
  simp [sub, add, neg]

theorem div_fin_fin (a b : ℚ) (hb : b ≠ 0) : div (fin a) (fin b) = round32 (a / b) := by
  simp [div, hb]

theorem of_int_pred (n : Nat) (m : ℚ) (h : ((n : ℚ) - 1) = m) :
    of_int ((n : Int) - 1) = round32 m := by
  unfold of_int
  rw [← h]
  push_cast
  rfl

/-- The single-precision quotient `(t_final - 0) / dt` for the configuration
`(2, 2, 65535)`. -/
theorem quotient_2_2_65535 :
    div (sub (fin 65535) (fin 0))
      (div (div (sub (fin 2) (fin 0)) (of_int (((2 : ℕ) : Int) - 1))) (of_int 2))
      = fin 65535 := by
  rw [sub_fin_zero, sub_fin_zero, of_int_pred 2 1 (by norm_num), round32_one, round32_two,
    round32_65535, div_fin_fin 2 1 (by norm_num), div_one, round32_two]
  have h2 : of_int 2 = fin 2 := by
    unfold of_int
    exact_mod_cast round32_two
  rw [h2, div_fin_fin 2 2 (by norm_num), div_self (by norm_num), round32_one,
    div_fin_fin 65535 1 (by norm_num), div_one, round32_65535]

/-- The single-precision quotient `(t_final - 0) / dt` for the configuration `(8, 8, 8)`. -/
theorem quotient_8_8_8 :
    div (sub (fin 8) (fin 0))
      (div (div (sub (fin 8) (fin 0)) (of_int (((8 : ℕ) : Int) - 1))) (of_int 2))
      = fin (14680063 / 1048576) := by
  have h2 : of_int 2 = fin 2 := by
    unfold of_int
    exact_mod_cast round32_two
  rw [sub_fin_zero, of_int_pred 8 7 (by norm_num), round32_seven, round32_eight, h2,
    div_fin_fin 8 7 (by norm_num), round32_eight_sevenths,
    div_fin_fin (9586981 / 8388608) 2 (by norm_num), round32_half_eight_sevenths,
    div_fin_fin 8 (9586981 / 16777216) (by norm_num), round32_quotient_eight]

/-- The single-precision quotient `(t_final - 0) / dt` for the configuration
`(500, 10, 10)`. -/
theorem quotient_500_10_10 :
    div (sub (fin 10) (fin 0))
      (div (div (sub (fin 10) (fin 0)) (of_int (((500 : ℕ) : Int) - 1))) (of_int 2))
      = fin 998 := by
  have h2 : of_int 2 = fin 2 := by
    unfold of_int
    exact_mod_cast round32_two
  rw [sub_fin_zero, of_int_pred 500 499 (by norm_num), round32_499, round32_ten, h2,
    div_fin_fin 10 499 (by norm_num), round32_ten_499,
    div_fin_fin (1344867 / 67108864) 2 (by norm_num), round32_half_ten_499,
    div_fin_fin 10 (1344867 / 134217728) (by norm_num), round32_quotient_ten]

/-! ## The number of time steps -/

theorem to_ushort_fin (r : ℚ) (h0 : 0 ≤ r) (h1 : r < 65536) :
    to_ushort (fin r) = some ⌊r⌋.toNat := by
  have : -1 < r ∧ r < 65536 := ⟨by linarith, h1⟩
  simp [to_ushort, this, h0]

theorem of_int_two : of_int 2 = fin 2 := by
  unfold of_int
  exact_mod_cast round32_two

/-- The single-precision step sizes of the repository's configuration, 500 points over
`[0, 10]`: `dx = 0x1.47ae14p-6` and `dt = dx / 2`. -/
theorem steps_500_10 :
    div (sub (fin 10) (fin 0)) (of_int (((500 : ℕ) : Int) - 1)) = fin (1344867 / 67108864) ∧
    div (div (sub (fin 10) (fin 0)) (of_int (((500 : ℕ) : Int) - 1))) (of_int 2)
      = fin (1344867 / 134217728) := by
  rw [sub_fin_zero, of_int_pred 500 499 (by norm_num), round32_499, round32_ten, of_int_two,
    div_fin_fin 10 499 (by norm_num), round32_ten_499,
    div_fin_fin (1344867 / 67108864) 2 (by norm_num), round32_half_ten_499]
  exact ⟨rfl, rfl⟩

/-- C5 as stated fails, in two ways. With `num_points = 8`, `x_final = 8`, `t_final = 8`
the claimed count is `floor (8 / (8 / 14)) + 1 = 15`, while the code computes
`dx = fl (8 / 7) = 0x1.24924ap+0`, `dt = dx / 2` and the quotient
`fl (8 / dt) = 0x1.bffffep+3 < 14`, so the counter is `13 + 1 = 14` and the time loop
executes 14 iterations. With `num_points = 2`, `x_final = 2`, `t_final = 65535` every
operation is exact, `dt = 1`, `floor (65535 / 1) + 1 = 65536`, while the 16-bit counter holds
`0` and the time loop executes no iteration. -/
theorem step_count_counterexample :
    (2 ≤ 8 ∧ (0 : ℚ) < 8 ∧ (0 : ℚ) ≤ 8) ∧
    ⌊((8 : ℚ) - 0) / (8 / (2 * (8 - 1)))⌋ + 1 = 15 ∧
    (∀ (expf : F32 → F32) (powf : F32 → F32 → F32),
      ∃ st s, setup expf powf 8 (fin 8) (fin 8) = some st ∧
        st.dx = fin (9586981 / 8388608) ∧ st.dt = fin (9586981 / 16777216) ∧
        div (sub (fin 8) (fin 0)) st.dt = fin (14680063 / 1048576) ∧
        st.steps = 14 ∧
        Leapfrog.forLoop 0 st.steps (Leapfrog.counted (time_step 8 st.dx st.dt))
          (st.state, 0) = some (s, 14)) ∧
    (2 ≤ 2 ∧ (0 : ℚ) < 2 ∧ (0 : ℚ) ≤ 65535) ∧
    ⌊((65535 : ℚ) - 0) / (2 / (2 * (2 - 1)))⌋ + 1 = 65536 ∧
    (∀ (expf : F32 → F32) (powf : F32 → F32 → F32),
      ∃ st s, setup expf powf 2 (fin 2) (fin 65535) = some st ∧
        st.dt = fin 1 ∧
        div (sub (fin 65535) (fin 0)) st.dt = fin 65535 ∧
        st.steps = 0 ∧
        Leapfrog.forLoop 0 st.steps (Leapfrog.counted (time_step 2 st.dx st.dt))
          (st.state, 0) = some (s, 0)) := by
  refine ⟨⟨by norm_num, by norm_num, by norm_num⟩, ?_, ?_,
    ⟨by norm_num, by norm_num, by norm_num⟩, ?_, ?_⟩
  · have : ((8 : ℚ) - 0) / (8 / (2 * (8 - 1))) = ((14 : ℤ) : ℚ) := by norm_num
    rw [this, Int.floor_intCast]
    rfl
  · intro expf powf
    have hfl : ⌊(14680063 / 1048576 : ℚ)⌋ = 13 := by
      rw [Int.floor_eq_iff]
      constructor <;> norm_num
    have hk : to_ushort (div (sub (fin 8) (fin 0))
        (div (div (sub (fin 8) (fin 0)) (of_int (((8 : ℕ) : Int) - 1))) (of_int 2)))
        = some 13 := by
      rw [quotient_8_8_8, to_ushort_fin _ (by norm_num) (by norm_num), hfl]
      rfl
    obtain ⟨st, s, h1, h2, h3, h4, -, -, -, -, -, -, h5, -, -⟩ :=
      run_of_steps expf powf 8 (fin 8) (fin 8) 13 hk
    have hdx : st.dx = fin (9586981 / 8388608) := by
      rw [h2, sub_fin_zero, of_int_pred 8 7 (by norm_num), round32_seven, round32_eight,
        div_fin_fin 8 7 (by norm_num), round32_eight_sevenths]
    have hdt : st.dt = fin (9586981 / 16777216) := by
      rw [h3, hdx, of_int_two, div_fin_fin (9586981 / 8388608) 2 (by norm_num),
        round32_half_eight_sevenths]
    have h14 : st.steps = 14 := by rw [h4]
    refine ⟨st, s, h1, hdx, hdt, ?_, h14, ?_⟩
    · rw [hdt, sub_fin_zero, round32_eight,
        div_fin_fin 8 (9586981 / 16777216) (by norm_num), round32_quotient_eight]
    · rw [h14] at h5 ⊢
      exact h5
  · have : ((65535 : ℚ) - 0) / (2 / (2 * (2 - 1))) = ((65535 : ℤ) : ℚ) := by norm_num
    rw [this, Int.floor_intCast]
    rfl
  · intro expf powf
    have hfl : ⌊(65535 : ℚ)⌋ = 65535 := by
      have : (65535 : ℚ) = ((65535 : ℤ) : ℚ) := by norm_num
      rw [this, Int.floor_intCast]
    have hk : to_ushort (div (sub (fin 65535) (fin 0))
        (div (div (sub (fin 2) (fin 0)) (of_int (((2 : ℕ) : Int) - 1))) (of_int 2)))
        = some 65535 := by
      rw [quotient_2_2_65535, to_ushort_fin _ (by norm_num) (by norm_num), hfl]
      rfl
    obtain ⟨st, s, h1, h2, h3, h4, -, -, -, -, -, -, h5, -, -⟩ :=
      run_of_steps expf powf 2 (fin 2) (fin 65535) 65535 hk
    have hdt : st.dt = fin 1 := by
      rw [h3, h2, sub_fin_zero, of_int_pred 2 1 (by norm_num), round32_one, round32_two,
        div_fin_fin 2 1 (by norm_num), div_one, round32_two, of_int_two,
        div_fin_fin 2 2 (by norm_num), div_self (by norm_num), round32_one]
    have h0 : st.steps = 0 := by rw [h4]
    refine ⟨st, s, h1, hdt, ?_, h0, ?_⟩
    · rw [hdt, sub_fin_zero, round32_65535, div_fin_fin 65535 1 (by norm_num), div_one,
        round32_65535]
    · rw [h0] at h5 ⊢
      exact h5

/-- C5 (amended): let `q` be the single-precision quotient `(t_final - 0) / dt` that the
code computes, with `dx = (x_final - 0) / (num_points - 1)` and `dt = dx / 2` in single
precision. When `q` is finite with `0 ≤ q < 65536` the function returns, the step counter
is `(floor q + 1) mod 65536` and the time loop executes exactly that many iterations; this
is `floor q + 1` when `floor q ≤ 65534`, and `999` for `num_points = 500`, `x_final = 10`,
`t_final = 10`. -/
theorem step_count (expf : F32 → F32) (powf : F32 → F32 → F32) (n : Nat)
    (x_final t_final : F32) (q : ℚ)
    (hq : div (sub t_final (fin 0))
      (div (div (sub x_final (fin 0)) (of_int ((n : Int) - 1))) (of_int 2)) = fin q)
    (h0 : 0 ≤ q) (h1 : q < 65536) :
    ∃ st s, setup expf powf n x_final t_final = some st ∧
      st.dx = div (sub x_final (fin 0)) (of_int ((n : Int) - 1)) ∧
      st.dt = div st.dx (of_int 2) ∧
      div (sub t_final (fin 0)) st.dt = fin q ∧
      Leapfrog.forLoop 0 st.steps (Leapfrog.counted (time_step n st.dx st.dt))
        (st.state, 0) = some (s, st.steps) ∧
      optimized_leapfrog_1D_wave_equation expf powf n x_final t_final = some (st.x, s.u) ∧
      (st.steps : Int) = (⌊q⌋ + 1) % 65536 ∧
      (⌊q⌋ ≤ 65534 → (st.steps : Int) = ⌊q⌋ + 1) ∧
      (n = 500 → x_final = fin 10 → t_final = fin 10 → st.steps = 999) := by
  have hk := to_ushort_fin q h0 h1
  rw [← hq] at hk
  obtain ⟨st, s, e1, e2, e3, e4, -, -, -, -, -, -, e5, e6, -⟩ :=
    run_of_steps expf powf n x_final t_final ⌊q⌋.toNat hk
  have hfl0 : 0 ≤ ⌊q⌋ := Int.floor_nonneg.mpr h0
  have hfl1 : ⌊q⌋ < 65536 := by
    rw [Int.floor_lt]
    exact_mod_cast h1
  have hsteps : (st.steps : Int) = (⌊q⌋ + 1) % 65536 := by
    rw [e4]
    push_cast
    rw [Int.toNat_of_nonneg hfl0]
  refine ⟨st, s, e1, e2, e3, by rw [e3, e2]; exact hq, e5, e6, hsteps, ?_, ?_⟩
  · intro h
    rw [hsteps]
    exact Int.emod_eq_of_lt (by omega) (by omega)
  · intro en ex et
    subst en ex et
    rw [quotient_500_10_10] at hq
    have hq998 : q = 998 := (F32.fin.inj hq).symm
    have hfl : ⌊q⌋ = 998 := by
      rw [hq998]
      have : (998 : ℚ) = ((998 : ℤ) : ℚ) := by norm_num
      rw [this, Int.floor_intCast]
    rw [hfl] at hsteps
    omega

/-- Witness for C5 (amended) on the configuration of the repository's `main`: 500 points
over `[0, 10]` up to `t_final = 10`, where the single-precision quotient is exactly `998`. -/
theorem step_count_witness :
    (div (sub (fin 10) (fin 0))
        (div (div (sub (fin 10) (fin 0)) (of_int (((500 : ℕ) : Int) - 1))) (of_int 2))
        = fin 998 ∧ (0 : ℚ) ≤ 998 ∧ (998 : ℚ) < 65536) ∧
    ∀ (expf : F32 → F32) (powf : F32 → F32 → F32),
      ∃ st s, setup expf powf 500 (fin 10) (fin 10) = some st ∧
        st.dx = div (sub (fin 10) (fin 0)) (of_int (((500 : ℕ) : Int) - 1)) ∧
        st.dt = div st.dx (of_int 2) ∧
        div (sub (fin 10) (fin 0)) st.dt = fin 998 ∧
        Leapfrog.forLoop 0 st.steps (Leapfrog.counted (time_step 500 st.dx st.dt))
          (st.state, 0) = some (s, st.steps) ∧
        optimized_leapfrog_1D_wave_equation expf powf 500 (fin 10) (fin 10)
          = some (st.x, s.u) ∧
        (st.steps : Int) = (⌊(998 : ℚ)⌋ + 1) % 65536 ∧
        (⌊(998 : ℚ)⌋ ≤ 65534 → (st.steps : Int) = ⌊(998 : ℚ)⌋ + 1) ∧
        (500 = 500 → fin 10 = fin 10 → fin 10 = fin 10 → st.steps = 999) :=
  ⟨⟨quotient_500_10_10, by norm_num, by norm_num⟩, fun expf powf =>
    step_count expf powf 500 (fin 10) (fin 10) 998 quotient_500_10_10 (by norm_num)
      (by norm_num)⟩

/-! ## A grid so fine that `dx * dx` underflows -/

theorem add_nan_right (a : F32) : add a nan = nan := by
  cases a <;> rfl

theorem mul_nan_left (b : F32) : mul nan b = nan := by
  cases b <;> rfl

theorem sub_self_round (a : F32) : sub a a = fin 0 ∨ sub a a = nan := by
  cases a with
  | fin r =>
    left
    simp [sub, add, neg, round32_zero]
  | inf s =>
    right
    cases s <;> simp [sub, add, neg]
  | nan => right; rfl

/-- The second difference of a constant field, divided by a zero `dx * dx`, is NaN: the
numerator is `0` (or already NaN), and `0 / 0` is NaN. -/
theorem second_difference_over_zero (E : F32) :
    div (sub (add E E) (mul (of_int 2) E)) (fin 0) = nan := by
  have h : mul (of_int 2) E = add E E := by
    rw [of_int_two]
    cases E with
    | fin e =>
      have : (2 : ℚ) * e = e + e := by ring
      simp [mul, add, this]
    | inf s => cases s <;> simp [mul, add]
    | nan => rfl
  rw [h]
  rcases sub_self_round (add E E) with h0 | h0 <;> rw [h0] <;> simp [div]

theorem round32_pow_80 : round32 (2 ^ (-80 : ℤ)) = fin (2 ^ (-80 : ℤ)) :=
  round32_pos _ _ (-80) (2 ^ 23) (by norm_num) (by norm_num) (by norm_num) (by norm_num)
    (by norm_num) (by norm_num) (by positivity) (by norm_num)

theorem round32_pow_81 : round32 (2 ^ (-81 : ℤ)) = fin (2 ^ (-81 : ℤ)) :=
  round32_pos _ _ (-81) (2 ^ 23) (by norm_num) (by norm_num) (by norm_num) (by norm_num)
    (by norm_num) (by norm_num) (by positivity) (by norm_num)

theorem round32_pow_82 : round32 (2 ^ (-82 : ℤ)) = fin (2 ^ (-82 : ℤ)) :=
  round32_pos _ _ (-82) (2 ^ 23) (by norm_num) (by norm_num) (by norm_num) (by norm_num)
    (by norm_num) (by norm_num) (by positivity) (by norm_num)

theorem round32_five : round32 5 = fin 5 :=
  round32_pos 5 5 2 10485760 (by norm_num) (by norm_num) (by norm_num) (by norm_num)
    (by norm_num) (by norm_num) (by norm_num) (by norm_num)

/-- Next to `-5` a term of size `2 ^ (-80)` or less is lost in the rounding. -/
theorem round32_near_minus_five (t : ℚ) (h0 : 0 ≤ t) (h1 : t ≤ 2 ^ (-80 : ℤ)) :
    round32 (t + -5) = fin (-5) := by
  have h2 : t < 1 / 4194304 := lt_of_le_of_lt h1 (by norm_num)
  have h3 : -(t + -5) / (2 : ℚ) ^ ((2 : ℤ) - 23) = 10485760 - t * 2 ^ 21 := by
    norm_num
    ring
  exact round32_neg (t + -5) 5 2 10485760 (by norm_num) (by norm_num; linarith)
    (by norm_num; linarith)
    (by rw [h3]; norm_num; linarith)
    (by rw [h3]; norm_num; linarith)
    (by norm_num) (by norm_num) (by norm_num)

/-- The step sizes for 3 points over `[0, 2 ^ (-80)]`, all exact, and the product
`dx * dx = 2 ^ (-162)`, which is below half the least subnormal and rounds to zero. -/
theorem steps_3_pow_80 :
    div (sub (fin (2 ^ (-80 : ℤ))) (fin 0)) (of_int (((3 : ℕ) : Int) - 1))
      = fin (2 ^ (-81 : ℤ)) ∧
    div (fin (2 ^ (-81 : ℤ))) (of_int 2) = fin (2 ^ (-82 : ℤ)) ∧
    mul (fin (2 ^ (-81 : ℤ))) (fin (2 ^ (-81 : ℤ))) = fin 0 := by
  have e1 : (2 : ℚ) ^ (-80 : ℤ) / 2 = 2 ^ (-81 : ℤ) := by norm_num
  have e2 : (2 : ℚ) ^ (-81 : ℤ) / 2 = 2 ^ (-82 : ℤ) := by norm_num
  refine ⟨?_, ?_, ?_⟩
  · rw [sub_fin_zero, of_int_pred 3 2 (by norm_num), round32_two, round32_pow_80,
      div_fin_fin _ 2 (by norm_num), e1, round32_pow_81]
  · rw [of_int_two, div_fin_fin _ 2 (by norm_num), e2, round32_pow_82]
  · have : mul (fin (2 ^ (-81 : ℤ))) (fin (2 ^ (-81 : ℤ)))
        = round32 (2 ^ (-81 : ℤ) * 2 ^ (-81 : ℤ)) := rfl
    rw [this]
    exact round32_tiny _ (by rw [abs_of_pos (by positivity)]; norm_num)

theorem add_fin_fin (a b : ℚ) : add (fin a) (fin b) = round32 (a + b) := rfl

theorem mul_fin_fin (a b : ℚ) : mul (fin a) (fin b) = round32 (a * b) := rfl

theorem sub_fin_fin (a b : ℚ) : sub (fin a) (fin b) = round32 (a + -b) := rfl

theorem of_int_nat (j : Nat) (m : ℚ) (h : (j : ℚ) = m) : of_int (j : Int) = round32 m := by
  unfold of_int
  rw [← h]
  push_cast
  rfl

theorem of_int_five : of_int 5 = fin 5 := by
  unfold of_int
  exact_mod_cast round32_five

theorem list_of_three {α : Type} (l : List α) (d : α) (h : l.length = 3) :
    l = [l.getD 0 d, l.getD 1 d, l.getD 2 d] := by
  match l, h with
  | [_, _, _], _ => rfl

theorem run_steps_one (n : Nat) (dx dt : F32) (s : Leapfrog.FieldState F32) :
    run_steps n dx dt 1 s = time_step n dx dt 0 s := by
  simp [run_steps, Leapfrog.forLoop, Leapfrog.iterate]

theorem getD_replicate_fin_zero (n j : Nat) (h : j < n) :
    (List.replicate n (fin 0)).getD j nan = fin 0 := by
  simp [List.getD_eq_getElem?_getD, List.getElem?_replicate, h]

/-- The first pass of the time loop from rest, in single precision: interior cells receive
`u0[i] + (0 + a[i] * (dt * 0.5f)) * dt` with `a[i]` the rounded second difference over
`dx * dx`, the other cells are left as they were. -/
theorem first_step_cells (n : Nat) (dx dt : F32) (s : Leapfrog.FieldState F32)
    (hu : s.u.length = n) (hv : s.v = List.replicate n (fin 0))
    (ha : s.a = List.replicate n (fin 0)) :
    ∃ s', run_steps n dx dt 1 s = some s' ∧ s'.u.length = n ∧
      ∀ j, s'.u.getD j nan =
        if Leapfrog.interior n j then
          add (s.u.getD j nan)
            (mul (add (fin 0)
              (mul (div (sub (add (s.u.getD (j - 1) nan) (s.u.getD (j + 1) nan))
                  (mul (of_int 2) (s.u.getD j nan))) (mul dx dx))
                (mul dt (fin (1 / 2))))) dt)
        else s.u.getD j nan := by
  obtain ⟨s', h1, h2, -, -, h3⟩ := time_step_cells n dx dt 0 s hu (by rw [hv]; simp)
    (by rw [ha]; simp)
  refine ⟨s', by rw [run_steps_one]; exact h1, h2, fun j => ?_⟩
  obtain ⟨e1, e2, e3⟩ := h3 j
  by_cases hj : Leapfrog.interior n j
  · have hjn : j < n := by
      rw [Leapfrog.interior_iff] at hj
      omega
    rw [if_pos hj] at e1 e2 e3 ⊢
    rw [e3, e2, e1, hv, getD_replicate_fin_zero n j hjn, if_pos rfl]
  · rw [if_neg hj] at e3 ⊢
    exact e3

/-- The quotient `(0 - 0) / dt` is zero for every `dt` that is neither zero nor NaN. -/
theorem quotient_zero (dt : F32) (h0 : dt ≠ fin 0) (hn : dt ≠ nan) :
    div (sub (fin 0) (fin 0)) dt = fin 0 := by
  rw [sub_fin_zero, round32_zero]
  cases dt with
  | fin d =>
    have hd : d ≠ 0 := fun e => h0 (by rw [e])
    rw [div_fin_fin 0 d hd, zero_div, round32_zero]
  | inf s => rfl
  | nan => exact absurd rfl hn

theorem to_ushort_fin_zero : to_ushort (fin 0) = some 0 := by
  simp [to_ushort]

/-- C7 as stated fails in its floating-point part: with `num_points = 3`,
`x_final = 2 ^ (-80)` (a single-precision number) and `t_final = 0` the steps are
`dx = 2 ^ (-81)` and `dt = 2 ^ (-82)`, the product `dx * dx = 2 ^ (-162)` underflows to
zero, the three initial displacements are the same number `expf (-powf (-5, 2))`, so the
acceleration of the interior cell is `0 / 0`, and the displacement returned for that cell
is NaN, whatever `expf` and `powf` return. -/
theorem displacement_nan_counterexample :
    (2 ≤ 3 ∧ (0 : ℚ) < 2 ^ (-80 : ℤ) ∧ (0 : ℚ) ≤ 0) ∧
    round32 (2 ^ (-80 : ℤ)) = fin (2 ^ (-80 : ℤ)) ∧
    Leapfrog.interior 3 1 ∧
    ∀ (expf : F32 → F32) (powf : F32 → F32 → F32),
      (∃ st, setup expf powf 3 (fin (2 ^ (-80 : ℤ))) (fin 0) = some st ∧
        st.dx = fin (2 ^ (-81 : ℤ)) ∧ st.dt = fin (2 ^ (-82 : ℤ)) ∧ st.steps = 1 ∧
        mul st.dx st.dx = fin 0) ∧
      optimized_leapfrog_1D_wave_equation expf powf 3 (fin (2 ^ (-80 : ℤ))) (fin 0) =
        some ([fin 0, fin (2 ^ (-81 : ℤ)), fin (2 ^ (-80 : ℤ))],
          [expf (neg (powf (fin (-5)) (fin 2))), nan,
            expf (neg (powf (fin (-5)) (fin 2)))]) := by
  refine ⟨⟨by norm_num, by positivity, le_rfl⟩, round32_pow_80, by decide, ?_⟩
  intro expf powf
  obtain ⟨hdx0, hdt0, hmul⟩ := steps_3_pow_80
  have hk : to_ushort (div (sub (fin 0) (fin 0))
      (div (div (sub (fin (2 ^ (-80 : ℤ))) (fin 0)) (of_int (((3 : ℕ) : Int) - 1)))
        (of_int 2))) = some 0 := by
    rw [hdx0, hdt0, quotient_zero _ (by
      intro h
      have := F32.fin.inj h
      norm_num at this) (by simp), to_ushort_fin_zero]
  obtain ⟨st, s, h1, h2, h3, h4, hxl, hul, hv, ha, hcells, hrun, -, hmain, hsl⟩ :=
    run_of_steps expf powf 3 (fin (2 ^ (-80 : ℤ))) (fin 0) 0 hk
  have hdx : st.dx = fin (2 ^ (-81 : ℤ)) := h2.trans hdx0
  have hdt : st.dt = fin (2 ^ (-82 : ℤ)) := by rw [h3, hdx, hdt0]
  have hsteps : st.steps = 1 := by rw [h4]
  refine ⟨⟨st, h1, hdx, hdt, hsteps, by rw [hdx]; exact hmul⟩, ?_⟩
  -- the grid
  have hx0 : st.x.getD 0 nan = fin 0 := by
    rw [(hcells 0 (by norm_num)).1, hdx, of_int_nat 0 0 (by norm_num), round32_zero,
      mul_fin_fin, zero_mul, round32_zero, add_fin_fin, zero_add, round32_zero]
  have hx1 : st.x.getD 1 nan = fin (2 ^ (-81 : ℤ)) := by
    rw [(hcells 1 (by norm_num)).1, hdx, of_int_nat 1 1 (by norm_num), round32_one,
      mul_fin_fin, one_mul, round32_pow_81, add_fin_fin, zero_add, round32_pow_81]
  have hx2 : st.x.getD 2 nan = fin (2 ^ (-80 : ℤ)) := by
    have e : (2 : ℚ) * 2 ^ (-81 : ℤ) = 2 ^ (-80 : ℤ) := by norm_num
    rw [(hcells 2 (by norm_num)).1, hdx, of_int_nat 2 2 (by norm_num), round32_two,
      mul_fin_fin, e, round32_pow_80, add_fin_fin, zero_add, round32_pow_80]
  -- the initial displacement is the same number in the three cells
  have hu0 : st.state.u.getD 0 nan = expf (neg (powf (fin (-5)) (fin 2))) := by
    rw [(hcells 0 (by norm_num)).2, hx0, of_int_five, of_int_two, sub_fin_fin,
      round32_near_minus_five 0 le_rfl (by positivity)]
  have hu1 : st.state.u.getD 1 nan = expf (neg (powf (fin (-5)) (fin 2))) := by
    rw [(hcells 1 (by norm_num)).2, hx1, of_int_five, of_int_two, sub_fin_fin,
      round32_near_minus_five _ (by positivity) (by norm_num)]
  have hu2 : st.state.u.getD 2 nan = expf (neg (powf (fin (-5)) (fin 2))) := by
    rw [(hcells 2 (by norm_num)).2, hx2, of_int_five, of_int_two, sub_fin_fin,
      round32_near_minus_five _ (by positivity) le_rfl]
  -- the single time step
  obtain ⟨s', hs', -, hcell⟩ := first_step_cells 3 st.dx st.dt st.state hul hv ha
  rw [hsteps, hs'] at hrun
  have hss : s' = s := Option.some.inj hrun
  subst hss
  have hs0 : s'.u.getD 0 nan = expf (neg (powf (fin (-5)) (fin 2))) := by
    rw [hcell 0, if_neg (by decide), hu0]
  have hs1 : s'.u.getD 1 nan = nan := by
    rw [hcell 1, if_pos (by decide), hu0, hu1, hu2, hdx, hmul, second_difference_over_zero,
      mul_nan_left, add_nan_right, mul_nan_left, add_nan_right]
  have hs2 : s'.u.getD 2 nan = expf (neg (powf (fin (-5)) (fin 2))) := by
    rw [hcell 2, if_neg (by decide), hu2]
  rw [hmain, list_of_three st.x nan hxl, list_of_three s'.u nan hsl, hx0, hx1, hx2, hs0, hs1,
    hs2]

/-! ## Runs that return the initial field, and a run with no step count -/

theorem round32_four : round32 4 = fin 4 :=
  round32_pos 4 4 2 (2 ^ 23) (by norm_num) (by norm_num) (by norm_num) (by norm_num)
    (by norm_num) (by norm_num) (by norm_num) (by norm_num)

theorem round32_minus_three : round32 (-3) = fin (-3) :=
  round32_neg (-3) 3 1 12582912 (by norm_num) (by norm_num) (by norm_num) (by norm_num)
    (by norm_num) (by norm_num) (by norm_num) (by norm_num)

theorem round32_minus_one : round32 (-1) = fin (-1) :=
  round32_neg (-1) 1 0 (2 ^ 23) (by norm_num) (by norm_num) (by norm_num) (by norm_num)
    (by norm_num) (by norm_num) (by norm_num) (by norm_num)

/-- The least positive single-precision number, `2 ^ (-149)`, is its own rounding. -/
theorem round32_least : round32 (2 ^ (-149 : ℤ)) = fin (2 ^ (-149 : ℤ)) := by
  have he : exponent (2 ^ (-149 : ℤ)) = -126 :=
    exponent_of_subnormal _ (by rw [abs_of_pos (by positivity)]; norm_num)
      (by positivity)
  have h := round32_of_exponent (2 ^ (-149 : ℤ)) (-126) 1 he
    (by norm_num) (by rw [abs_of_pos (by positivity)]; norm_num)
  rw [h]
  norm_num

/-- The step sizes for 5 points over `[0, 2 ^ (-149)]`: `dx = fl (2 ^ (-151))` underflows to
zero, `dt = 0`, and the quotient `(0 - 0) / dt` is NaN. -/
theorem steps_5_least :
    div (sub (fin (2 ^ (-149 : ℤ))) (fin 0)) (of_int (((5 : ℕ) : Int) - 1)) = fin 0 ∧
    div (fin 0) (of_int 2) = fin 0 ∧
    div (sub (fin 0) (fin 0)) (fin 0) = nan := by
  refine ⟨?_, ?_, ?_⟩
  · rw [sub_fin_zero, of_int_pred 5 4 (by norm_num), round32_four, round32_least,
      div_fin_fin _ 4 (by norm_num)]
    exact round32_tiny _ (by rw [abs_of_pos (by positivity)]; norm_num)
  · rw [of_int_two, div_fin_fin 0 2 (by norm_num), zero_div, round32_zero]
  · rw [sub_fin_zero, round32_zero]
    simp [div]

/-- When the conversion of the quotient to the 16-bit counter is undefined the function has
no defined result. -/
theorem undefined_conversion (expf : F32 → F32) (powf : F32 → F32 → F32) (n : Nat)
    (x_final t_final : F32)
    (h : to_ushort (div (sub t_final (fin 0))
      (div (div (sub x_final (fin 0)) (of_int ((n : Int) - 1))) (of_int 2))) = none) :
    setup expf powf n x_final t_final = none ∧
      optimized_leapfrog_1D_wave_equation expf powf n x_final t_final = none := by
  have hs : setup expf powf n x_final t_final = none := by
    unfold setup num_time_steps
    simp only [h, Option.none_bind]
  exact ⟨hs, by unfold optimized_leapfrog_1D_wave_equation; rw [hs]; rfl⟩

/-- C14 as stated fails. Its last part fails when the 16-bit step counter wraps to 0: with
`num_points = 3`, `x_final = 4`, `t_final = 65535` every operation is exact, `dt = 1`, the
counter holds `0`, no time step runs, and the function returns the `t = 0` field, in exact
arithmetic `[exp (-25), exp (-9), exp (-1)]`, although the second difference at the interior
index `1` is not zero. Its first part fails where the single-precision `dt` underflows: with
`num_points = 5`, `x_final = 2 ^ (-149)`, `t_final = 0` the steps are `dx = dt = 0`, the
quotient `0 / 0` is NaN, and its conversion to the counter is undefined, so no number of
time steps is defined. -/
theorem zero_steps_counterexample :
    (2 ≤ 3 ∧ (0 : ℝ) < 4 ∧ (0 : ℝ) ≤ 65535) ∧
    Leapfrog.optimized_leapfrog_1D_wave_equation Real.exp 3 (4 : ℝ) 65535 =
      some ([0, 2, 4], [Real.exp (-25), Real.exp (-9), Real.exp (-1)]) ∧
    Real.exp (-((0 - 5) ^ 2)) = Real.exp (-25) ∧
    Real.exp (-(((2 : ℝ) - 5) ^ 2)) = Real.exp (-9) ∧
    Real.exp (-(((4 : ℝ) - 5) ^ 2)) = Real.exp (-1) ∧
    Leapfrog.interior 3 1 ∧
    Real.exp (-25) + Real.exp (-1) - 2 * Real.exp (-9) ≠ 0 ∧
    (∀ (expf : F32 → F32) (powf : F32 → F32 → F32),
      (∃ st, setup expf powf 3 (fin 4) (fin 65535) = some st ∧
        st.dx = fin 2 ∧ st.dt = fin 1 ∧
        div (sub (fin 65535) (fin 0)) st.dt = fin 65535 ∧ st.steps = 0 ∧
        st.state.u = [expf (neg (powf (fin (-5)) (fin 2))),
          expf (neg (powf (fin (-3)) (fin 2))), expf (neg (powf (fin (-1)) (fin 2)))]) ∧
      optimized_leapfrog_1D_wave_equation expf powf 3 (fin 4) (fin 65535) =
        some ([fin 0, fin 2, fin 4],
          [expf (neg (powf (fin (-5)) (fin 2))), expf (neg (powf (fin (-3)) (fin 2))),
            expf (neg (powf (fin (-1)) (fin 2)))])) ∧
    (2 ≤ 5 ∧ (0 : ℚ) < 2 ^ (-149 : ℤ)) ∧
    round32 (2 ^ (-149 : ℤ)) = fin (2 ^ (-149 : ℤ)) ∧
    div (div (sub (fin (2 ^ (-149 : ℤ))) (fin 0)) (of_int (((5 : ℕ) : Int) - 1))) (of_int 2)
      = fin 0 ∧
    div (sub (fin 0) (fin 0)) (fin 0) = nan ∧
    to_ushort nan = none ∧
    (∀ (expf : F32 → F32) (powf : F32 → F32 → F32),
      setup expf powf 5 (fin (2 ^ (-149 : ℤ))) (fin 0) = none ∧
      optimized_leapfrog_1D_wave_equation expf powf 5 (fin (2 ^ (-149 : ℤ))) (fin 0)
        = none) := by
  obtain ⟨hdx5, hdt5, hq5⟩ := steps_5_least
  refine ⟨⟨by norm_num, by norm_num, by norm_num⟩, ?_, by norm_num, by norm_num, by norm_num,
    by decide, ?_, ?_, ⟨by norm_num, by positivity⟩, round32_least, by rw [hdx5, hdt5], hq5,
    rfl, ?_⟩
  · have hsteps : (Leapfrog.to_ushort ((65535 : ℝ) / (4 / 2 / 2)) + 1) % 65536 = 0 := by
      unfold Leapfrog.to_ushort
      norm_num
      rfl
    simp [Leapfrog.optimized_leapfrog_1D_wave_equation, Leapfrog.setup, Leapfrog.fdiv,
      Leapfrog.num_time_steps, Leapfrog.init_arrays, Leapfrog.forLoop, Leapfrog.iterate,
      Leapfrog.init_body, Leapfrog.wr, Leapfrog.rd, Leapfrog.run_steps]
    rw [hsteps]
    simp only [Leapfrog.iterate, Option.some_bind]
    norm_num
  · have h1 : Real.exp (-1) = Real.exp (-9) * Real.exp 8 := by
      rw [← Real.exp_add]; norm_num
    have h2 : (8 : ℝ) + 1 ≤ Real.exp 8 := Real.add_one_le_exp 8
    have h3 : 0 < Real.exp (-9) := Real.exp_pos _
    have h4 : 0 < Real.exp (-25) := Real.exp_pos _
    nlinarith
  · intro expf powf
    have hdx0 : div (sub (fin 4) (fin 0)) (of_int (((3 : ℕ) : Int) - 1)) = fin 2 := by
      have e : (4 : ℚ) / 2 = 2 := by norm_num
      rw [sub_fin_zero, of_int_pred 3 2 (by norm_num), round32_two, round32_four,
        div_fin_fin 4 2 (by norm_num), e, round32_two]
    have hdt0 : div (fin 2) (of_int 2) = fin 1 := by
      rw [of_int_two, div_fin_fin 2 2 (by norm_num), div_self (by norm_num), round32_one]
    have hq0 : div (sub (fin 65535) (fin 0)) (fin 1) = fin 65535 := by
      rw [sub_fin_zero, round32_65535, div_fin_fin 65535 1 (by norm_num), div_one,
        round32_65535]
    have hfl : ⌊(65535 : ℚ)⌋ = 65535 := by
      have : (65535 : ℚ) = ((65535 : ℤ) : ℚ) := by norm_num
      rw [this, Int.floor_intCast]
    have hk : to_ushort (div (sub (fin 65535) (fin 0))
        (div (div (sub (fin 4) (fin 0)) (of_int (((3 : ℕ) : Int) - 1))) (of_int 2)))
        = some 65535 := by
      rw [hdx0, hdt0, hq0, to_ushort_fin _ (by norm_num) (by norm_num), hfl]
      rfl
    obtain ⟨st, s, h1, h2, h3, h4, hxl, hul, -, -, hcells, hrun, -, hmain, hsl⟩ :=
      run_of_steps expf powf 3 (fin 4) (fin 65535) 65535 hk
    have hdx : st.dx = fin 2 := h2.trans hdx0
    have hdt : st.dt = fin 1 := by rw [h3, hdx, hdt0]
    have hsteps : st.steps = 0 := by rw [h4]
    rw [hsteps] at hrun
    have hss : st.state = s := Option.some.inj hrun
    subst hss
    have hx0 : st.x.getD 0 nan = fin 0 := by
      rw [(hcells 0 (by norm_num)).1, hdx, of_int_nat 0 0 (by norm_num), round32_zero,
        mul_fin_fin, zero_mul, round32_zero, add_fin_fin, zero_add, round32_zero]
    have hx1 : st.x.getD 1 nan = fin 2 := by
      rw [(hcells 1 (by norm_num)).1, hdx, of_int_nat 1 1 (by norm_num), round32_one,
        mul_fin_fin, one_mul, round32_two, add_fin_fin, zero_add, round32_two]
    have hx2 : st.x.getD 2 nan = fin 4 := by
      have e : (2 : ℚ) * 2 = 4 := by norm_num
      rw [(hcells 2 (by norm_num)).1, hdx, of_int_nat 2 2 (by norm_num), round32_two,
        mul_fin_fin, e, round32_four, add_fin_fin, zero_add, round32_four]
    have hu0 : st.state.u.getD 0 nan = expf (neg (powf (fin (-5)) (fin 2))) := by
      rw [(hcells 0 (by norm_num)).2, hx0, of_int_five, of_int_two, sub_fin_fin,
        round32_near_minus_five 0 le_rfl (by positivity)]
    have hu1 : st.state.u.getD 1 nan = expf (neg (powf (fin (-3)) (fin 2))) := by
      have e : (2 : ℚ) + -5 = -3 := by norm_num
      rw [(hcells 1 (by norm_num)).2, hx1, of_int_five, of_int_two, sub_fin_fin, e,
        round32_minus_three]
    have hu2 : st.state.u.getD 2 nan = expf (neg (powf (fin (-1)) (fin 2))) := by
      have e : (4 : ℚ) + -5 = -1 := by norm_num
      rw [(hcells 2 (by norm_num)).2, hx2, of_int_five, of_int_two, sub_fin_fin, e,
        round32_minus_one]
    have hu : st.state.u = [expf (neg (powf (fin (-5)) (fin 2))),
        expf (neg (powf (fin (-3)) (fin 2))), expf (neg (powf (fin (-1)) (fin 2)))] := by
      rw [list_of_three st.state.u nan hul, hu0, hu1, hu2]
    refine ⟨⟨st, h1, hdx, hdt, by rw [hdt]; exact hq0, hsteps, hu⟩, ?_⟩
    rw [hmain, hu, list_of_three st.x nan hxl, hx0, hx1, hx2]
  · intro expf powf
    refine undefined_conversion expf powf 5 (fin (2 ^ (-149 : ℤ))) (fin 0) ?_
    rw [hdx5, hdt5, hq5]
    rfl

/-- C14 (amended): for `t_final = 0` and `num_points ≥ 2`, `x_final > 0` whose
single-precision step `dt` is neither zero nor NaN, the function executes exactly one time
step, the half-kick step, and returns in each interior cell the single-precision value
`u0[i] + (0 + a[i] * (dt * 0.5f)) * dt` with
`a[i] = (u0[i-1] + u0[i+1] - 2 * u0[i]) / (dx * dx)` and
`u0[i] = expf (-powf (x[i] - 5, 2))`, the other cells keeping `u0[i]`; in exact arithmetic
one step is executed as well and that value is
`u0[i] + (1/8) * (u0[i-1] + u0[i+1] - 2 * u0[i])` with `u0[i] = exp (-(x[i] - 5)^2)`. -/
theorem single_step_at_zero {K : Type} [LinearOrderedField K] [FloorRing K] (expf : K → K)
    (expf32 : F32 → F32) (powf32 : F32 → F32 → F32) (n : Nat) (x_final : K)
    (x_final32 : F32) (hn : 2 ≤ n) (hx : 0 < x_final)
    (hdt0 : div (div (sub x_final32 (fin 0)) (of_int ((n : Int) - 1))) (of_int 2) ≠ fin 0)
    (hdtn : div (div (sub x_final32 (fin 0)) (of_int ((n : Int) - 1))) (of_int 2) ≠ nan) :
    (∃ st s, setup expf32 powf32 n x_final32 (fin 0) = some st ∧
      div (sub (fin 0) (fin 0)) st.dt = fin 0 ∧ st.steps = 1 ∧
      Leapfrog.forLoop 0 st.steps (Leapfrog.counted (time_step n st.dx st.dt))
        (st.state, 0) = some (s, 1) ∧
      optimized_leapfrog_1D_wave_equation expf32 powf32 n x_final32 (fin 0)
        = some (st.x, s.u) ∧
      ∀ i, i < n →
        st.x.getD i nan = add (fin 0) (mul (of_int i) st.dx) ∧
        st.state.u.getD i nan
          = expf32 (neg (powf32 (sub (st.x.getD i nan) (of_int 5)) (of_int 2))) ∧
        s.u.getD i nan =
          if Leapfrog.interior n i then
            add (st.state.u.getD i nan)
              (mul (add (fin 0)
                (mul (div (sub (add (st.state.u.getD (i - 1) nan)
                      (st.state.u.getD (i + 1) nan))
                    (mul (of_int 2) (st.state.u.getD i nan))) (mul st.dx st.dx))
                  (mul st.dt (fin (1 / 2))))) st.dt)
          else st.state.u.getD i nan) ∧
    (∃ st s, Leapfrog.setup expf n x_final 0 = some st ∧ st.steps = 1 ∧
      Leapfrog.forLoop 0 st.steps (Leapfrog.counted (Leapfrog.time_step n st.dx st.dt))
        (st.state, 0) = some (s, 1) ∧
      Leapfrog.optimized_leapfrog_1D_wave_equation expf n x_final 0 = some (st.x, s.u) ∧
      ∀ i, 1 ≤ i → i ≤ n - 2 →
        st.state.u.getD i 0 = expf (-((st.x.getD i 0 - 5) ^ 2)) ∧
        s.u.getD i 0 = st.state.u.getD i 0 + 1 / 8 *
          (st.state.u.getD (i - 1) 0 + st.state.u.getD (i + 1) 0
            - 2 * st.state.u.getD i 0)) := by
  constructor
  · have hq := quotient_zero _ hdt0 hdtn
    have hk : to_ushort (div (sub (fin 0) (fin 0))
        (div (div (sub x_final32 (fin 0)) (of_int ((n : Int) - 1))) (of_int 2))) = some 0 := by
      rw [hq, to_ushort_fin_zero]
    obtain ⟨st, s, h1, h2, h3, h4, -, hul, hv, ha, hcells, hrun, hloop, hmain, -⟩ :=
      run_of_steps expf32 powf32 n x_final32 (fin 0) 0 hk
    have hsteps : st.steps = 1 := by rw [h4]
    obtain ⟨s', hs', -, hcell⟩ := first_step_cells n st.dx st.dt st.state hul hv ha
    rw [hsteps, hs'] at hrun
    have hss : s' = s := Option.some.inj hrun
    subst hss
    refine ⟨st, s', h1, by rw [h3, h2]; exact hq, hsteps, ?_, hmain, fun i hi =>
      ⟨(hcells i hi).1, (hcells i hi).2, hcell i⟩⟩
    rw [hsteps] at hloop ⊢
    exact hloop
  · obtain ⟨x, u, hst, _, hul, hxu⟩ :=
      Leapfrog.setup_spec expf n x_final 0 hn (ne_of_gt hx)
    have hdx := Leapfrog.setup_dx_ne_zero n x_final hn (ne_of_gt hx)
    have hsteps : (Leapfrog.to_ushort ((0 : K) / (x_final / ((n : K) - 1) / 2)) + 1) % 65536
        = 1 := by
      rw [zero_div, Leapfrog.to_ushort_zero]
    rw [hsteps] at hst
    obtain ⟨s1, h1, _, hp⟩ :=
      Leapfrog.first_step_from_rest n (x_final / ((n : K) - 1)) hdx u hul
    refine ⟨_, s1, hst, rfl, Leapfrog.forLoop_counted _ _ _ _ h1,
      Leapfrog.main_eq expf n x_final 0 _ s1 hst h1, fun i hi1 hi2 => ?_⟩
    have hint : Leapfrog.interior n i := (Leapfrog.interior_iff n i).mpr ⟨hi1, by omega⟩
    have hi : i < n := by omega
    simp only
    exact ⟨by rw [(hxu i hi).2, (hxu i hi).1], hp i hint⟩

/-- Witness for C14 (amended): 500 points over `[0, 10]`, where the single-precision step
is `dt = 0x1.47ae14p-7`. -/
theorem single_step_at_zero_witness :
    (2 ≤ 500 ∧ (0 : ℝ) < 10 ∧
      div (div (sub (fin 10) (fin 0)) (of_int (((500 : ℕ) : Int) - 1))) (of_int 2) ≠ fin 0 ∧
      div (div (sub (fin 10) (fin 0)) (of_int (((500 : ℕ) : Int) - 1))) (of_int 2) ≠ nan) ∧
    ∀ (expf32 : F32 → F32) (powf32 : F32 → F32 → F32),
    (∃ st s, setup expf32 powf32 500 (fin 10) (fin 0) = some st ∧
      div (sub (fin 0) (fin 0)) st.dt = fin 0 ∧ st.steps = 1 ∧
      Leapfrog.forLoop 0 st.steps (Leapfrog.counted (time_step 500 st.dx st.dt))
        (st.state, 0) = some (s, 1) ∧
      optimized_leapfrog_1D_wave_equation expf32 powf32 500 (fin 10) (fin 0)
        = some (st.x, s.u) ∧
      ∀ i, i < 500 →
        st.x.getD i nan = add (fin 0) (mul (of_int i) st.dx) ∧
        st.state.u.getD i nan
          = expf32 (neg (powf32 (sub (st.x.getD i nan) (of_int 5)) (of_int 2))) ∧
        s.u.getD i nan =
          if Leapfrog.interior 500 i then
            add (st.state.u.getD i nan)
              (mul (add (fin 0)
                (mul (div (sub (add (st.state.u.getD (i - 1) nan)
                      (st.state.u.getD (i + 1) nan))
                    (mul (of_int 2) (st.state.u.getD i nan))) (mul st.dx st.dx))
                  (mul st.dt (fin (1 / 2))))) st.dt)
          else st.state.u.getD i nan) ∧
    (∃ st s, Leapfrog.setup Real.exp 500 (10 : ℝ) 0 = some st ∧ st.steps = 1 ∧
      Leapfrog.forLoop 0 st.steps (Leapfrog.counted (Leapfrog.time_step 500 st.dx st.dt))
        (st.state, 0) = some (s, 1) ∧
      Leapfrog.optimized_leapfrog_1D_wave_equation Real.exp 500 (10 : ℝ) 0
        = some (st.x, s.u) ∧
      ∀ i, 1 ≤ i → i ≤ 500 - 2 →
        st.state.u.getD i 0 = Real.exp (-((st.x.getD i 0 - 5) ^ 2)) ∧
        s.u.getD i 0 = st.state.u.getD i 0 + 1 / 8 *
          (st.state.u.getD (i - 1) 0 + st.state.u.getD (i + 1) 0
            - 2 * st.state.u.getD i 0)) :=
  have h0 : div (div (sub (fin 10) (fin 0)) (of_int (((500 : ℕ) : Int) - 1))) (of_int 2)
      ≠ fin 0 := by
    rw [steps_500_10.2]
    intro h
    have := F32.fin.inj h
    norm_num at this
  have hnan : div (div (sub (fin 10) (fin 0)) (of_int (((500 : ℕ) : Int) - 1))) (of_int 2)
      ≠ nan := by
    rw [steps_500_10.2]
    simp
  ⟨⟨by norm_num, by norm_num, h0, hnan⟩, fun expf32 powf32 =>
    single_step_at_zero Real.exp expf32 powf32 500 (10 : ℝ) (fin 10) (by norm_num)
      (by norm_num) h0 hnan⟩

end Binary32

/-! ## Arrays with `int` indices -/

namespace IntArray

theorem read_nat (arr : List Int) (k : Nat) (h : k < arr.length) :
    read arr (k : Int) = some (arr.getD k 0) := by
  simp [read, List.getD_eq_getElem?_getD, List.getElem?_eq_getElem h]

theorem write_nat (arr : List Int) (k : Nat) (val : Int) (h : k < arr.length) :
    write arr (k : Int) val = some (arr.set k val) := by
  simp [write, h]

theorem getD_set_int (arr : List Int) (i j : Nat) (val : Int) (h : i < arr.length) :
    (arr.set i val).getD j 0 = if j = i then val else arr.getD j 0 := by
  simp only [List.getD_eq_getElem?_getD, List.getElem?_set]
  by_cases hji : j = i
  · subst hji; simp [h]
  · have : ¬ i = j := fun e => hji e.symm
    simp [hji, this]

theorem loop_from_inv {σ : Type} (body : Int → σ → Option σ) (P : Int → σ → Prop) :
    ∀ (count : Nat) (lo : Int) (s : σ), P lo s →
      (∀ j s, lo ≤ j → j < lo + count → P j s → ∃ s', body j s = some s' ∧ P (j + 1) s') →
      ∃ s', loop_from body lo count s = some s' ∧ P (lo + count) s' := by
  intro count
  induction count with
  | zero => intro lo s h _; exact ⟨s, rfl, by simpa using h⟩
  | succ c ih =>
    intro lo s h hstep
    obtain ⟨s1, h1, hP1⟩ := hstep lo s le_rfl (by push_cast; omega) h
    obtain ⟨s2, h2, hP2⟩ := ih (lo + 1) s1 hP1
      (fun j s hj hj2 hP => hstep j s (by omega) (by push_cast; omega) hP)
    refine ⟨s2, ?_, ?_⟩
    · simp [loop_from, h1, h2]
    · have : lo + ((c + 1 : ℕ) : Int) = lo + 1 + (c : Int) := by push_cast; omega
      rw [this]; exact hP2

theorem loop_by_two_inv {σ : Type} (body : Nat → σ → Option σ) (P : Nat → σ → Prop) :
    ∀ (count i : Nat) (s : σ), P i s →
      (∀ c s, c < count → P (i + 2 * c) s →
        ∃ s', body (i + 2 * c) s = some s' ∧ P (i + 2 * c + 2) s') →
      ∃ s', loop_by_two body i count s = some s' ∧ P (i + 2 * count) s' := by
  intro count
  induction count with
  | zero => intro i s h _; exact ⟨s, rfl, by simpa using h⟩
  | succ n ih =>
    intro i s h hstep
    obtain ⟨s1, h1, hP1⟩ := hstep 0 s (by omega) (by simpa using h)
    obtain ⟨s2, h2, hP2⟩ := ih (i + 2) s1 (by simpa using hP1)
      (fun c s hc hP => by
        have e : i + 2 + 2 * c = i + 2 * (c + 1) := by ring
        rw [e] at hP ⊢
        exact hstep (c + 1) s (by omega) hP)
    refine ⟨s2, ?_, ?_⟩
    · have h1' : body i s = some s1 := by simpa using h1
      simp [loop_by_two, h1', h2]
    · have e : i + 2 * (n + 1) = i + 2 + 2 * n := by ring
      rw [e]; exact hP2

theorem exchange_getD (arr : List Int) (a b : Nat) (ha : a < arr.length) (hb : b < arr.length)
    (k : Nat) :
    ((arr.set a (arr.getD b 0)).set b (arr.getD a 0)).getD k 0 =
      if k = b then arr.getD a 0 else if k = a then arr.getD b 0 else arr.getD k 0 := by
  rw [getD_set_int _ _ _ _ (by simpa using hb), getD_set_int _ _ _ _ ha]

theorem exchange_perm (arr : List Int) (a b : Nat) (ha : a < arr.length)
    (hb : b < arr.length) :
    ((arr.set a (arr.getD b 0)).set b (arr.getD a 0)).Perm arr := by
  rw [List.perm_iff_count]
  intro x
  have ea : arr.getD a 0 = arr[a] := by
    simp [List.getD_eq_getElem?_getD, List.getElem?_eq_getElem ha]
  have eb : arr.getD b 0 = arr[b] := by
    simp [List.getD_eq_getElem?_getD, List.getElem?_eq_getElem hb]
  have hb' : b < (arr.set a (arr.getD b 0)).length := by simpa using hb
  rw [List.count_set _ _ _ _ hb', List.count_set _ _ _ _ ha]
  have hmid : (arr.set a (arr.getD b 0))[b] = arr[b] := by
    rw [List.getElem_set]
    split
    · exact eb
    · rfl
  rw [hmid, ea, eb]
  have h1 : (if arr[a] == x then 1 else 0) ≤ arr.count x := by
    have := List.boole_getElem_le_countP (· == x) arr a ha
    simpa [List.count_eq_countP] using this
  have h2 : (if arr[b] == x then 1 else 0) ≤ arr.count x := by
    have := List.boole_getElem_le_countP (· == x) arr b hb
    simpa [List.count_eq_countP] using this
  omega

theorem shuffled_refl (lo hi : Nat) (a : List Int) : shuffled lo hi a a :=
  ⟨rfl, List.Perm.refl a, fun _ _ => rfl, fun k h1 h2 => ⟨k, h1, h2, rfl⟩⟩

theorem shuffled_trans (lo hi : Nat) (a b c : List Int) (h1 : shuffled lo hi a b)
    (h2 : shuffled lo hi b c) : shuffled lo hi a c := by
  obtain ⟨l1, p1, o1, i1⟩ := h1
  obtain ⟨l2, p2, o2, i2⟩ := h2
  refine ⟨l2.trans l1, p2.trans p1, fun k hk => (o2 k hk).trans (o1 k hk), fun k hk1 hk2 => ?_⟩
  obtain ⟨k', a1, a2, a3⟩ := i2 k hk1 hk2
  obtain ⟨k'', b1, b2, b3⟩ := i1 k' a1 a2
  exact ⟨k'', b1, b2, a3.trans b3⟩

theorem shuffled_mono (lo hi lo' hi' : Nat) (a b : List Int) (h : shuffled lo hi a b)
    (hlo : lo' ≤ lo) (hhi : hi ≤ hi') : shuffled lo' hi' a b := by
  obtain ⟨l1, p1, o1, i1⟩ := h
  refine ⟨l1, p1, fun k hk => o1 k (by omega), fun k hk1 hk2 => ?_⟩
  by_cases hin : lo ≤ k ∧ k < hi
  · obtain ⟨k', a1, a2, a3⟩ := i1 k hin.1 hin.2
    exact ⟨k', by omega, by omega, a3⟩
  · exact ⟨k, hk1, hk2, o1 k (by omega)⟩

theorem shuffled_exchange (lo hi : Nat) (arr : List Int) (a b : Nat) (ha : lo ≤ a)
    (hb : lo ≤ b) (ha2 : a < hi) (hb2 : b < hi) (hhi : hi ≤ arr.length) :
    shuffled lo hi arr ((arr.set a (arr.getD b 0)).set b (arr.getD a 0)) := by
  have hal : a < arr.length := by omega
  have hbl : b < arr.length := by omega
  refine ⟨by simp, exchange_perm arr a b hal hbl, fun k hk => ?_, fun k hk1 hk2 => ?_⟩
  · rw [exchange_getD arr a b hal hbl, if_neg (by omega), if_neg (by omega)]
  · rw [exchange_getD arr a b hal hbl]
    by_cases h1 : k = b
    · rw [if_pos h1]; exact ⟨a, ha, ha2, rfl⟩
    · rw [if_neg h1]
      by_cases h2 : k = a
      · rw [if_pos h2]; exact ⟨b, hb, hb2, rfl⟩
      · rw [if_neg h2]; exact ⟨k, hk1, hk2, rfl⟩

theorem take_eq_of_getD (a b : List Int) (n : Nat) (hl : b.length = a.length)
    (h : ∀ k, k < n → b.getD k 0 = a.getD k 0) : b.take n = a.take n := by
  apply List.ext_getElem?
  intro k
  rw [List.getElem?_take, List.getElem?_take]
  by_cases hk : k < n
  · rw [if_pos hk, if_pos hk]
    have := h k hk
    by_cases hkl : k < a.length
    · rw [List.getElem?_eq_getElem hkl, List.getElem?_eq_getElem (by omega)]
      rw [List.getD_eq_getElem?_getD, List.getD_eq_getElem?_getD,
        List.getElem?_eq_getElem hkl, List.getElem?_eq_getElem (by omega)] at this
      simpa using this
    · rw [List.getElem?_eq_none (by omega), List.getElem?_eq_none (by omega)]
  · rw [if_neg hk, if_neg hk]

theorem drop_eq_of_getD (a b : List Int) (n : Nat) (hl : b.length = a.length)
    (h : ∀ k, n ≤ k → b.getD k 0 = a.getD k 0) : b.drop n = a.drop n := by
  apply List.ext_getElem?
  intro k
  rw [List.getElem?_drop, List.getElem?_drop]
  have := h (n + k) (by omega)
  by_cases hkl : n + k < a.length
  · rw [List.getElem?_eq_getElem hkl, List.getElem?_eq_getElem (by omega)]
    rw [List.getD_eq_getElem?_getD, List.getD_eq_getElem?_getD,
      List.getElem?_eq_getElem hkl, List.getElem?_eq_getElem (by omega)] at this
    simpa using this
  · rw [List.getElem?_eq_none (by omega), List.getElem?_eq_none (by omega)]

theorem split_three (a : List Int) (lo hi : Nat) (h : lo ≤ hi) :
    a = a.take lo ++ ((a.drop lo).take (hi - lo) ++ a.drop hi) := by
  have h1 : a = a.take lo ++ a.drop lo := (List.take_append_drop lo a).symm
  have h2 : a.drop lo = (a.drop lo).take (hi - lo) ++ (a.drop lo).drop (hi - lo) :=
    (List.take_append_drop (hi - lo) (a.drop lo)).symm
  have h3 : (a.drop lo).drop (hi - lo) = a.drop hi := by
    rw [List.drop_drop]
    congr 1
    omega
  rw [h3] at h2
  conv_lhs => rw [h1, h2]

/-- The rearranged range of a shuffled array is a permutation of the range before. -/
theorem shuffled_slice_perm (lo hi : Nat) (a b : List Int) (h : shuffled lo hi a b)
    (hle : lo ≤ hi) :
    ((b.drop lo).take (hi - lo)).Perm ((a.drop lo).take (hi - lo)) := by
  obtain ⟨l1, p1, o1, _⟩ := h
  have ht : b.take lo = a.take lo := take_eq_of_getD a b lo l1 (fun k hk => o1 k (Or.inl hk))
  have hd : b.drop hi = a.drop hi := drop_eq_of_getD a b hi l1 (fun k hk => o1 k (Or.inr hk))
  have ea := split_three a lo hi hle
  have eb := split_three b lo hi hle
  rw [ht, hd] at eb
  rw [ea, eb] at p1
  exact (List.perm_append_right_iff _).mp ((List.perm_append_left_iff _).mp p1)

theorem getElem_opt_eq_of_getD (a b : List Int) (hl : b.length = a.length) (k : Nat)
    (h : b.getD k 0 = a.getD k 0) : b[k]? = a[k]? := by
  by_cases hkl : k < a.length
  · rw [List.getD_eq_getElem?_getD, List.getD_eq_getElem?_getD,
      List.getElem?_eq_getElem hkl, List.getElem?_eq_getElem (by omega)] at h
    rw [List.getElem?_eq_getElem hkl, List.getElem?_eq_getElem (by omega)]
    simpa using h
  · rw [List.getElem?_eq_none (by omega), List.getElem?_eq_none (by omega)]

end IntArray

/-! ## Quicksort and the memoised Fibonacci table -/

namespace MiniEp3

open IntArray

theorem swap_nat (arr : List Int) (a b : Nat) (ha : a < arr.length) (hb : b < arr.length) :
    swap arr (a : Int) (b : Int) = some ((arr.set a (arr.getD b 0)).set b (arr.getD a 0)) := by
  unfold swap
  rw [read_nat arr a ha, read_nat arr b hb]
  simp only [Option.some_bind]
  rw [write_nat arr a _ ha]
  simp only [Option.some_bind]
  rw [write_nat _ b _ (by simpa using hb)]

theorem partition_loop_spec (arr : List Int) (lo hi : Nat) (hlt : lo < hi)
    (hhi : hi < arr.length) (pivot : Int) :
    ∃ (arr1 : List Int) (q : Nat),
      loop_from (partition_body pivot) (lo : Int) ((hi : Int) - (lo : Int)).toNat
        (arr, (lo : Int) - 1) = some (arr1, (q : Int) - 1) ∧
      lo ≤ q ∧ q ≤ hi ∧ shuffled lo hi arr arr1 ∧
      (∀ k, lo ≤ k → k < q → arr1.getD k 0 < pivot) ∧
      (∀ k, q ≤ k → k < hi → pivot ≤ arr1.getD k 0) := by
  obtain ⟨s, h1, q, jn, e1, e2, a1, a2, a3, a4, a5, a6⟩ := loop_from_inv (partition_body pivot)
    (fun j s => ∃ q jn : Nat, j = (jn : Int) ∧ s.2 = (q : Int) - 1 ∧ lo ≤ q ∧ q ≤ jn ∧
      jn ≤ hi ∧ shuffled lo hi arr s.1 ∧
      (∀ k, lo ≤ k → k < q → s.1.getD k 0 < pivot) ∧
      (∀ k, q ≤ k → k < jn → pivot ≤ s.1.getD k 0))
    ((hi : Int) - (lo : Int)).toNat (lo : Int) (arr, (lo : Int) - 1)
    ⟨lo, lo, rfl, rfl, le_rfl, le_rfl, by omega, shuffled_refl lo hi arr,
      fun k h1 h2 => absurd h2 (by omega), fun k h1 h2 => absurd h2 (by omega)⟩
    (by
      intro j s hj1 hj2 ⟨q, jn, e1, e2, a1, a2, a3, a4, a5, a6⟩
      have hjn : jn < hi := by omega
      have hlen : s.1.length = arr.length := a4.1
      subst e1
      by_cases hc : s.1.getD jn 0 < pivot
      · refine ⟨((s.1.set q (s.1.getD jn 0)).set jn (s.1.getD q 0), (q : Int)), ?_,
          q + 1, jn + 1, by push_cast; rfl, by push_cast; omega, by omega, by omega, by omega,
          ?_, ?_, ?_⟩
        · unfold partition_body
          rw [read_nat _ _ (by omega)]
          simp only [Option.some_bind, if_pos hc]
          have : s.2 + 1 = (q : Int) := by omega
          rw [this, swap_nat _ _ _ (by omega) (by omega)]
          rfl
        · exact shuffled_trans lo hi arr s.1 _ a4
            (shuffled_exchange lo hi s.1 q jn a1 (by omega) (by omega) hjn (by omega))
        · intro k hk1 hk2
          simp only
          rw [exchange_getD _ _ _ (by omega) (by omega)]
          by_cases h1 : k = jn
          · rw [if_pos h1]
            have : q = jn := by omega
            rw [this]; exact hc
          · rw [if_neg h1]
            by_cases h2 : k = q
            · rw [if_pos h2]; exact hc
            · rw [if_neg h2]; exact a5 k hk1 (by omega)
        · intro k hk1 hk2
          simp only
          rw [exchange_getD _ _ _ (by omega) (by omega)]
          by_cases h1 : k = jn
          · rw [if_pos h1]
            exact a6 q le_rfl (by omega)
          · rw [if_neg h1, if_neg (by omega)]
            exact a6 k (by omega) (by omega)
      · refine ⟨s, ?_, q, jn + 1, by push_cast; rfl, e2, a1, by omega, by omega, a4, a5, ?_⟩
        · unfold partition_body
          rw [read_nat _ _ (by omega)]
          simp only [Option.some_bind, if_neg hc]
        · intro k hk1 hk2
          by_cases h1 : k = jn
          · rw [h1]; exact not_lt.mp hc
          · exact a6 k hk1 (by omega))
  have hq : s = (s.1, (q : Int) - 1) := by rw [← e2]
  rw [hq] at h1
  have hj : jn = hi := by omega
  subst hj
  exact ⟨s.1, q, h1, a1, a2, a4, a5, a6⟩

theorem partition_spec (arr : List Int) (lo hi : Nat) (hlt : lo < hi)
    (hhi : hi < arr.length) :
    ∃ (arr1 : List Int) (p : Nat), partition arr (lo : Int) (hi : Int) = some (arr1, (p : Int)) ∧
      lo ≤ p ∧ p ≤ hi ∧ shuffled lo (hi + 1) arr arr1 ∧
      (∀ k, lo ≤ k → k < p → arr1.getD k 0 < arr1.getD p 0) ∧
      (∀ k, p < k → k ≤ hi → arr1.getD p 0 ≤ arr1.getD k 0) := by
  obtain ⟨arr1, q, h1, a1, a2, a4, a5, a6⟩ :=
    partition_loop_spec arr lo hi hlt hhi (arr.getD hi 0)
  have hlen : arr1.length = arr.length := a4.1
  have hpiv : arr1.getD hi 0 = arr.getD hi 0 := a4.2.2.1 hi (Or.inr le_rfl)
  refine ⟨(arr1.set q (arr1.getD hi 0)).set hi (arr1.getD q 0), q, ?_, a1, a2, ?_, ?_, ?_⟩
  · unfold partition
    rw [read_nat arr hi hhi]
    simp only [Option.some_bind]
    rw [h1]
    simp only [Option.some_bind, sub_add_cancel]
    rw [swap_nat _ _ _ (by omega) (by omega)]
    rfl
  · exact shuffled_trans lo (hi + 1) arr arr1 _
      (shuffled_mono lo hi lo (hi + 1) arr arr1 a4 le_rfl (by omega))
      (shuffled_exchange lo (hi + 1) arr1 q hi a1 (by omega) (by omega) (by omega) (by omega))
  · intro k hk1 hk2
    rw [exchange_getD _ _ _ (by omega) (by omega), exchange_getD _ _ _ (by omega) (by omega)]
    rw [if_neg (by omega), if_neg (by omega)]
    by_cases hqh : q = hi
    · rw [if_pos hqh, hqh, hpiv]
      exact a5 k hk1 hk2
    · rw [if_neg hqh, if_pos rfl, hpiv]
      exact a5 k hk1 hk2
  · intro k hk1 hk2
    rw [exchange_getD _ _ _ (by omega) (by omega), exchange_getD _ _ _ (by omega) (by omega)]
    have hqh : ¬ q = hi := by omega
    rw [if_neg hqh, if_pos rfl, hpiv]
    by_cases h1 : k = hi
    · rw [if_pos h1]
      exact a6 q le_rfl (by omega)
    · rw [if_neg h1, if_neg (by omega)]
      exact a6 k (by omega) (by omega)

/-- With more fuel than cells in the range, `quicksort` on `lo .. hi1 - 1` returns the
array with that range rearranged into non-decreasing order. -/
theorem quicksort_spec : ∀ (fuel : Nat) (arr : List Int) (lo hi1 : Nat),
    hi1 ≤ arr.length → hi1 - lo < fuel →
    ∃ arr', quicksort fuel arr (lo : Int) ((hi1 : Int) - 1) = some arr' ∧
      shuffled lo hi1 arr arr' ∧ sorted_on arr' lo hi1 := by
  intro fuel
  induction fuel with
  | zero => intro arr lo hi1 _ h; omega
  | succ fuel ih =>
    intro arr lo hi1 hlen hfuel
    by_cases hlt : (lo : Int) < (hi1 : Int) - 1
    · have hhi : ((hi1 : Int) - 1) = ((hi1 - 1 : ℕ) : Int) := by omega
      obtain ⟨arr1, p, hp, p1, p2, sh1, lt1, ge1⟩ :=
        partition_spec arr lo (hi1 - 1) (by omega) (by omega)
      have hsub : hi1 - 1 + 1 = hi1 := by omega
      rw [hsub] at sh1
      have len1 : arr1.length = arr.length := sh1.1
      obtain ⟨arr2, h2, sh2, so2⟩ := ih arr1 lo p (by omega) (by omega)
      have len2 : arr2.length = arr1.length := sh2.1
      obtain ⟨arr3, h3, sh3, so3⟩ := ih arr2 (p + 1) hi1 (by omega) (by omega)
      refine ⟨arr3, ?_, ?_, ?_⟩
      · rw [quicksort, if_pos hlt, hhi, hp]
        simp only [Option.some_bind]
        rw [h2]
        simp only [Option.some_bind]
        rw [← hhi]
        have : ((p : Int) + 1) = ((p + 1 : ℕ) : Int) := by push_cast; rfl
        rw [this]
        exact h3
      · exact shuffled_trans lo hi1 arr arr2 arr3
          (shuffled_trans lo hi1 arr arr1 arr2 sh1
            (shuffled_mono lo p lo hi1 arr1 arr2 sh2 le_rfl (by omega)))
          (shuffled_mono (p + 1) hi1 lo hi1 arr2 arr3 sh3 (by omega) le_rfl)
      · -- values of the final array, by position relative to the pivot cell `p`
        have left3 : ∀ k, k < p + 1 → arr3.getD k 0 = arr2.getD k 0 :=
          fun k hk => sh3.2.2.1 k (Or.inl hk)
        have right2 : ∀ k, p ≤ k → arr2.getD k 0 = arr1.getD k 0 :=
          fun k hk => sh2.2.2.1 k (Or.inr hk)
        have hpiv : arr3.getD p 0 = arr1.getD p 0 := by
          rw [left3 p (by omega), right2 p le_rfl]
        have hleft : ∀ k, lo ≤ k → k < p → arr3.getD k 0 < arr1.getD p 0 := by
          intro k hk1 hk2
          rw [left3 k (by omega)]
          obtain ⟨k', b1, b2, b3⟩ := sh2.2.2.2 k hk1 hk2
          rw [b3]
          exact lt1 k' b1 b2
        have hright : ∀ k, p < k → k < hi1 → arr1.getD p 0 ≤ arr3.getD k 0 := by
          intro k hk1 hk2
          obtain ⟨k', b1, b2, b3⟩ := sh3.2.2.2 k (by omega) hk2
          rw [b3, right2 k' (by omega)]
          exact ge1 k' (by omega) (by omega)
        intro a b ha hab hb
        by_cases hbp : b < p
        · rw [left3 a (by omega), left3 b (by omega)]
          exact so2 a b ha hab hbp
        · by_cases hap : p < a
          · exact so3 a b (by omega) hab hb
          · -- a ≤ p ≤ b
            by_cases ha2 : a = p
            · by_cases hb2 : b = p
              · rw [ha2, hb2]
              · rw [ha2, hpiv]
                exact hright b (by omega) hb
            · have h1 := hleft a ha (by omega)
              by_cases hb2 : b = p
              · rw [hb2, hpiv]; exact le_of_lt h1
              · exact le_trans (le_of_lt h1) (hright b (by omega) hb)
    · refine ⟨arr, ?_, shuffled_refl lo hi1 arr, ?_⟩
      · rw [quicksort, if_neg hlt]
      · intro a b ha hab hb
        have : a = b := by omega
        rw [this]

/-- On a table that holds the Fibonacci numbers for `2 ≤ k ≤ N` and `-1` elsewhere,
`fibonacci n` for `n ≤ N` returns the Fibonacci number and leaves the table as it is. -/
theorem fibonacci_hit (N : Nat) (fib_memo : Nat → Int)
    (hf : ∀ k, fib_memo k = if 2 ≤ k ∧ k ≤ N then (Nat.fib k : Int) else -1)
    (n : Nat) (hn : n ≤ N) (hmax : n < MAX_FIB) :
    fibonacci n fib_memo = some ((Nat.fib n : Int), fib_memo) := by
  match n with
  | 0 => simp [fibonacci]
  | 1 => simp [fibonacci]
  | n + 2 =>
    have hv : fib_memo (n + 2) = (Nat.fib (n + 2) : Int) := by
      rw [hf (n + 2), if_pos ⟨by omega, hn⟩]
    have hne : fib_memo (n + 2) ≠ -1 := by
      rw [hv]
      have : (0 : Int) ≤ (Nat.fib (n + 2) : Int) := Int.natCast_nonneg _
      omega
    rw [fibonacci, if_pos hmax, if_pos hne, hv]

theorem fibonacci_next (N : Nat) (fib_memo : Nat → Int)
    (hf : ∀ k, fib_memo k = if 2 ≤ k ∧ k ≤ N then (Nat.fib k : Int) else -1)
    (hmax : N + 1 < MAX_FIB) :
    ∃ memo', fibonacci (N + 1) fib_memo = some ((Nat.fib (N + 1) : Int), memo') ∧
      ∀ k, memo' k = if 2 ≤ k ∧ k ≤ N + 1 then (Nat.fib k : Int) else -1 := by
  match N with
  | 0 =>
    refine ⟨fib_memo, by simp [fibonacci], fun k => ?_⟩
    rw [hf k, if_neg (by omega), if_neg (by omega)]
  | M + 1 =>
    have hmiss : ¬ fib_memo (M + 2) ≠ -1 := by
      rw [hf (M + 2), if_neg (by omega)]; simp
    have h1 := fibonacci_hit (M + 1) fib_memo hf (M + 1) le_rfl (by omega)
    have h2 := fibonacci_hit (M + 1) fib_memo hf M (by omega) (by omega)
    have hfib : (Nat.fib (M + 1) : Int) + (Nat.fib M : Int) = (Nat.fib (M + 2) : Int) := by
      rw [Nat.fib_add_two]; push_cast; ring
    refine ⟨Function.update fib_memo (M + 2) ((Nat.fib (M + 2) : Int)), ?_, fun k => ?_⟩
    · rw [fibonacci, if_pos hmax, if_neg hmiss, h1]
      simp only [Option.some_bind]
      rw [h2]
      simp only [Option.some_bind, hfib]
    · by_cases hk : k = M + 2
      · subst hk
        rw [Function.update_same, if_pos ⟨by omega, le_rfl⟩]
      · rw [Function.update_noteq hk, hf k]
        by_cases h2k : 2 ≤ k ∧ k ≤ M + 1
        · rw [if_pos h2k, if_pos ⟨h2k.1, by omega⟩]
        · rw [if_neg h2k, if_neg (by omega)]

theorem fibonacci_next_two (N : Nat) (fib_memo : Nat → Int)
    (hf : ∀ k, fib_memo k = if 2 ≤ k ∧ k ≤ N then (Nat.fib k : Int) else -1)
    (hmax : N + 2 < MAX_FIB) :
    ∃ memo', fibonacci (N + 2) fib_memo = some ((Nat.fib (N + 2) : Int), memo') ∧
      ∀ k, memo' k = if 2 ≤ k ∧ k ≤ N + 2 then (Nat.fib k : Int) else -1 := by
  have hmiss : ¬ fib_memo (N + 2) ≠ -1 := by
    rw [hf (N + 2), if_neg (by omega)]; simp
  obtain ⟨m1, h1, hf1⟩ := fibonacci_next N fib_memo hf (by omega)
  have h2 := fibonacci_hit (N + 1) m1 hf1 N (by omega) (by omega)
  have hfib : (Nat.fib (N + 1) : Int) + (Nat.fib N : Int) = (Nat.fib (N + 2) : Int) := by
    rw [Nat.fib_add_two]; push_cast; ring
  refine ⟨Function.update m1 (N + 2) ((Nat.fib (N + 2) : Int)), ?_, fun k => ?_⟩
  · rw [fibonacci, if_pos hmax, if_neg hmiss, h1]
    simp only [Option.some_bind]
    rw [h2]
    simp only [Option.some_bind, hfib]
  · by_cases hk : k = N + 2
    · subst hk
      rw [Function.update_same, if_pos ⟨by omega, le_rfl⟩]
    · rw [Function.update_noteq hk, hf1 k]
      by_cases h2k : 2 ≤ k ∧ k ≤ N + 1
      · rw [if_pos h2k, if_pos ⟨h2k.1, by omega⟩]
      · rw [if_neg h2k, if_neg (by omega)]

/-- The table after the precomputation: Fibonacci numbers in the cells from 2 to the
largest even number not above `max_valor`, and `-1` in every other cell. -/
theorem fib_table_spec (vetor : List Int) (max_valor : Nat) (hne : 0 < vetor.length)
    (hlast : vetor.getD (vetor.length - 1) 0 = (max_valor : Int))
    (hmax : max_valor < MAX_FIB) :
    ∃ fib_memo, fib_table vetor = some fib_memo ∧
      ∀ k, fib_memo k =
        if 2 ≤ k ∧ k ≤ 2 * (max_valor / 2) then (Nat.fib k : Int) else -1 := by
  obtain ⟨m, h1, h2⟩ := loop_by_two_inv
    (fun i fib_memo => (fibonacci i fib_memo).bind fun r => some r.2)
    (fun i fib_memo => ∀ k, fib_memo k = if 2 ≤ k ∧ k ≤ i - 2 then (Nat.fib k : Int) else -1)
    (max_valor / 2) 2 (fun _ => -1)
    (fun k => by rw [if_neg (by omega)])
    (by
      intro c s hc hP
      have e : 2 + 2 * c - 2 = 2 * c := by omega
      rw [e] at hP
      obtain ⟨memo', g1, g2⟩ := fibonacci_next_two (2 * c) s hP (by omega)
      refine ⟨memo', ?_, ?_⟩
      · have e2 : 2 + 2 * c = 2 * c + 2 := by omega
        beta_reduce
        rw [e2, g1]; rfl
      · have e3 : 2 + 2 * c + 2 - 2 = 2 * c + 2 := by omega
        beta_reduce
        rw [e3]; exact g2)
  refine ⟨m, ?_, fun k => ?_⟩
  · unfold fib_table IntArray.read
    have e1 : ((vetor.length : Int) - 1) = ((vetor.length - 1 : ℕ) : Int) := by omega
    rw [e1, if_pos (Int.natCast_nonneg _), Int.toNat_natCast,
      List.getElem?_eq_getElem (by omega)]
    have e2 : vetor[vetor.length - 1] = (max_valor : Int) := by
      rw [← hlast, List.getD_eq_getElem?_getD, List.getElem?_eq_getElem (by omega)]
      rfl
    rw [e2]
    simp only [Option.some_bind, Int.toNat_natCast]
    exact h1
  · have e : 2 + 2 * (max_valor / 2) - 2 = 2 * (max_valor / 2) := by omega
    rw [h2 k, e]

theorem table_sum_spec (vetor : List Int) (fib_memo : Nat → Int)
    (hv : ∀ i, i < vetor.length → 0 ≤ vetor.getD i 0 ∧ (vetor.getD i 0).toNat < MAX_FIB) :
    Leapfrog.forLoop 0 vetor.length (table_sum_body vetor fib_memo) 0 =
      some (∑ i ∈ Finset.range vetor.length, fib_memo (vetor.getD i 0).toNat) := by
  obtain ⟨r, h1, h2⟩ := Leapfrog.forLoop_inv (table_sum_body vetor fib_memo)
    (fun i soma => soma = ∑ j ∈ Finset.range i, fib_memo (vetor.getD j 0).toNat)
    0 vetor.length (0 : Int) (Nat.zero_le _) (by simp)
    (by
      intro i soma _ hi e
      refine ⟨soma + fib_memo (vetor.getD i 0).toNat, ?_, ?_⟩
      · have hg : vetor[i]? = some (vetor.getD i 0) := by
          rw [List.getD_eq_getElem?_getD, List.getElem?_eq_getElem hi]; rfl
        unfold table_sum_body table_read
        rw [hg]
        simp only [Option.some_bind]
        rw [if_pos (hv i hi)]
        rfl
      · beta_reduce
        rw [Finset.sum_range_succ, e])
  rw [h1, h2]

theorem getD_replicate_int (n i : Nat) (v : Int) (hi : i < n) :
    (List.replicate n v).getD i 0 = v := by
  simp [List.getD_eq_getElem?_getD, List.getElem?_replicate, hi]

/-- On an array of `n ≥ 1` copies of `v` the table is filled up to the largest even number
not above `v`, and the optimized program prints `n` times the cell `fib_memo[v]`. -/
theorem constant_array_table (n v : Nat) (hn : 0 < n) (hv : v < MAX_FIB) :
    ∃ fib_memo, fib_table (List.replicate n (v : Int)) = some fib_memo ∧
      (∀ k, fib_memo k = if 2 ≤ k ∧ k ≤ 2 * (v / 2) then (Nat.fib k : Int) else -1) ∧
      table_sum (List.replicate n (v : Int)) = some ((n : Int) * fib_memo v) := by
  obtain ⟨m, h1, h2⟩ := fib_table_spec (List.replicate n (v : Int)) v (by simpa using hn)
    (by rw [getD_replicate_int _ _ _ (by simp; omega)]) hv
  have hsum := table_sum_spec (List.replicate n (v : Int)) m (fun i hi => by
    rw [getD_replicate_int _ _ _ (by simpa using hi)]
    exact ⟨Int.natCast_nonneg _, by simpa using hv⟩)
  refine ⟨m, h1, h2, ?_⟩
  unfold table_sum
  rw [h1]
  simp only [Option.some_bind]
  rw [hsum]
  have : ∀ i ∈ Finset.range (List.replicate n (v : Int)).length,
      m ((List.replicate n (v : Int)).getD i 0).toNat = m v := by
    intro i hi
    rw [getD_replicate_int _ _ _ (by simpa using hi), Int.toNat_natCast]
  rw [Finset.sum_congr rfl this]
  simp

end MiniEp3

/-! ## Slowsort and the original summation -/

namespace MiniEp3Original

open IntArray

theorem midpoint_cast (i j : Nat) :
    Int.tdiv ((i : Int) + (j : Int)) 2 = (((i + j) / 2 : ℕ) : Int) := by
  have : (i : Int) + (j : Int) = ((i + j : ℕ) : Int) := by push_cast; rfl
  rw [this]
  exact (Int.ofNat_tdiv (i + j) 2).symm

/-- With more fuel than the range is long, `slowsort` on `i .. j` returns the array with
that range rearranged into non-decreasing order. -/
theorem slowsort_spec : ∀ (fuel : Nat) (arr : List Int) (i j : Nat),
    j < arr.length → i ≤ j → j - i < fuel →
    ∃ arr', slowsort fuel arr (i : Int) (j : Int) = some arr' ∧
      shuffled i (j + 1) arr arr' ∧ sorted_on arr' i (j + 1) := by
  intro fuel
  induction fuel with
  | zero => intro arr i j _ _ h; omega
  | succ fuel ih =>
    intro arr i j hlen hij hfuel
    by_cases hge : (i : Int) ≥ (j : Int)
    · refine ⟨arr, ?_, shuffled_refl i (j + 1) arr, ?_⟩
      · rw [slowsort, if_pos hge]
      · intro a b ha hab hb
        have : a = b := by omega
        rw [this]
    · have hlt : i < j := by omega
      have hm1 : i ≤ (i + j) / 2 := by omega
      have hm2 : (i + j) / 2 < j := by omega
      generalize hm : (i + j) / 2 = m at hm1 hm2
      obtain ⟨arr1, h1, sh1, so1⟩ := ih arr i m (by omega) hm1 (by omega)
      have len1 : arr1.length = arr.length := sh1.1
      obtain ⟨arr2, h2, sh2, so2⟩ := ih arr1 (m + 1) j (by omega) (by omega) (by omega)
      have len2 : arr2.length = arr1.length := sh2.1
      -- in `arr2` both halves are sorted
      have so1' : sorted_on arr2 i (m + 1) := by
        intro a b ha hab hb
        rw [sh2.2.2.1 a (Or.inl (by omega)), sh2.2.2.1 b (Or.inl hb)]
        exact so1 a b ha hab hb
      -- the array after the conditional exchange of the cells `j` and `m`
      have hex : ∃ arr4, (if arr2.getD j 0 < arr2.getD m 0 then
            (write arr2 (j : Int) (arr2.getD m 0)).bind fun arr3 =>
              write arr3 (m : Int) (arr2.getD j 0)
          else some arr2) = some arr4 ∧ shuffled i (j + 1) arr2 arr4 ∧
          ∀ k, i ≤ k → k < j → arr4.getD k 0 ≤ arr4.getD j 0 := by
        by_cases hc : arr2.getD j 0 < arr2.getD m 0
        · refine ⟨(arr2.set j (arr2.getD m 0)).set m (arr2.getD j 0), ?_, ?_, ?_⟩
          · rw [if_pos hc, write_nat _ _ _ (by omega)]
            simp only [Option.some_bind]
            rw [write_nat _ _ _ (by simp; omega)]
          · exact shuffled_exchange i (j + 1) arr2 j m (by omega) hm1 (by omega) (by omega)
              (by omega)
          · intro k hk1 hk2
            rw [exchange_getD _ _ _ (by omega) (by omega),
              exchange_getD _ _ _ (by omega) (by omega)]
            rw [if_neg (show ¬ j = m by omega), if_pos rfl]
            by_cases hkm : k = m
            · rw [if_pos hkm]; exact le_of_lt hc
            · rw [if_neg hkm, if_neg (show ¬ k = j by omega)]
              by_cases hk3 : k < m
              · exact so1' k m hk1 (by omega) (by omega)
              · exact le_trans (so2 k j (by omega) (by omega) (by omega)) (le_of_lt hc)
        · refine ⟨arr2, by rw [if_neg hc], shuffled_refl i (j + 1) arr2, ?_⟩
          intro k hk1 hk2
          by_cases hk3 : k ≤ m
          · exact le_trans (so1' k m hk1 hk3 (by omega)) (not_lt.mp hc)
          · exact so2 k j (by omega) (by omega) (by omega)
      obtain ⟨arr4, h4, sh4, max4⟩ := hex
      have len4 : arr4.length = arr2.length := sh4.1
      obtain ⟨arr5, h5, sh5, so5⟩ := ih arr4 i (j - 1) (by omega) (by omega) (by omega)
      have hj1 : j - 1 + 1 = j := by omega
      rw [hj1] at sh5 so5
      refine ⟨arr5, ?_, ?_, ?_⟩
      · rw [slowsort, if_neg hge]
        simp only
        rw [midpoint_cast, hm, h1]
        simp only [Option.some_bind]
        have e1 : ((m : Int) + 1) = ((m + 1 : ℕ) : Int) := by push_cast; rfl
        rw [e1, h2]
        simp only [Option.some_bind]
        rw [read_nat _ _ (by omega), read_nat _ _ (by omega)]
        simp only [Option.some_bind]
        rw [h4]
        simp only [Option.some_bind]
        have e2 : ((j : Int) - 1) = ((j - 1 : ℕ) : Int) := by omega
        rw [e2]
        exact h5
      · exact shuffled_trans i (j + 1) arr arr4 arr5
          (shuffled_trans i (j + 1) arr arr2 arr4
            (shuffled_trans i (j + 1) arr arr1 arr2
              (shuffled_mono i (m + 1) i (j + 1) arr arr1 sh1 le_rfl (by omega))
              (shuffled_mono (m + 1) (j + 1) i (j + 1) arr1 arr2 sh2 (by omega) le_rfl))
            sh4)
          (shuffled_mono i j i (j + 1) arr4 arr5 sh5 le_rfl (by omega))
      · intro a b ha hab hb
        by_cases hbj : b < j
        · exact so5 a b ha hab hbj
        · have hb2 : b = j := by omega
          subst hb2
          by_cases haj : a = b
          · rw [haj]
          · obtain ⟨k', b1, b2, b3⟩ := sh5.2.2.2 a ha (by omega)
            rw [b3, sh5.2.2.1 b (Or.inr le_rfl)]
            exact max4 k' b1 b2

theorem parity_sum_spec (vetor : List Int) :
    Leapfrog.forLoop 0 vetor.length (parity_sum_body vetor) 0 =
      some (∑ i ∈ Finset.range vetor.length,
        if Int.tmod (fibonacci (vetor.getD i 0)) 2 = 0 then fibonacci (vetor.getD i 0) else 0) := by
  obtain ⟨r, h1, h2⟩ := Leapfrog.forLoop_inv (parity_sum_body vetor)
    (fun i soma => soma = ∑ j ∈ Finset.range i,
      if Int.tmod (fibonacci (vetor.getD j 0)) 2 = 0 then fibonacci (vetor.getD j 0) else 0)
    0 vetor.length (0 : Int) (Nat.zero_le _) (by simp)
    (by
      intro i soma _ hi e
      have hg : vetor[i]? = some (vetor.getD i 0) := by
        rw [List.getD_eq_getElem?_getD, List.getElem?_eq_getElem hi]; rfl
      refine ⟨_, by unfold parity_sum_body; rw [hg]; rfl, ?_⟩
      beta_reduce
      rw [Finset.sum_range_succ, e]
      split <;> simp)
  rw [h1, h2]

theorem constant_array_sum (n : Nat) (v : Int) :
    parity_sum (List.replicate n v) =
      some ((n : Int) * (if Int.tmod (fibonacci v) 2 = 0 then fibonacci v else 0)) := by
  unfold parity_sum
  rw [parity_sum_spec]
  have : ∀ i ∈ Finset.range (List.replicate n v).length,
      (if Int.tmod (fibonacci ((List.replicate n v).getD i 0)) 2 = 0
        then fibonacci ((List.replicate n v).getD i 0) else 0)
        = (if Int.tmod (fibonacci v) 2 = 0 then fibonacci v else 0) := by
    intro i hi
    rw [MiniEp3.getD_replicate_int _ _ _ (by simpa using hi)]
  rw [Finset.sum_congr rfl this]
  simp

end MiniEp3Original

/-! ## Claims on the sorting and Fibonacci exercise -/

namespace MiniEp3

open IntArray

/-- C16: for every `int` array `arr` and indices `0 ≤ low ≤ high < length`,
`quicksort(arr, low, high)` terminates (every recursion depth above the number of cells
of the range is enough) and leaves `arr[low..high]` in non-decreasing order and a
permutation of its previous contents, with every cell outside `[low, high]` unchanged. -/
theorem quicksort_sorts (arr : List Int) (low high fuel : Nat) (hlh : low ≤ high)
    (hhi : high < arr.length) (hfuel : high + 1 - low < fuel) :
    ∃ arr', quicksort fuel arr (low : Int) (high : Int) = some arr' ∧
      arr'.length = arr.length ∧
      (∀ a b, low ≤ a → a ≤ b → b ≤ high → arr'.getD a 0 ≤ arr'.getD b 0) ∧
      ((arr'.drop low).take (high + 1 - low)).Perm ((arr.drop low).take (high + 1 - low)) ∧
      (∀ k, k < low ∨ high < k → arr'[k]? = arr[k]?) := by
  obtain ⟨arr', h, sh, so⟩ := quicksort_spec fuel arr low (high + 1) (by omega) hfuel
  have hc : (((high + 1 : ℕ) : Int) - 1) = (high : Int) := by push_cast; omega
  rw [hc] at h
  refine ⟨arr', h, sh.1, fun a b ha hab hb => so a b ha hab (by omega),
    shuffled_slice_perm low (high + 1) arr arr' sh (by omega), fun k hk => ?_⟩
  exact getElem_opt_eq_of_getD arr arr' sh.1 k (sh.2.2.1 k (by omega))

/-- Witness for C16: the cells 1 to 5 of a seven-cell array. -/
theorem quicksort_sorts_witness :
    (1 ≤ 5 ∧ 5 < ([5, 3, 9, 1, 4, 4, 7] : List Int).length ∧ 5 + 1 - 1 < 6) ∧
    ∃ arr', quicksort 6 [5, 3, 9, 1, 4, 4, 7] ((1 : ℕ) : Int) ((5 : ℕ) : Int) = some arr' ∧
      arr'.length = ([5, 3, 9, 1, 4, 4, 7] : List Int).length ∧
      (∀ a b, 1 ≤ a → a ≤ b → b ≤ 5 → arr'.getD a 0 ≤ arr'.getD b 0) ∧
      ((arr'.drop 1).take (5 + 1 - 1)).Perm
        ((([5, 3, 9, 1, 4, 4, 7] : List Int).drop 1).take (5 + 1 - 1)) ∧
      (∀ k, k < 1 ∨ 5 < k → arr'[k]? = ([5, 3, 9, 1, 4, 4, 7] : List Int)[k]?) :=
  ⟨⟨by decide, by decide, by decide⟩,
    quicksort_sorts [5, 3, 9, 1, 4, 4, 7] 1 5 6 (by decide) (by decide) (by decide)⟩

end MiniEp3

namespace MiniEp3Original

open IntArray

/-- C17: for every `int` array `arr` and indices `0 ≤ i ≤ j < length`,
`slowsort(arr, i, j)` terminates (for `i < j` its three recursive calls, on `i..m`,
`m+1..j` and `i..j-1` with `m = (i + j) / 2`, are on strictly shorter ranges, so every
recursion depth above `j - i` is enough) and leaves `arr[i..j]` in non-decreasing order
and a permutation of its previous contents, with every cell outside `[i, j]` unchanged. -/
theorem slowsort_sorts (arr : List Int) (i j fuel : Nat) (hij : i ≤ j)
    (hj : j < arr.length) (hfuel : j - i < fuel) :
    (i < j → (i + j) / 2 - i < j - i ∧ j - ((i + j) / 2 + 1) < j - i ∧ j - 1 - i < j - i) ∧
    ∃ arr', slowsort fuel arr (i : Int) (j : Int) = some arr' ∧
      arr'.length = arr.length ∧
      (∀ a b, i ≤ a → a ≤ b → b ≤ j → arr'.getD a 0 ≤ arr'.getD b 0) ∧
      ((arr'.drop i).take (j + 1 - i)).Perm ((arr.drop i).take (j + 1 - i)) ∧
      (∀ k, k < i ∨ j < k → arr'[k]? = arr[k]?) := by
  refine ⟨fun h => by omega, ?_⟩
  obtain ⟨arr', h, sh, so⟩ := slowsort_spec fuel arr i j hj hij hfuel
  refine ⟨arr', h, sh.1, fun a b ha hab hb => so a b ha hab (by omega),
    shuffled_slice_perm i (j + 1) arr arr' sh (by omega), fun k hk => ?_⟩
  exact getElem_opt_eq_of_getD arr arr' sh.1 k (sh.2.2.1 k (by omega))

/-- Witness for C17: the cells 1 to 5 of a seven-cell array. -/
theorem slowsort_sorts_witness :
    (1 ≤ 5 ∧ 5 < ([5, 3, 9, 1, 4, 4, 7] : List Int).length ∧ 5 - 1 < 5) ∧
    (1 < 5 → (1 + 5) / 2 - 1 < 5 - 1 ∧ 5 - ((1 + 5) / 2 + 1) < 5 - 1 ∧ 5 - 1 - 1 < 5 - 1) ∧
    ∃ arr', slowsort 5 [5, 3, 9, 1, 4, 4, 7] ((1 : ℕ) : Int) ((5 : ℕ) : Int) = some arr' ∧
      arr'.length = ([5, 3, 9, 1, 4, 4, 7] : List Int).length ∧
      (∀ a b, 1 ≤ a → a ≤ b → b ≤ 5 → arr'.getD a 0 ≤ arr'.getD b 0) ∧
      ((arr'.drop 1).take (5 + 1 - 1)).Perm
        ((([5, 3, 9, 1, 4, 4, 7] : List Int).drop 1).take (5 + 1 - 1)) ∧
      (∀ k, k < 1 ∨ 5 < k → arr'[k]? = ([5, 3, 9, 1, 4, 4, 7] : List Int)[k]?) :=
  ⟨⟨by decide, by decide, by decide⟩,
    slowsort_sorts [5, 3, 9, 1, 4, 4, 7] 1 5 5 (by decide) (by decide) (by decide)⟩

end MiniEp3Original

namespace MiniEp3

open IntArray

/-- C18 fails on the code: for the sorted array of 200 values all equal to 5 (each in
4..32) the precomputation calls `fibonacci` for `i = 2` and `i = 4` only, the cell
`fib_memo[5]` that the summation loop reads still holds `-1`, and the Fibonacci number
of 5 is 5. -/
theorem table_misses_odd_maximum :
    (∀ a b, a ≤ b → b < 200 →
      (List.replicate 200 (5 : Int)).getD a 0 ≤ (List.replicate 200 (5 : Int)).getD b 0) ∧
    (∀ v ∈ List.replicate 200 (5 : Int), 4 ≤ v ∧ v ≤ 32) ∧
    ∃ fib_memo, fib_table (List.replicate 200 (5 : Int)) = some fib_memo ∧
      fib_memo 4 = 3 ∧ fib_memo 5 = -1 ∧ table_read fib_memo 5 = some (-1) ∧
      (Nat.fib 5 : Int) = 5 ∧
      table_sum (List.replicate 200 (5 : Int)) = some (-200) := by
  obtain ⟨m, h1, h2, h3⟩ := constant_array_table 200 5 (by decide) (by decide)
  have h5 : m 5 = -1 := by rw [h2 5]; decide
  refine ⟨fun a b hab hb => ?_, fun v hv => ?_, m, h1, by rw [h2 4]; decide, h5, ?_,
    by decide, ?_⟩
  · rw [getD_replicate_int _ _ _ (by omega), getD_replicate_int _ _ _ hb]
  · rw [List.eq_of_mem_replicate hv]; decide
  · unfold table_read
    rw [if_pos (by decide)]
    exact congrArg some h5
  · have e : (List.replicate 200 (5 : Int)) = List.replicate 200 ((5 : ℕ) : Int) := rfl
    rw [e, h3, h5]
    rfl

/-- C19 fails on the code: for the sorted array of 200 values all equal to 4 (each in
4..32) the optimized program adds `fib_memo[4] = 3` for every element and gets `600`,
while the loop of the original program adds nothing, the Fibonacci number 3 being odd,
and gets `0`. -/
theorem sums_differ :
    (∀ v ∈ List.replicate 200 (4 : Int), 4 ≤ v ∧ v ≤ 32) ∧
    table_sum (List.replicate 200 (4 : Int)) = some 600 ∧
    MiniEp3Original.parity_sum (List.replicate 200 (4 : Int)) = some 0 := by
  obtain ⟨m, h1, h2, h3⟩ := constant_array_table 200 4 (by decide) (by decide)
  have h4 : m 4 = 3 := by rw [h2 4]; decide
  refine ⟨fun v hv => ?_, ?_, ?_⟩
  · rw [List.eq_of_mem_replicate hv]; decide
  · have e : (List.replicate 200 (4 : Int)) = List.replicate 200 ((4 : ℕ) : Int) := rfl
    rw [e, h3, h4]
    rfl
  · rw [MiniEp3Original.constant_array_sum]
    decide

end MiniEp3
